import Mathlib

/-!
Verification of the Arborist training core against its specification.

The development shallowly embeds the split-finding, sampling and replay
routines of the repository.  Doubles are modelled as rationals, unsigned
integers as naturals (with truncated subtraction where the source relies
on unsigned subtraction), and per-tree random draws as explicit inputs.
Each embedded definition is written from the corresponding source
function; definitions marked as modelled from the spec stand in for code
of the repository that is declared but whose implementation is not part
of the source tree.
-/

set_option maxHeartbeats 1600000

/-- One staged observation cell as read off by SampleRank::RegFields in
    samplepred.h: a response sum, a rank and a sample count. -/
structure SampleRank where
  ySum : ℚ
  rank : ℕ
  sCount : ℕ
deriving Repr, DecidableEq, Inhabited

/-- Scan state of the right-to-left numeric walk of SplitCoord::SplitNum
    and SplitCoord::SplitNumMono (splitpred.cc): the running right-hand
    sum, the left-hand sample count, the rank seen immediately to the
    right, the running maximum information and the recorded argmax data
    (left sample count and supremum index of the left block). -/
structure NumState where
  sumR : ℚ
  sCountL : ℕ
  rkRight : ℕ
  maxInfo : ℚ
  lhSampCt : ℕ
  lhSup : ℕ
deriving Repr, DecidableEq

/-- Monotone acceptance test shared by SplitCoord::SplitNumMono
    (splitpred.cc lines 832 to 834): with mode 0 every cut is admitted;
    otherwise the cut is admitted iff the comparison
    sumL * sCountR <= sumR * sCountL agrees with the mode sign. -/
def monoOK (mm : ℤ) (sumL sumR : ℚ) (sCountL sCountR : ℕ) : Bool :=
  if mm = 0 then true
  else if 0 < mm then decide (sumL * (sCountR : ℚ) ≤ sumR * (sCountL : ℚ))
  else decide (¬ (sumL * (sCountR : ℚ) ≤ sumR * (sCountL : ℚ)))

/-- SPReg::MonoMode (splitpred.cc lines 360 to 368): the sign of the
    monotone probability when the per-node uniform variate falls inside
    the splitting probability, else zero. -/
def MonoMode (monoProb u : ℚ) : ℤ :=
  let sign : ℤ := if 0 < monoProb then 1 else if monoProb < 0 then -1 else 0
  if (sign : ℚ) * u < monoProb then sign else 0

/-- One iteration of the backward walk of SplitCoord::SplitNum and
    SplitCoord::SplitNumMono (splitpred.cc lines 566 to 580 and
    826 to 843), processing the cell at position i.  The information of
    the boundary between i and i+1 is computed from the state, the
    argmax record is updated when the boundary improves the maximum, is
    untied and passes the monotone test, and then the running sums and
    right rank absorb the cell. -/
def splitNumStep (mm : ℤ) (sum : ℚ) (sCount : ℕ) (c : SampleRank) (i : ℕ)
    (st : NumState) : NumState :=
  let sCountR := sCount - st.sCountL
  let sumL := sum - st.sumR
  let idxGini := sumL * sumL / (st.sCountL : ℚ) + st.sumR * st.sumR / (sCountR : ℚ)
  let st1 :=
    if st.maxInfo < idxGini ∧ c.rank ≠ st.rkRight ∧ monoOK mm sumL st.sumR st.sCountL sCountR
    then { st with maxInfo := idxGini, lhSampCt := st.sCountL, lhSup := i }
    else st
  { st1 with sCountL := st1.sCountL - c.sCount, sumR := st1.sumR + c.ySum, rkRight := c.rank }

/-- The backward loop of SplitCoord::SplitNum: cells are supplied in
    scan order (reversed index order) together with the index of the
    head cell, which decreases as the walk proceeds. -/
def splitNumGo (mm : ℤ) (sum : ℚ) (sCount : ℕ) :
    List SampleRank → ℕ → NumState → NumState
  | [], _, st => st
  | c :: rest, i, st =>
      splitNumGo mm sum sCount rest (i - 1) (splitNumStep mm sum sCount c i st)

/-- The split signature written by NuxLH::InitNum for a winning numeric
    cut, relative to the candidate's starting index. -/
structure NuxLH where
  lhIdxCount : ℕ
  lhSCount : ℕ
  info : ℚ
  rankLH : ℕ
  rankRH : ℕ
deriving Repr, DecidableEq

/-- Index of the cell immediately left of the recorded cut. -/
def NuxLH.cutPos (n : NuxLH) : ℕ := n.lhIdxCount - 1

/-- Rank of the cell at position k of the candidate range. -/
def rankAt (cells : List SampleRank) (k : ℕ) : ℕ := (cells.getD k default).rank

/-- SplitCoord::SplitNum / SplitCoord::SplitNumMono (splitpred.cc lines
    553 to 589 and 812 to 851) for a candidate without an implicit rank:
    the state is seeded from the rightmost cell, the walk proceeds right
    to left over the remaining cells, and a split is written exactly
    when the final maximum exceeds the prebias, carrying the recorded
    argmax data and the ranks bounding the cut. -/
def splitNum (mm : ℤ) (sum : ℚ) (sCount : ℕ) (preBias : ℚ)
    (cells : List SampleRank) : Option NuxLH :=
  match cells.reverse with
  | [] => none
  | cEnd :: rest =>
      let st0 : NumState :=
        ⟨cEnd.ySum, sCount - cEnd.sCount, cEnd.rank, preBias, 0, cells.length - 1⟩
      let fin := splitNumGo mm sum sCount rest (cells.length - 2) st0
      if preBias < fin.maxInfo then
        some ⟨fin.lhSup + 1, fin.lhSampCt, fin.maxInfo - preBias,
              rankAt cells fin.lhSup, rankAt cells (fin.lhSup + 1)⟩
      else none

/-- Total response sum of a run of cells. -/
def ySumTot (cells : List SampleRank) : ℚ := (cells.map SampleRank.ySum).sum

/-- Total sample count of a run of cells. -/
def sCountTot (cells : List SampleRank) : ℕ := (cells.map SampleRank.sCount).sum

/-- Right-hand response sum of the boundary between positions k and k+1. -/
def sumRAt (cells : List SampleRank) (k : ℕ) : ℚ := ySumTot (cells.drop (k + 1))

/-- Right-hand sample count of the boundary between positions k and k+1. -/
def sCountRAt (cells : List SampleRank) (k : ℕ) : ℕ := sCountTot (cells.drop (k + 1))

/-- The weighted-variance score of the boundary between positions k and
    k+1: sumL * sumL / sCountL + sumR * sumR / sCountR for the left and
    right response decomposition of the candidate at that boundary. -/
def boundaryInfo (sum : ℚ) (sCount : ℕ) (cells : List SampleRank) (k : ℕ) : ℚ :=
  (sum - sumRAt cells k) * (sum - sumRAt cells k) / ((sCount - sCountRAt cells k : ℕ) : ℚ)
    + sumRAt cells k * sumRAt cells k / ((sCountRAt cells k : ℕ) : ℚ)

/-- A boundary is admissible when the ranks on its two sides differ. -/
def admissibleCut (cells : List SampleRank) (k : ℕ) : Prop :=
  rankAt cells k ≠ rankAt cells (k + 1)

/-- The monotone gate evaluated at the boundary between k and k+1. -/
def gateAt (mm : ℤ) (sum : ℚ) (sCount : ℕ) (cells : List SampleRank) (k : ℕ) : Prop :=
  monoOK mm (sum - sumRAt cells k) (sumRAt cells k)
    (sCount - sCountRAt cells k) (sCountRAt cells k) = true

/-- A boundary the scan may retain: admissible and passing the gate. -/
def acceptedCut (mm : ℤ) (sum : ℚ) (sCount : ℕ) (cells : List SampleRank) (k : ℕ) : Prop :=
  admissibleCut cells k ∧ gateAt mm sum sCount cells k

lemma sCountTot_append (a b : List SampleRank) :
    sCountTot (a ++ b) = sCountTot a + sCountTot b := by
  simp [sCountTot]

lemma sCountRAt_le (cells : List SampleRank) (k : ℕ) :
    sCountRAt cells k ≤ sCountTot cells := by
  have h : sCountTot (cells.take (k + 1)) + sCountTot (cells.drop (k + 1)) = sCountTot cells := by
    rw [← sCountTot_append, List.take_append_drop]
  have := Nat.le_add_left (sCountTot (cells.drop (k + 1))) (sCountTot (cells.take (k + 1)))
  unfold sCountRAt
  omega

lemma drop_succ_cells (cells : List SampleRank) (i : ℕ) (h : i < cells.length) :
    cells.drop i = cells.getD i default :: cells.drop (i + 1) := by
  rw [List.getD_eq_getElem cells default h]
  exact List.drop_eq_getElem_cons h

lemma ySumTot_drop (cells : List SampleRank) (i : ℕ) (h : i < cells.length) :
    ySumTot (cells.drop i) = (cells.getD i default).ySum + ySumTot (cells.drop (i + 1)) := by
  rw [drop_succ_cells cells i h]
  simp [ySumTot]

lemma sCountTot_drop (cells : List SampleRank) (i : ℕ) (h : i < cells.length) :
    sCountTot (cells.drop i) = (cells.getD i default).sCount + sCountTot (cells.drop (i + 1)) := by
  rw [drop_succ_cells cells i h]
  simp [sCountTot]

/-- Correspondence between the scan state and the boundary sums at
    position i: the state's running fields equal the right-hand sums of
    the boundary between i and i+1. -/
def AState (sCount : ℕ) (cells : List SampleRank) (i : ℕ) (st : NumState) : Prop :=
  st.sumR = sumRAt cells i ∧
  st.sCountL = sCount - sCountRAt cells i ∧
  st.rkRight = rankAt cells (i + 1)

/-- Running-maximum characterization: the scan state dominates every
    accepted boundary at position at least lo, and its recorded argmax
    data either still carries the prebias or names an accepted boundary
    attaining the maximum. -/
def MaxPart (mm : ℤ) (sum : ℚ) (sCount : ℕ) (preBias : ℚ) (cells : List SampleRank)
    (lo : ℕ) (st : NumState) : Prop :=
  preBias ≤ st.maxInfo ∧
  (∀ k, lo ≤ k → k + 1 < cells.length → acceptedCut mm sum sCount cells k →
    boundaryInfo sum sCount cells k ≤ st.maxInfo) ∧
  (st.maxInfo = preBias ∨
    ∃ k, lo ≤ k ∧ k + 1 < cells.length ∧ acceptedCut mm sum sCount cells k ∧
      boundaryInfo sum sCount cells k = st.maxInfo ∧ st.lhSup = k ∧
      st.lhSampCt = sCount - sCountRAt cells k)

lemma splitNumStep_sumR (mm : ℤ) (sum : ℚ) (sCount : ℕ) (c : SampleRank) (i : ℕ)
    (st : NumState) : (splitNumStep mm sum sCount c i st).sumR = st.sumR + c.ySum := by
  simp only [splitNumStep]
  split <;> rfl

lemma splitNumStep_sCountL (mm : ℤ) (sum : ℚ) (sCount : ℕ) (c : SampleRank) (i : ℕ)
    (st : NumState) : (splitNumStep mm sum sCount c i st).sCountL = st.sCountL - c.sCount := by
  simp only [splitNumStep]
  split <;> rfl

lemma splitNumStep_rkRight (mm : ℤ) (sum : ℚ) (sCount : ℕ) (c : SampleRank) (i : ℕ)
    (st : NumState) : (splitNumStep mm sum sCount c i st).rkRight = c.rank := rfl

lemma splitNumStep_A (mm : ℤ) (sum : ℚ) (sCount : ℕ) (cells : List SampleRank)
    (j : ℕ) (hj : j + 2 ≤ cells.length) (st : NumState)
    (hA : AState sCount cells (j + 1) st) :
    AState sCount cells j
      (splitNumStep mm sum sCount (cells.getD (j + 1) default) (j + 1) st) := by
  obtain ⟨h1, h2, _⟩ := hA
  have hlt : j + 1 < cells.length := by omega
  refine ⟨?_, ?_, ?_⟩
  · rw [splitNumStep_sumR, h1]
    unfold sumRAt
    rw [ySumTot_drop cells (j + 1) hlt]
    ring
  · rw [splitNumStep_sCountL, h2]
    unfold sCountRAt
    rw [sCountTot_drop cells (j + 1) hlt]
    omega
  · rw [splitNumStep_rkRight]
    rfl

lemma splitNumStep_max (mm : ℤ) (sum : ℚ) (sCount : ℕ) (preBias : ℚ)
    (cells : List SampleRank) (hcnt : sCount = sCountTot cells)
    (i : ℕ) (hi : i + 1 < cells.length) (st : NumState)
    (hA : AState sCount cells i st)
    (hM : MaxPart mm sum sCount preBias cells (i + 1) st) :
    MaxPart mm sum sCount preBias cells i
      (splitNumStep mm sum sCount (cells.getD i default) i st) := by
  obtain ⟨h1, h2, h3⟩ := hA
  obtain ⟨hm1, hm2, hm3⟩ := hM
  have hRle : sCountRAt cells i ≤ sCount := by
    rw [hcnt]; exact sCountRAt_le cells i
  have hRR : sCount - st.sCountL = sCountRAt cells i := by omega
  have hBI : (sum - st.sumR) * (sum - st.sumR) / (st.sCountL : ℚ)
      + st.sumR * st.sumR / ((sCount - st.sCountL : ℕ) : ℚ)
      = boundaryInfo sum sCount cells i := by
    rw [hRR, h1, h2]
    rfl
  simp only [splitNumStep]
  split
  case isTrue hcond =>
    obtain ⟨hlt, hne, hgate⟩ := hcond
    unfold MaxPart
    refine ⟨?_, ?_, ?_⟩
    · exact le_of_lt (lt_of_le_of_lt hm1 hlt)
    · intro k hk hk1 hacc
      show boundaryInfo sum sCount cells k ≤ _
      rw [show (({ st with
            maxInfo := (sum - st.sumR) * (sum - st.sumR) / (st.sCountL : ℚ)
              + st.sumR * st.sumR / ((sCount - st.sCountL : ℕ) : ℚ),
            lhSampCt := st.sCountL, lhSup := i} : NumState) : NumState).maxInfo
          = boundaryInfo sum sCount cells i from hBI]
      rcases Nat.eq_or_lt_of_le hk with heq | hlt2
      · rw [← heq]
      · exact le_trans (hm2 k hlt2 hk1 hacc) (le_of_lt (by rw [hBI] at hlt; exact hlt))
    · refine Or.inr ⟨i, le_refl i, hi, ⟨?_, ?_⟩, ?_, rfl, ?_⟩
      · show rankAt cells i ≠ rankAt cells (i + 1)
        rw [h3] at hne
        exact hne
      · show monoOK mm _ _ _ _ = true
        rw [hRR, h1, h2] at hgate
        exact hgate
      · exact hBI.symm
      · exact h2
  case isFalse hcond =>
    unfold MaxPart
    refine ⟨hm1, ?_, ?_⟩
    · intro k hk hk1 hacc
      rcases Nat.eq_or_lt_of_le hk with heq | hlt2
      · subst heq
        have hne : (cells.getD i default).rank ≠ st.rkRight := by
          rw [h3]; exact hacc.1
        have hg : monoOK mm (sum - st.sumR) st.sumR st.sCountL (sCount - st.sCountL) = true := by
          rw [hRR, h1, h2]; exact hacc.2
        have hnlt : ¬ st.maxInfo < (sum - st.sumR) * (sum - st.sumR) / (st.sCountL : ℚ)
            + st.sumR * st.sumR / ((sCount - st.sCountL : ℕ) : ℚ) :=
          fun hlt => hcond ⟨hlt, hne, hg⟩
        have hle := not_lt.mp hnlt
        rw [hBI] at hle
        exact hle
      · exact hm2 k hlt2 hk1 hacc
    · rcases hm3 with hpre | ⟨k, hk, hk1, hacc, hbi, hsup, hct⟩
      · exact Or.inl hpre
      · exact Or.inr ⟨k, by omega, hk1, hacc, hbi, hsup, hct⟩

lemma splitNumGo_inv (mm : ℤ) (sum : ℚ) (sCount : ℕ) (preBias : ℚ)
    (cells : List SampleRank) (hcnt : sCount = sCountTot cells) :
    ∀ (i : ℕ) (st : NumState), i + 1 < cells.length →
      AState sCount cells i st →
      MaxPart mm sum sCount preBias cells (i + 1) st →
      MaxPart mm sum sCount preBias cells 0
        (splitNumGo mm sum sCount ((cells.take (i + 1)).reverse) i st) := by
  intro i
  induction i with
  | zero =>
      intro st hlen hA hM
      have h0 : 0 < cells.length := by omega
      have htake : (cells.take 1).reverse = [cells.getD 0 default] := by
        rw [List.take_succ, List.take_zero, List.getElem?_eq_getElem h0,
            List.getD_eq_getElem cells default h0]
        simp
      rw [htake]
      exact splitNumStep_max mm sum sCount preBias cells hcnt 0 hlen st hA hM
  | succ i ih =>
      intro st hlen hA hM
      have hi1 : i + 1 < cells.length := by omega
      have htake : (cells.take (i + 2)).reverse
          = cells.getD (i + 1) default :: (cells.take (i + 1)).reverse := by
        rw [List.take_succ, List.getElem?_eq_getElem hi1,
            List.getD_eq_getElem cells default hi1]
        simp
      rw [htake]
      have hA' := splitNumStep_A mm sum sCount cells i (by omega) st hA
      have hM' := splitNumStep_max mm sum sCount preBias cells hcnt (i + 1) hlen st hA hM
      exact ih (splitNumStep mm sum sCount (cells.getD (i + 1) default) (i + 1) st) hi1 hA' hM'

lemma reverse_eq_last_cons {α : Type} [Inhabited α] (cells : List α) (h : cells ≠ []) :
    cells.reverse
      = cells.getD (cells.length - 1) default :: (cells.take (cells.length - 1)).reverse := by
  have hlen : 0 < cells.length := List.length_pos.mpr h
  conv_lhs => rw [← List.dropLast_append_getLast h]
  rw [List.reverse_append, List.dropLast_eq_take]
  rw [List.getLast_eq_getElem, List.getD_eq_getElem cells default (by omega)]
  rfl


/-- Scan state of the implicit-rank numeric walks SplitCoord::SplitNumDense
    and SplitCoord::SplitNumDenseMono (splitpred.cc lines 597 to 693 and
    701 to 804): beyond the running sums of the non-implicit walk, the
    rank bounds of the recorded cut and the right-hand infimum are
    carried explicitly, because the dense cut has no cell position. -/
structure DState where
  sumR : ℚ
  sCountL : ℕ
  rkRight : ℕ
  maxInfo : ℚ
  lhSampCt : ℕ
  rankLH : ℕ
  rankRH : ℕ
  rhInf : ℕ
deriving Repr, DecidableEq

/-- One iteration of the explicit-cell loops of SplitCoord::SplitNumDense
    and SplitCoord::SplitNumDenseMono (splitpred.cc lines 629 to 645,
    664 to 680, 734 to 753 and 772 to 791), processing the cell at
    explicit position i: identical to the non-implicit iteration except
    that the rank bounds are recorded directly; mode 0 renders the
    monotone test of the Mono variant absent, so one definition covers
    both functions, whose loop bodies differ only in that test. -/
def splitNumDenseStep (mm : ℤ) (sum : ℚ) (sCount : ℕ) (c : SampleRank) (i : ℕ)
    (st : DState) : DState :=
  let sCountR := sCount - st.sCountL
  let sumL := sum - st.sumR
  let idxGini := sumL * sumL / (st.sCountL : ℚ) + st.sumR * st.sumR / (sCountR : ℚ)
  let st1 :=
    if st.maxInfo < idxGini ∧ c.rank ≠ st.rkRight ∧ monoOK mm sumL st.sumR st.sCountL sCountR
    then { st with
        maxInfo := idxGini
        lhSampCt := st.sCountL
        rankLH := c.rank
        rankRH := st.rkRight
        rhInf := i + 1 }
    else st
  { st1 with sCountL := st1.sCountL - c.sCount, sumR := st1.sumR + c.ySum, rkRight := c.rank }

/-- The explicit-cell loops of SplitCoord::SplitNumDense(Mono): cells
    are supplied in scan order together with the explicit index of the
    head cell. -/
def splitNumDenseGo (mm : ℤ) (sum : ℚ) (sCount : ℕ) :
    List SampleRank → ℕ → DState → DState
  | [], _, st => st
  | c :: rest, i, st =>
      splitNumDenseGo mm sum sCount rest (i - 1) (splitNumDenseStep mm sum sCount c i st)

/-- The dense-component evaluation of SplitCoord::SplitNumDense(Mono)
    (splitpred.cc lines 648 to 658 and 756 to 766): the boundary placing
    the implicit blob at the top of the left part is scored and accepted
    on information alone, with no rank test and, in the Mono variant, no
    monotone test. -/
def denseEval (rankDense : ℕ) (sum : ℚ) (sCount : ℕ) (idxFinal : ℕ) (st : DState) : DState :=
  let sCountR := sCount - st.sCountL
  let sumL := sum - st.sumR
  let idxGini := sumL * sumL / (st.sCountL : ℚ) + st.sumR * st.sumR / (sCountR : ℚ)
  if st.maxInfo < idxGini then
    { st with
        maxInfo := idxGini
        lhSampCt := st.sCountL
        rankLH := rankDense
        rankRH := st.rkRight
        rhInf := idxFinal }
  else st

/-- The split signature written by the seven-argument NuxLH::InitNum for
    a winning implicit-rank cut. -/
structure DNux where
  lhIdxCount : ℕ
  lhSCount : ℕ
  info : ℚ
  rankLH : ℕ
  rankRH : ℕ
  lhDense : ℕ
deriving Repr, DecidableEq

/-- SplitCoord::SplitNumDense and SplitCoord::SplitNumDenseMono
    (splitpred.cc lines 597 to 693 and 701 to 804) for a candidate with
    an implicit rank.  The explicit cells are supplied already split
    about the dense rank (cellsLow below, cellsHigh above, as computed
    by SPReg::Residuals into denseCut, denseLeft and denseRight), and
    the residual sums are the node totals minus the explicit totals.
    When the dense blob lies to the far right the walk is seeded from
    the residual; otherwise it is seeded from the top explicit cell,
    walks the remaining high cells, evaluates the dense component
    whenever the dense rank is not the highest, and finally walks the
    cells below the dense rank. -/
def splitNumDense (mm : ℤ) (sum : ℚ) (sCount : ℕ) (preBias : ℚ) (rankDense : ℕ)
    (implicit : ℕ) (cellsLow cellsHigh : List SampleRank) : Option DNux :=
  let explicitCells := cellsLow ++ cellsHigh
  let sumDense := sum - ySumTot explicitCells
  let sCountDense := sCount - sCountTot explicitCells
  let idxEnd := explicitCells.length - 1
  let fin :=
    match cellsHigh.reverse with
    | [] =>
        let st0 : DState :=
          ⟨sumDense, sCount - sCountDense, rankDense, preBias, 0, 0, 0, idxEnd + 1⟩
        splitNumDenseGo mm sum sCount cellsLow.reverse idxEnd st0
    | cEnd :: restHigh =>
        let st0 : DState :=
          ⟨cEnd.ySum, sCount - cEnd.sCount, cEnd.rank, preBias, 0, 0, 0, idxEnd + 1⟩
        let st1 := splitNumDenseGo mm sum sCount restHigh (idxEnd - 1) st0
        if restHigh.isEmpty then st1
        else
          let st2 := denseEval rankDense sum sCount cellsLow.length st1
          if cellsLow.isEmpty then st2
          else
            let st3 : DState :=
              { st2 with
                  sCountL := st2.sCountL - sCountDense
                  sumR := st2.sumR + sumDense
                  rkRight := rankDense }
            splitNumDenseGo mm sum sCount cellsLow.reverse (cellsLow.length - 1) st3
  if preBias < fin.maxInfo then
    some ⟨fin.rhInf + (if rankDense ≤ fin.rankLH then implicit else 0),
          fin.lhSampCt, fin.maxInfo - preBias, fin.rankLH, fin.rankRH,
          if rankDense ≤ fin.rankLH then implicit else 0⟩
  else none

/-- The virtual cell sequence of an implicit-rank candidate: the
    explicit cells below the dense rank, then a residual cell carrying
    the implicit sums at the dense rank, then the explicit cells above
    the dense rank. -/
def denseCells (sum : ℚ) (sCount : ℕ) (rankDense : ℕ)
    (cellsLow cellsHigh : List SampleRank) : List SampleRank :=
  cellsLow ++ (⟨sum - ySumTot (cellsLow ++ cellsHigh), rankDense,
    sCount - sCountTot (cellsLow ++ cellsHigh)⟩ : SampleRank) :: cellsHigh

/-- Correspondence of a dense scan state with the boundary sums of the
    virtual cell sequence at position i. -/
def DAState (sCount : ℕ) (V : List SampleRank) (i : ℕ) (st : DState) : Prop :=
  st.sumR = sumRAt V i ∧
  st.sCountL = sCount - sCountRAt V i ∧
  st.rkRight = rankAt V (i + 1)

/-- Acceptance invariant of the dense scan: the recorded cut either
    still carries the prebias or names an admissible boundary of the
    virtual sequence realizing the recorded fields, the boundary being
    the dense one or one that passed the monotone gate. -/
def DenseAcc (mm : ℤ) (sum : ℚ) (sCount : ℕ) (preBias : ℚ) (rankDense : ℕ)
    (V : List SampleRank) (st : DState) : Prop :=
  preBias ≤ st.maxInfo ∧
  (st.maxInfo = preBias ∨
    ∃ k, k + 1 < V.length ∧
      st.maxInfo = boundaryInfo sum sCount V k ∧
      st.lhSampCt = sCount - sCountRAt V k ∧
      st.rankLH = rankAt V k ∧ st.rankRH = rankAt V (k + 1) ∧
      admissibleCut V k ∧
      (rankAt V k = rankDense ∨ gateAt mm sum sCount V k))

lemma splitNumDenseStep_sumR (mm : ℤ) (sum : ℚ) (sCount : ℕ) (c : SampleRank) (i : ℕ)
    (st : DState) : (splitNumDenseStep mm sum sCount c i st).sumR = st.sumR + c.ySum := by
  simp only [splitNumDenseStep]
  split <;> rfl

lemma splitNumDenseStep_sCountL (mm : ℤ) (sum : ℚ) (sCount : ℕ) (c : SampleRank) (i : ℕ)
    (st : DState) :
    (splitNumDenseStep mm sum sCount c i st).sCountL = st.sCountL - c.sCount := by
  simp only [splitNumDenseStep]
  split <;> rfl

lemma splitNumDenseStep_rkRight (mm : ℤ) (sum : ℚ) (sCount : ℕ) (c : SampleRank) (i : ℕ)
    (st : DState) : (splitNumDenseStep mm sum sCount c i st).rkRight = c.rank := rfl

lemma splitNumDenseStep_A (mm : ℤ) (sum : ℚ) (sCount : ℕ) (V : List SampleRank)
    (j i : ℕ) (hj : j + 2 ≤ V.length) (st : DState)
    (hA : DAState sCount V (j + 1) st) :
    DAState sCount V j
      (splitNumDenseStep mm sum sCount (V.getD (j + 1) default) i st) := by
  obtain ⟨h1, h2, _⟩ := hA
  have hlt : j + 1 < V.length := by omega
  refine ⟨?_, ?_, ?_⟩
  · rw [splitNumDenseStep_sumR, h1]
    unfold sumRAt
    rw [ySumTot_drop V (j + 1) hlt]
    ring
  · rw [splitNumDenseStep_sCountL, h2]
    unfold sCountRAt
    rw [sCountTot_drop V (j + 1) hlt]
    omega
  · rw [splitNumDenseStep_rkRight]
    rfl

lemma splitNumDenseStep_acc (mm : ℤ) (sum : ℚ) (sCount : ℕ) (preBias : ℚ)
    (rankDense : ℕ) (V : List SampleRank) (hcnt : sCount = sCountTot V)
    (p i : ℕ) (hp : p + 1 < V.length) (st : DState)
    (hA : DAState sCount V p st)
    (hM : DenseAcc mm sum sCount preBias rankDense V st) :
    DenseAcc mm sum sCount preBias rankDense V
      (splitNumDenseStep mm sum sCount (V.getD p default) i st) := by
  obtain ⟨h1, h2, h3⟩ := hA
  obtain ⟨hm1, hm2⟩ := hM
  have hRle : sCountRAt V p ≤ sCount := by
    rw [hcnt]
    exact sCountRAt_le V p
  have hRR : sCount - st.sCountL = sCountRAt V p := by omega
  have hBI : (sum - st.sumR) * (sum - st.sumR) / (st.sCountL : ℚ)
      + st.sumR * st.sumR / ((sCount - st.sCountL : ℕ) : ℚ)
      = boundaryInfo sum sCount V p := by
    rw [hRR, h1, h2]
    rfl
  simp only [splitNumDenseStep]
  split
  next hcond =>
    obtain ⟨hlt, hne, hgate⟩ := hcond
    unfold DenseAcc
    dsimp only
    refine ⟨le_of_lt (lt_of_le_of_lt hm1 hlt), Or.inr ?_⟩
    refine ⟨p, hp, hBI, h2, rfl, ?_, ?_, Or.inr ?_⟩
    · exact h3
    · show rankAt V p ≠ rankAt V (p + 1)
      rw [h3] at hne
      exact hne
    · show gateAt mm sum sCount V p
      unfold gateAt
      rw [hRR, h1, h2] at hgate
      exact hgate
  next =>
    unfold DenseAcc
    dsimp only
    exact ⟨hm1, hm2⟩

lemma drop_take_reverse_succ (V : List SampleRank) (lo m : ℕ) (h : lo + m < V.length) :
    ((V.drop lo).take (m + 1)).reverse
      = V.getD (lo + m) default :: ((V.drop lo).take m).reverse := by
  rw [List.take_succ]
  have hg : (V.drop lo)[m]? = some (V.getD (lo + m) default) := by
    rw [List.getElem?_drop, List.getElem?_eq_getElem (by omega : lo + m < V.length),
      List.getD_eq_getElem V default (by omega)]
  rw [hg]
  simp

lemma splitNumDenseGo_inv (mm : ℤ) (sum : ℚ) (sCount : ℕ) (preBias : ℚ)
    (rankDense : ℕ) (V : List SampleRank) (hcnt : sCount = sCountTot V) (lo : ℕ) :
    ∀ (n : ℕ) (st : DState) (i : ℕ), 1 ≤ n → lo + n < V.length →
      DAState sCount V (lo + n - 1) st →
      DenseAcc mm sum sCount preBias rankDense V st →
      DenseAcc mm sum sCount preBias rankDense V
        (splitNumDenseGo mm sum sCount (((V.drop lo).take n).reverse) i st) ∧
      (1 ≤ lo → DAState sCount V (lo - 1)
        (splitNumDenseGo mm sum sCount (((V.drop lo).take n).reverse) i st)) := by
  intro n
  induction n with
  | zero =>
      intro st i h1
      exact absurd h1 (by omega)
  | succ m ih =>
      intro st i _ hlen hA hM
      rw [drop_take_reverse_succ V lo m (by omega)]
      show DenseAcc mm sum sCount preBias rankDense V
          (splitNumDenseGo mm sum sCount (((V.drop lo).take m).reverse) (i - 1)
            (splitNumDenseStep mm sum sCount (V.getD (lo + m) default) i st)) ∧ _
      have hAm : DAState sCount V (lo + m) st := by
        have he : lo + (m + 1) - 1 = lo + m := by omega
        rw [he] at hA
        exact hA
      have hacc := splitNumDenseStep_acc mm sum sCount preBias rankDense V hcnt
        (lo + m) i (by omega) st hAm hM
      cases m with
      | zero =>
          constructor
          · show DenseAcc mm sum sCount preBias rankDense V
              (splitNumDenseGo mm sum sCount [] (i - 1)
                (splitNumDenseStep mm sum sCount (V.getD (lo + 0) default) i st))
            exact hacc
          · intro hlo
            show DAState sCount V (lo - 1)
              (splitNumDenseGo mm sum sCount [] (i - 1)
                (splitNumDenseStep mm sum sCount (V.getD (lo + 0) default) i st))
            have hstep := splitNumDenseStep_A mm sum sCount V (lo - 1) i
              (by omega) st (by
                have he : lo - 1 + 1 = lo + 0 := by omega
                rw [he]
                exact hAm)
            have he2 : lo - 1 + 1 = lo + 0 := by omega
            rw [he2] at hstep
            exact hstep
      | succ t =>
          have hAnext : DAState sCount V (lo + (t + 1) - 1)
              (splitNumDenseStep mm sum sCount (V.getD (lo + (t + 1)) default) i st) := by
            have hstep := splitNumDenseStep_A mm sum sCount V (lo + t) i
              (by omega) st (by
                have he : lo + t + 1 = lo + (t + 1) := by omega
                rw [he]
                exact hAm)
            have he2 : lo + (t + 1) - 1 = lo + t := by omega
            rw [he2]
            have he3 : lo + t + 1 = lo + (t + 1) := by omega
            rw [he3] at hstep
            exact hstep
          exact ih (splitNumDenseStep mm sum sCount (V.getD (lo + (t + 1)) default) i st)
            (i - 1) (by omega) (by omega) hAnext hacc

lemma denseEval_sumR (rankDense : ℕ) (sum : ℚ) (sCount idxFinal : ℕ) (st : DState) :
    (denseEval rankDense sum sCount idxFinal st).sumR = st.sumR := by
  simp only [denseEval]
  split <;> rfl

lemma denseEval_sCountL (rankDense : ℕ) (sum : ℚ) (sCount idxFinal : ℕ) (st : DState) :
    (denseEval rankDense sum sCount idxFinal st).sCountL = st.sCountL := by
  simp only [denseEval]
  split <;> rfl

lemma denseEval_rkRight (rankDense : ℕ) (sum : ℚ) (sCount idxFinal : ℕ) (st : DState) :
    (denseEval rankDense sum sCount idxFinal st).rkRight = st.rkRight := by
  simp only [denseEval]
  split <;> rfl

lemma denseEval_acc (mm : ℤ) (sum : ℚ) (sCount : ℕ) (preBias : ℚ)
    (rankDense : ℕ) (V : List SampleRank) (hcnt : sCount = sCountTot V)
    (L idxFinal : ℕ) (hlen : L + 1 < V.length) (hLrk : rankAt V L = rankDense)
    (hne : rankAt V (L + 1) ≠ rankDense)
    (st : DState) (hA : DAState sCount V L st)
    (hM : DenseAcc mm sum sCount preBias rankDense V st) :
    DenseAcc mm sum sCount preBias rankDense V
        (denseEval rankDense sum sCount idxFinal st) ∧
    DAState sCount V L (denseEval rankDense sum sCount idxFinal st) := by
  obtain ⟨h1, h2, h3⟩ := hA
  obtain ⟨hm1, hm2⟩ := hM
  have hRle : sCountRAt V L ≤ sCount := by
    rw [hcnt]
    exact sCountRAt_le V L
  have hRR : sCount - st.sCountL = sCountRAt V L := by omega
  have hBI : (sum - st.sumR) * (sum - st.sumR) / (st.sCountL : ℚ)
      + st.sumR * st.sumR / ((sCount - st.sCountL : ℕ) : ℚ)
      = boundaryInfo sum sCount V L := by
    rw [hRR, h1, h2]
    rfl
  constructor
  · simp only [denseEval]
    split
    next hlt =>
      unfold DenseAcc
      dsimp only
      refine ⟨le_of_lt (lt_of_le_of_lt hm1 hlt), Or.inr ?_⟩
      refine ⟨L, hlen, hBI, h2, ?_, ?_, ?_, Or.inl hLrk⟩
      · exact hLrk.symm
      · exact h3
      · show rankAt V L ≠ rankAt V (L + 1)
        rw [hLrk]
        intro heq
        rw [← heq] at hne
        exact hne rfl
    next =>
      exact ⟨hm1, hm2⟩
  · exact ⟨by rw [denseEval_sumR]; exact h1, by rw [denseEval_sCountL]; exact h2,
      by rw [denseEval_rkRight]; exact h3⟩

lemma denseAcc_finish (mm : ℤ) (sum : ℚ) (sCount : ℕ) (preBias : ℚ) (rankDense : ℕ)
    (V : List SampleRank) (fin : DState) (nux : DNux) (a d : ℕ)
    (hacc : DenseAcc mm sum sCount preBias rankDense V fin)
    (hlt : preBias < fin.maxInfo)
    (hnux : nux = ⟨a, fin.lhSampCt, fin.maxInfo - preBias, fin.rankLH, fin.rankRH, d⟩) :
    ∃ k, k + 1 < V.length ∧ admissibleCut V k ∧
      preBias < boundaryInfo sum sCount V k ∧
      nux.info = boundaryInfo sum sCount V k - preBias ∧
      nux.lhSCount = sCount - sCountRAt V k ∧
      nux.rankLH = rankAt V k ∧ nux.rankRH = rankAt V (k + 1) ∧
      (rankAt V k = rankDense ∨ gateAt mm sum sCount V k) := by
  obtain ⟨_, hor⟩ := hacc
  rcases hor with heq | ⟨k, hk1, hbi, hct, hLH, hRH, hadm, hdg⟩
  · rw [heq] at hlt
    exact absurd hlt (lt_irrefl preBias)
  · refine ⟨k, hk1, hadm, ?_, ?_, ?_, ?_, ?_, hdg⟩
    · rw [← hbi]
      exact hlt
    · rw [hnux, ← hbi]
    · rw [hnux, hct]
    · rw [hnux, hLH]
    · rw [hnux, hRH]

lemma splitNumDense_spec (mm : ℤ) (sum : ℚ) (sCount : ℕ) (preBias : ℚ)
    (rankDense implicit : ℕ) (cellsLow cellsHigh : List SampleRank)
    (hcnt : sCount = sCountTot (denseCells sum sCount rankDense cellsLow cellsHigh))
    (hhigh : ∀ c ∈ cellsHigh, c.rank ≠ rankDense)
    (nux : DNux)
    (hres : splitNumDense mm sum sCount preBias rankDense implicit cellsLow cellsHigh
      = some nux) :
    ∃ k, k + 1 < (denseCells sum sCount rankDense cellsLow cellsHigh).length ∧
      admissibleCut (denseCells sum sCount rankDense cellsLow cellsHigh) k ∧
      preBias < boundaryInfo sum sCount (denseCells sum sCount rankDense cellsLow cellsHigh) k ∧
      nux.info = boundaryInfo sum sCount (denseCells sum sCount rankDense cellsLow cellsHigh) k
        - preBias ∧
      nux.lhSCount
        = sCount - sCountRAt (denseCells sum sCount rankDense cellsLow cellsHigh) k ∧
      nux.rankLH = rankAt (denseCells sum sCount rankDense cellsLow cellsHigh) k ∧
      nux.rankRH = rankAt (denseCells sum sCount rankDense cellsLow cellsHigh) (k + 1) ∧
      (rankAt (denseCells sum sCount rankDense cellsLow cellsHigh) k = rankDense ∨
        gateAt mm sum sCount (denseCells sum sCount rankDense cellsLow cellsHigh) k) := by
  have hVL : (denseCells sum sCount rankDense cellsLow cellsHigh).length
      = cellsLow.length + cellsHigh.length + 1 := by
    unfold denseCells
    rw [List.length_append, List.length_cons]
    omega
  have hgetres : (denseCells sum sCount rankDense cellsLow cellsHigh).getD
      cellsLow.length default
      = (⟨sum - ySumTot (cellsLow ++ cellsHigh), rankDense,
          sCount - sCountTot (cellsLow ++ cellsHigh)⟩ : SampleRank) := by
    unfold denseCells
    rw [List.getD_append_right _ _ _ _ (le_refl _)]
    simp
  have hrkres : rankAt (denseCells sum sCount rankDense cellsLow cellsHigh)
      cellsLow.length = rankDense := by
    unfold rankAt
    rw [hgetres]
  have htakeL : (denseCells sum sCount rankDense cellsLow cellsHigh).take
      cellsLow.length = cellsLow := by
    unfold denseCells
    exact List.take_left cellsLow _
  cases hc : cellsHigh.reverse with
  | nil =>
      have hnil : cellsHigh = [] := List.reverse_eq_nil_iff.mp hc
      subst hnil
      cases hcl : cellsLow with
      | nil =>
          subst hcl
          simp only [splitNumDense, hc] at hres
          simp only [splitNumDenseGo] at hres
          rw [if_neg (lt_irrefl preBias)] at hres
          exact absurd hres (by simp)
      | cons c0 t0 =>
          rw [← hcl]
          have hLpos : 1 ≤ cellsLow.length := by
            rw [hcl]
            simp
          simp only [splitNumDense, hc] at hres
          have hA0 : DAState sCount (denseCells sum sCount rankDense cellsLow [])
              (0 + cellsLow.length - 1)
              (⟨sum - ySumTot (cellsLow ++ []), sCount - (sCount - sCountTot (cellsLow ++ [])),
                rankDense, preBias, 0, 0, 0, (cellsLow ++ []).length - 1 + 1⟩ : DState) := by
            have hdropL : (denseCells sum sCount rankDense cellsLow []).drop
                (0 + cellsLow.length - 1 + 1)
                = [(⟨sum - ySumTot (cellsLow ++ []), rankDense,
                    sCount - sCountTot (cellsLow ++ [])⟩ : SampleRank)] := by
              have he : 0 + cellsLow.length - 1 + 1 = cellsLow.length := by omega
              rw [he]
              unfold denseCells
              rw [List.drop_left]
            refine ⟨?_, ?_, ?_⟩
            · show _ = sumRAt _ _
              unfold sumRAt
              rw [hdropL]
              simp [ySumTot]
            · show _ = sCount - sCountRAt _ _
              unfold sCountRAt
              rw [hdropL]
              simp [sCountTot]
            · show rankDense = rankAt _ (0 + cellsLow.length - 1 + 1)
              have he : 0 + cellsLow.length - 1 + 1 = cellsLow.length := by omega
              rw [he, hrkres]
          have hM0 : DenseAcc mm sum sCount preBias rankDense
              (denseCells sum sCount rankDense cellsLow [])
              (⟨sum - ySumTot (cellsLow ++ []), sCount - (sCount - sCountTot (cellsLow ++ [])),
                rankDense, preBias, 0, 0, 0, (cellsLow ++ []).length - 1 + 1⟩ : DState) :=
            ⟨le_refl _, Or.inl rfl⟩
          obtain ⟨hacc, _⟩ := splitNumDenseGo_inv mm sum sCount preBias rankDense
            (denseCells sum sCount rankDense cellsLow []) hcnt 0 cellsLow.length
            (⟨sum - ySumTot (cellsLow ++ []), sCount - (sCount - sCountTot (cellsLow ++ [])),
              rankDense, preBias, 0, 0, 0, (cellsLow ++ []).length - 1 + 1⟩ : DState)
            ((cellsLow ++ []).length - 1) hLpos (by rw [hVL]; simp) hA0 hM0
          have hseg : (((denseCells sum sCount rankDense cellsLow []).drop 0).take
              cellsLow.length).reverse = cellsLow.reverse := by
            rw [List.drop_zero, htakeL]
          rw [hseg] at hacc
          split at hres
          next hlt =>
            exact denseAcc_finish mm sum sCount preBias rankDense _ _ nux _ _ hacc hlt
              (Option.some.inj hres).symm
          next =>
            exact absurd hres (by simp)
  | cons cEnd restHigh =>
      have hne : cellsHigh ≠ [] := by
        intro h
        rw [h] at hc
        simp at hc
      have hHpos : 1 ≤ cellsHigh.length := by
        have := List.length_pos.mpr hne
        omega
      have hrl := reverse_eq_last_cons cellsHigh hne
      rw [hc] at hrl
      have hEnd : cEnd = cellsHigh.getD (cellsHigh.length - 1) default :=
        (List.cons.injEq _ _ _ _ ▸ hrl).1
      have hRest : restHigh = (cellsHigh.take (cellsHigh.length - 1)).reverse :=
        (List.cons.injEq _ _ _ _ ▸ hrl).2
      have hgetEnd : (denseCells sum sCount rankDense cellsLow cellsHigh).getD
          (cellsLow.length + cellsHigh.length) default = cEnd := by
        unfold denseCells
        rw [List.getD_append_right _ _ _ _ (by omega)]
        have he : cellsLow.length + cellsHigh.length - cellsLow.length
            = cellsHigh.length - 1 + 1 := by omega
        rw [he, List.getD_cons_succ]
        exact hEnd.symm
      have hA0 : DAState sCount (denseCells sum sCount rankDense cellsLow cellsHigh)
          (cellsLow.length + cellsHigh.length - 1)
          (⟨cEnd.ySum, sCount - cEnd.sCount, cEnd.rank, preBias, 0, 0, 0,
            (cellsLow ++ cellsHigh).length - 1 + 1⟩ : DState) := by
        have hdropEnd : (denseCells sum sCount rankDense cellsLow cellsHigh).drop
            (cellsLow.length + cellsHigh.length - 1 + 1) = [cEnd] := by
          have he : cellsLow.length + cellsHigh.length - 1 + 1
              = cellsLow.length + cellsHigh.length := by omega
          rw [he]
          rw [drop_succ_cells _ (cellsLow.length + cellsHigh.length) (by rw [hVL]; omega)]
          rw [hgetEnd, List.drop_eq_nil_of_le (by rw [hVL])]
        refine ⟨?_, ?_, ?_⟩
        · show _ = sumRAt _ _
          unfold sumRAt
          rw [hdropEnd]
          simp [ySumTot]
        · show _ = sCount - sCountRAt _ _
          unfold sCountRAt
          rw [hdropEnd]
          simp [sCountTot]
        · show cEnd.rank = rankAt _ (cellsLow.length + cellsHigh.length - 1 + 1)
          have he : cellsLow.length + cellsHigh.length - 1 + 1
              = cellsLow.length + cellsHigh.length := by omega
          unfold rankAt
          rw [he, hgetEnd]
      have hM0 : DenseAcc mm sum sCount preBias rankDense
          (denseCells sum sCount rankDense cellsLow cellsHigh)
          (⟨cEnd.ySum, sCount - cEnd.sCount, cEnd.rank, preBias, 0, 0, 0,
            (cellsLow ++ cellsHigh).length - 1 + 1⟩ : DState) :=
        ⟨le_refl _, Or.inl rfl⟩
      cases hrh : restHigh with
      | nil =>
          have hH1 : cellsHigh.length = 1 := by
            rw [hrh] at hRest
            have := congrArg List.length hRest
            rw [List.length_nil, List.length_reverse, List.length_take] at this
            omega
          simp only [splitNumDense, hc] at hres
          have hempR : restHigh.isEmpty = true := by
            rw [hrh]
            rfl
          rw [if_pos hempR, hrh] at hres
          simp only [splitNumDenseGo] at hres
          rw [if_neg (lt_irrefl preBias)] at hres
          exact absurd hres (by simp)
      | cons r0 rr =>
          have hH2 : 2 ≤ cellsHigh.length := by
            rw [hrh] at hRest
            have := congrArg List.length hRest
            rw [List.length_cons, List.length_reverse, List.length_take] at this
            omega
          simp only [splitNumDense, hc] at hres
          have hnR : ¬ restHigh.isEmpty = true := by
            rw [hrh]
            simp
          rw [if_neg hnR] at hres
          have hdropL1 : (denseCells sum sCount rankDense cellsLow cellsHigh).drop
              (cellsLow.length + 1) = cellsHigh := by
            unfold denseCells
            rw [List.drop_append]
            rfl
          have hseg1 : (((denseCells sum sCount rankDense cellsLow cellsHigh).drop
              (cellsLow.length + 1)).take (cellsHigh.length - 1)).reverse = restHigh := by
            rw [hdropL1, ← hRest]
          obtain ⟨hacc1, hDA1f⟩ := splitNumDenseGo_inv mm sum sCount preBias rankDense
            (denseCells sum sCount rankDense cellsLow cellsHigh) hcnt (cellsLow.length + 1)
            (cellsHigh.length - 1)
            (⟨cEnd.ySum, sCount - cEnd.sCount, cEnd.rank, preBias, 0, 0, 0,
              (cellsLow ++ cellsHigh).length - 1 + 1⟩ : DState)
            ((cellsLow ++ cellsHigh).length - 1 - 1) (by omega) (by rw [hVL]; omega)
            (by
              have he : cellsLow.length + 1 + (cellsHigh.length - 1) - 1
                  = cellsLow.length + cellsHigh.length - 1 := by omega
              rw [he]
              exact hA0) hM0
          rw [hseg1] at hacc1 hDA1f
          have hDA1 := hDA1f (by omega)
          have he1 : cellsLow.length + 1 - 1 = cellsLow.length := by omega
          rw [he1] at hDA1
          have hneD : rankAt (denseCells sum sCount rankDense cellsLow cellsHigh)
              (cellsLow.length + 1) ≠ rankDense := by
            have hget1 : (denseCells sum sCount rankDense cellsLow cellsHigh).getD
                (cellsLow.length + 1) default = cellsHigh.getD 0 default := by
              unfold denseCells
              rw [List.getD_append_right _ _ _ _ (by omega)]
              have he : cellsLow.length + 1 - cellsLow.length = 0 + 1 := by omega
              rw [he, List.getD_cons_succ]
            unfold rankAt
            rw [hget1]
            have hmem : cellsHigh.getD 0 default ∈ cellsHigh := by
              rw [List.getD_eq_getElem cellsHigh default (by omega)]
              exact List.getElem_mem _
            exact hhigh _ hmem
          obtain ⟨hacc2, hDA2⟩ := denseEval_acc mm sum sCount preBias rankDense
            (denseCells sum sCount rankDense cellsLow cellsHigh) hcnt
            cellsLow.length cellsLow.length (by rw [hVL]; omega) hrkres hneD
            _ hDA1 hacc1
          cases hcl : cellsLow with
          | nil =>
              rw [← hcl]
              have hempL : cellsLow.isEmpty = true := by
                rw [hcl]
                rfl
              rw [if_pos hempL] at hres
              split at hres
              next hlt =>
                exact denseAcc_finish mm sum sCount preBias rankDense _ _ nux _ _ hacc2 hlt
                  (Option.some.inj hres).symm
              next =>
                exact absurd hres (by simp)
          | cons c0 t0 =>
              rw [← hcl]
              have hLpos : 1 ≤ cellsLow.length := by
                rw [hcl]
                simp
              have hnL : ¬ cellsLow.isEmpty = true := by
                rw [hcl]
                simp
              rw [if_neg hnL] at hres
              obtain ⟨hDA2a, hDA2b, hDA2c⟩ := hDA2
              have hDA3 : DAState sCount (denseCells sum sCount rankDense cellsLow cellsHigh)
                  (0 + cellsLow.length - 1)
                  ({ denseEval rankDense sum sCount cellsLow.length
                      (splitNumDenseGo mm sum sCount restHigh
                        ((cellsLow ++ cellsHigh).length - 1 - 1)
                        (⟨cEnd.ySum, sCount - cEnd.sCount, cEnd.rank, preBias, 0, 0, 0,
                          (cellsLow ++ cellsHigh).length - 1 + 1⟩ : DState)) with
                      sCountL := (denseEval rankDense sum sCount cellsLow.length
                        (splitNumDenseGo mm sum sCount restHigh
                          ((cellsLow ++ cellsHigh).length - 1 - 1)
                          (⟨cEnd.ySum, sCount - cEnd.sCount, cEnd.rank, preBias, 0, 0, 0,
                            (cellsLow ++ cellsHigh).length - 1 + 1⟩ : DState))).sCountL
                        - (sCount - sCountTot (cellsLow ++ cellsHigh))
                      sumR := (denseEval rankDense sum sCount cellsLow.length
                        (splitNumDenseGo mm sum sCount restHigh
                          ((cellsLow ++ cellsHigh).length - 1 - 1)
                          (⟨cEnd.ySum, sCount - cEnd.sCount, cEnd.rank, preBias, 0, 0, 0,
                            (cellsLow ++ cellsHigh).length - 1 + 1⟩ : DState))).sumR
                        + (sum - ySumTot (cellsLow ++ cellsHigh))
                      rkRight := rankDense }) := by
                have hL1 : cellsLow.length < (denseCells sum sCount rankDense
                    cellsLow cellsHigh).length := by
                  rw [hVL]
                  omega
                have hyd := ySumTot_drop (denseCells sum sCount rankDense cellsLow cellsHigh)
                  cellsLow.length hL1
                have hsd := sCountTot_drop (denseCells sum sCount rankDense cellsLow cellsHigh)
                  cellsLow.length hL1
                have he2 : 0 + cellsLow.length - 1 + 1 = cellsLow.length := by omega
                have hreS : sumRAt (denseCells sum sCount rankDense cellsLow cellsHigh)
                    (0 + cellsLow.length - 1)
                    = (sum - ySumTot (cellsLow ++ cellsHigh))
                      + sumRAt (denseCells sum sCount rankDense cellsLow cellsHigh)
                        cellsLow.length := by
                  unfold sumRAt
                  rw [he2, hyd, hgetres]
                have hreC : sCountRAt (denseCells sum sCount rankDense cellsLow cellsHigh)
                    (0 + cellsLow.length - 1)
                    = (sCount - sCountTot (cellsLow ++ cellsHigh))
                      + sCountRAt (denseCells sum sCount rankDense cellsLow cellsHigh)
                        cellsLow.length := by
                  unfold sCountRAt
                  rw [he2, hsd, hgetres]
                have hRle2 : sCountRAt (denseCells sum sCount rankDense cellsLow cellsHigh)
                    (0 + cellsLow.length - 1) ≤ sCount :=
                  le_trans (sCountRAt_le _ _) (le_of_eq hcnt.symm)
                refine ⟨?_, ?_, ?_⟩
                · show _ + (sum - ySumTot (cellsLow ++ cellsHigh)) = sumRAt _ _
                  rw [hreS, hDA2a]
                  ring
                · show _ - (sCount - sCountTot (cellsLow ++ cellsHigh))
                      = sCount - sCountRAt _ _
                  rw [hreC, hDA2b]
                  rw [hreC] at hRle2
                  omega
                · show rankDense = rankAt _ (0 + cellsLow.length - 1 + 1)
                  rw [he2, hrkres]
              have hacc3pre : DenseAcc mm sum sCount preBias rankDense
                  (denseCells sum sCount rankDense cellsLow cellsHigh)
                  ({ denseEval rankDense sum sCount cellsLow.length
                      (splitNumDenseGo mm sum sCount restHigh
                        ((cellsLow ++ cellsHigh).length - 1 - 1)
                        (⟨cEnd.ySum, sCount - cEnd.sCount, cEnd.rank, preBias, 0, 0, 0,
                          (cellsLow ++ cellsHigh).length - 1 + 1⟩ : DState)) with
                      sCountL := (denseEval rankDense sum sCount cellsLow.length
                        (splitNumDenseGo mm sum sCount restHigh
                          ((cellsLow ++ cellsHigh).length - 1 - 1)
                          (⟨cEnd.ySum, sCount - cEnd.sCount, cEnd.rank, preBias, 0, 0, 0,
                            (cellsLow ++ cellsHigh).length - 1 + 1⟩ : DState))).sCountL
                        - (sCount - sCountTot (cellsLow ++ cellsHigh))
                      sumR := (denseEval rankDense sum sCount cellsLow.length
                        (splitNumDenseGo mm sum sCount restHigh
                          ((cellsLow ++ cellsHigh).length - 1 - 1)
                          (⟨cEnd.ySum, sCount - cEnd.sCount, cEnd.rank, preBias, 0, 0, 0,
                            (cellsLow ++ cellsHigh).length - 1 + 1⟩ : DState))).sumR
                        + (sum - ySumTot (cellsLow ++ cellsHigh))
                      rkRight := rankDense }) :=
                hacc2
              obtain ⟨hacc3, _⟩ := splitNumDenseGo_inv mm sum sCount preBias rankDense
                (denseCells sum sCount rankDense cellsLow cellsHigh) hcnt 0 cellsLow.length
                _ (cellsLow.length - 1) hLpos (by rw [hVL]; omega) hDA3 hacc3pre
              have hseg3 : (((denseCells sum sCount rankDense cellsLow cellsHigh).drop 0).take
                  cellsLow.length).reverse = cellsLow.reverse := by
                rw [List.drop_zero, htakeL]
              rw [hseg3] at hacc3
              split at hres
              next hlt =>
                exact denseAcc_finish mm sum sCount preBias rankDense _ _ nux _ _ hacc3 hlt
                  (Option.some.inj hres).symm
              next =>
                exact absurd hres (by simp)


lemma splitNum_spec (mm : ℤ) (sum : ℚ) (sCount : ℕ) (preBias : ℚ)
    (cells : List SampleRank) (hcnt : sCount = sCountTot cells) :
    (∀ nux, splitNum mm sum sCount preBias cells = some nux →
      ∃ k, k + 1 < cells.length ∧ acceptedCut mm sum sCount cells k ∧
        preBias < boundaryInfo sum sCount cells k ∧
        nux.info = boundaryInfo sum sCount cells k - preBias ∧
        nux.lhIdxCount = k + 1 ∧
        nux.lhSCount = sCount - sCountRAt cells k ∧
        nux.rankLH = rankAt cells k ∧
        nux.rankRH = rankAt cells (k + 1) ∧
        (∀ j, j + 1 < cells.length → acceptedCut mm sum sCount cells j →
          boundaryInfo sum sCount cells j ≤ boundaryInfo sum sCount cells k)) ∧
    (splitNum mm sum sCount preBias cells = none →
      ∀ j, j + 1 < cells.length → acceptedCut mm sum sCount cells j →
        boundaryInfo sum sCount cells j ≤ preBias) := by
  cases hc : cells.reverse with
  | nil =>
      have hnil : cells = [] := List.reverse_eq_nil_iff.mp hc
      subst hnil
      constructor
      · intro nux hsome
        simp [splitNum] at hsome
      · intro _ j hj _
        exact absurd hj (by simp)
  | cons cEnd rest =>
      have hne : cells ≠ [] := by
        intro h
        rw [h] at hc
        simp at hc
      by_cases hlen : 2 ≤ cells.length
      · obtain ⟨m, hm⟩ : ∃ m, cells.length = m + 2 := ⟨cells.length - 2, by omega⟩
        have h1 : cells.length - 1 = m + 1 := by omega
        have h2 : cells.length - 2 = m := by omega
        have hrl := reverse_eq_last_cons cells hne
        rw [hc, h1] at hrl
        have hEnd : cEnd = cells.getD (m + 1) default := (List.cons.injEq _ _ _ _ ▸ hrl).1
        have hRest : rest = (cells.take (m + 1)).reverse := (List.cons.injEq _ _ _ _ ▸ hrl).2
        have hdrop : cells.drop (m + 1) = [cells.getD (m + 1) default] := by
          rw [drop_succ_cells cells (m + 1) (by omega)]
          have hlend : cells.length ≤ m + 1 + 1 := by omega
          rw [List.drop_eq_nil_of_le hlend]
        have hA0 : AState sCount cells m
            ⟨cEnd.ySum, sCount - cEnd.sCount, cEnd.rank, preBias, 0, m + 1⟩ := by
          refine ⟨?_, ?_, ?_⟩
          · show cEnd.ySum = sumRAt cells m
            rw [hEnd]
            unfold sumRAt
            rw [hdrop]
            simp [ySumTot]
          · show sCount - cEnd.sCount = sCount - sCountRAt cells m
            rw [hEnd]
            unfold sCountRAt
            rw [hdrop]
            simp [sCountTot]
          · show cEnd.rank = rankAt cells (m + 1)
            rw [hEnd]
            rfl
        have hM0 : MaxPart mm sum sCount preBias cells (m + 1)
            ⟨cEnd.ySum, sCount - cEnd.sCount, cEnd.rank, preBias, 0, m + 1⟩ := by
          refine ⟨le_refl _, ?_, Or.inl rfl⟩
          intro k hk hk1 _
          exact absurd hk1 (by omega)
        have hFin := splitNumGo_inv mm sum sCount preBias cells hcnt m
          ⟨cEnd.ySum, sCount - cEnd.sCount, cEnd.rank, preBias, 0, m + 1⟩
          (by omega) hA0 hM0
        obtain ⟨hf1, hf2, hf3⟩ := hFin
        constructor
        · intro nux hsome
          simp only [splitNum, hc, h1, h2, hRest] at hsome
          split at hsome
          next hlt =>
            have hnux := (Option.some.injEq _ _ ▸ hsome).symm
            rcases hf3 with hpre | ⟨k, _, hk1, hacc, hbi, hsup, hct⟩
            · rw [hpre] at hlt
              exact absurd hlt (lt_irrefl preBias)
            · refine ⟨k, hk1, hacc, ?_, ?_, ?_, ?_, ?_, ?_, ?_⟩
              · rw [hbi]
                exact hlt
              · rw [hnux, hbi]
              · rw [hnux, hsup]
              · rw [hnux, hct]
              · rw [hnux, hsup]
              · rw [hnux, hsup]
              · intro j hj haccj
                rw [hbi]
                exact hf2 j (Nat.zero_le j) hj haccj
          next =>
            exact absurd hsome (by simp)
        · intro hnone j hj haccj
          simp only [splitNum, hc, h1, h2, hRest] at hnone
          split at hnone
          next => exact absurd hnone (by simp)
          next hnlt =>
            exact le_trans (hf2 j (Nat.zero_le j) hj haccj) (not_lt.mp hnlt)
      · have hone : cells.length = 1 := by
          have := List.length_pos.mpr hne
          omega
        have hrlen : rest = [] := by
          have := congrArg List.length hc
          rw [List.length_reverse, hone] at this
          simpa using this.symm
        constructor
        · intro nux hsome
          simp only [splitNum, hc, hrlen, splitNumGo] at hsome
          rw [if_neg (lt_irrefl preBias)] at hsome
          exact absurd hsome (by simp)
        · intro _ j hj _
          rw [hone] at hj
          exact absurd hj (by omega)

lemma acceptedCut_zero (sum : ℚ) (sCount : ℕ) (cells : List SampleRank) (k : ℕ) :
    acceptedCut 0 sum sCount cells k ↔ admissibleCut cells k := by
  unfold acceptedCut gateAt monoOK
  simp

/-- C1: for a numeric regression candidate without an implicit rank, the
    right-to-left scan reports a split iff some admissible boundary's
    weighted-variance score strictly exceeds the prebias; any reported
    split carries info equal to the maximal admissible score minus the
    prebias, and otherwise no split is written. -/
theorem splitNum_reg_info_iff_max (sum : ℚ) (sCount : ℕ) (preBias : ℚ)
    (cells : List SampleRank) (hcnt : sCount = sCountTot cells) :
    ((splitNum 0 sum sCount preBias cells).isSome ↔
      ∃ k, k + 1 < cells.length ∧ admissibleCut cells k ∧
        preBias < boundaryInfo sum sCount cells k) ∧
    (∀ nux, splitNum 0 sum sCount preBias cells = some nux →
      ∃ k, k + 1 < cells.length ∧ admissibleCut cells k ∧
        preBias < boundaryInfo sum sCount cells k ∧
        nux.info = boundaryInfo sum sCount cells k - preBias ∧
        (∀ j, j + 1 < cells.length → admissibleCut cells j →
          boundaryInfo sum sCount cells j ≤ boundaryInfo sum sCount cells k)) := by
  obtain ⟨hs, hn⟩ := splitNum_spec 0 sum sCount preBias cells hcnt
  constructor
  · constructor
    · intro hsome
      obtain ⟨nux, hres⟩ := Option.isSome_iff_exists.mp hsome
      obtain ⟨k, hk1, hacc, hlt, _⟩ := hs nux hres
      exact ⟨k, hk1, (acceptedCut_zero sum sCount cells k).mp hacc, hlt⟩
    · intro ⟨k, hk1, hadm, hlt⟩
      cases hres : splitNum 0 sum sCount preBias cells with
      | some nux => rfl
      | none =>
          have := hn hres k hk1 ((acceptedCut_zero sum sCount cells k).mpr hadm)
          exact absurd hlt (not_lt.mpr this)
  · intro nux hres
    obtain ⟨k, hk1, hacc, hlt, hinfo, _, _, _, _, hmax⟩ := hs nux hres
    refine ⟨k, hk1, (acceptedCut_zero sum sCount cells k).mp hacc, hlt, hinfo, ?_⟩
    intro j hj hadmj
    exact hmax j hj ((acceptedCut_zero sum sCount cells j).mpr hadmj)

/-- Concrete candidate used to instantiate the C1 theorem. -/
def cellsW1 : List SampleRank := [⟨1, 0, 1⟩, ⟨10, 1, 1⟩]

/-- Witness for C1 at a concrete candidate. -/
theorem splitNum_reg_info_iff_max_witness :
    2 = sCountTot cellsW1 ∧
    (((splitNum 0 11 2 (121 / 2) cellsW1).isSome ↔
      ∃ k, k + 1 < cellsW1.length ∧ admissibleCut cellsW1 k ∧
        121 / 2 < boundaryInfo 11 2 cellsW1 k) ∧
    (∀ nux, splitNum 0 11 2 (121 / 2) cellsW1 = some nux →
      ∃ k, k + 1 < cellsW1.length ∧ admissibleCut cellsW1 k ∧
        121 / 2 < boundaryInfo 11 2 cellsW1 k ∧
        nux.info = boundaryInfo 11 2 cellsW1 k - 121 / 2 ∧
        (∀ j, j + 1 < cellsW1.length → admissibleCut cellsW1 j →
          boundaryInfo 11 2 cellsW1 j ≤ boundaryInfo 11 2 cellsW1 k))) :=
  ⟨by decide, splitNum_reg_info_iff_max 11 2 (121 / 2) cellsW1 (by decide)⟩

lemma MonoMode_pos_eq (mono u : ℚ) (h : 0 < mono) (hmm : MonoMode mono u ≠ 0) :
    MonoMode mono u = 1 := by
  unfold MonoMode at hmm ⊢
  rw [if_pos h] at hmm ⊢
  dsimp only at hmm ⊢
  split at hmm
  · rw [if_pos (by assumption)]
  · exact absurd rfl hmm

lemma MonoMode_neg_eq (mono u : ℚ) (h : mono < 0) (hmm : MonoMode mono u ≠ 0) :
    MonoMode mono u = -1 := by
  unfold MonoMode at hmm ⊢
  rw [if_neg (not_lt.mpr (le_of_lt h)), if_pos h] at hmm ⊢
  dsimp only at hmm ⊢
  split at hmm
  · rw [if_pos (by assumption)]
  · exact absurd rfl hmm

lemma gateAt_one (sum : ℚ) (sCount : ℕ) (cells : List SampleRank) (k : ℕ)
    (h : gateAt 1 sum sCount cells k) :
    (sum - sumRAt cells k) * (sCountRAt cells k : ℚ)
      ≤ sumRAt cells k * ((sCount - sCountRAt cells k : ℕ) : ℚ) := by
  unfold gateAt monoOK at h
  simpa using h

lemma gateAt_negone (sum : ℚ) (sCount : ℕ) (cells : List SampleRank) (k : ℕ)
    (h : gateAt (-1) sum sCount cells k) :
    sumRAt cells k * ((sCount - sCountRAt cells k : ℕ) : ℚ)
      < (sum - sumRAt cells k) * (sCountRAt cells k : ℚ) := by
  unfold gateAt monoOK at h
  simp at h
  exact h

/-- The explicit cells above the dense rank in the candidate used to
    exhibit a retained dense-boundary cut. -/
def dnCexHigh : List SampleRank := [⟨0, 1, 1⟩, ⟨0, 2, 1⟩]

/-- The virtual cell sequence of that candidate: a residual carrying the
    whole response mass, followed by two zero-response cells. -/
def dnCexCells : List SampleRank := denseCells 10 3 0 [] dnCexHigh

/-- C4 (amended): when the monotone mode computed by SPReg::MonoMode is
    active for a regression candidate, every cut retained at an explicit
    boundary satisfies sumL * sCountR <= sumR * sCountL in the
    non-decreasing case (mono positive) and the strict converse in the
    non-increasing case (mono negative): the first conjunct covers the
    non-implicit scan and the second the explicit boundaries of the
    implicit-rank scan, whose retained cut is either such a boundary or
    the dense boundary.  The dense boundary itself is exempt,
    SplitNumDenseMono accepting it on information gain alone: the
    closing conjunct exhibits an active mono = +1 candidate whose
    retained dense cut violates the non-decreasing inequality. -/
theorem splitNumMono_sign :
    (∀ (mono u sum preBias : ℚ) (sCount : ℕ)
        (cells : List SampleRank) (nux : NuxLH),
      sCount = sCountTot cells →
      MonoMode mono u ≠ 0 →
      splitNum (MonoMode mono u) sum sCount preBias cells = some nux →
      ∃ k, k + 1 < cells.length ∧ nux.lhIdxCount = k + 1 ∧
        (0 < mono →
          (sum - sumRAt cells k) * (sCountRAt cells k : ℚ)
            ≤ sumRAt cells k * ((sCount - sCountRAt cells k : ℕ) : ℚ)) ∧
        (mono < 0 →
          sumRAt cells k * ((sCount - sCountRAt cells k : ℕ) : ℚ)
            < (sum - sumRAt cells k) * (sCountRAt cells k : ℚ))) ∧
    (∀ (mono u sum preBias : ℚ) (sCount rankDense implicit : ℕ)
        (cellsLow cellsHigh : List SampleRank) (nux : DNux),
      sCount = sCountTot (denseCells sum sCount rankDense cellsLow cellsHigh) →
      (∀ c ∈ cellsHigh, c.rank ≠ rankDense) →
      MonoMode mono u ≠ 0 →
      splitNumDense (MonoMode mono u) sum sCount preBias rankDense implicit
          cellsLow cellsHigh = some nux →
      ∃ k, k + 1 < (denseCells sum sCount rankDense cellsLow cellsHigh).length ∧
        nux.rankLH = rankAt (denseCells sum sCount rankDense cellsLow cellsHigh) k ∧
        nux.lhSCount
          = sCount - sCountRAt (denseCells sum sCount rankDense cellsLow cellsHigh) k ∧
        (rankAt (denseCells sum sCount rankDense cellsLow cellsHigh) k = rankDense ∨
          ((0 < mono →
            (sum - sumRAt (denseCells sum sCount rankDense cellsLow cellsHigh) k)
                * (sCountRAt (denseCells sum sCount rankDense cellsLow cellsHigh) k : ℚ)
              ≤ sumRAt (denseCells sum sCount rankDense cellsLow cellsHigh) k
                * ((sCount
                    - sCountRAt (denseCells sum sCount rankDense cellsLow cellsHigh) k : ℕ)
                  : ℚ)) ∧
          (mono < 0 →
            sumRAt (denseCells sum sCount rankDense cellsLow cellsHigh) k
                * ((sCount
                    - sCountRAt (denseCells sum sCount rankDense cellsLow cellsHigh) k : ℕ)
                  : ℚ)
              < (sum - sumRAt (denseCells sum sCount rankDense cellsLow cellsHigh) k)
                * (sCountRAt (denseCells sum sCount rankDense cellsLow cellsHigh) k
                  : ℚ))))) ∧
    (MonoMode 1 0 = 1 ∧
      splitNumDense 1 10 3 0 0 1 [] dnCexHigh = some ⟨1, 1, 100, 0, 1, 1⟩ ∧
      (⟨1, 1, 100, 0, 1, 1⟩ : DNux).rankLH = rankAt dnCexCells 0 ∧
      rankAt dnCexCells 0 = 0 ∧
      (⟨1, 1, 100, 0, 1, 1⟩ : DNux).lhSCount = 3 - sCountRAt dnCexCells 0 ∧
      ¬ ((10 - sumRAt dnCexCells 0) * (sCountRAt dnCexCells 0 : ℚ)
          ≤ sumRAt dnCexCells 0 * ((3 - sCountRAt dnCexCells 0 : ℕ) : ℚ))) := by
  refine ⟨?_, ?_, ?_⟩
  · intro mono u sum preBias sCount cells nux hcnt hmm hres
    obtain ⟨hs, _⟩ := splitNum_spec (MonoMode mono u) sum sCount preBias cells hcnt
    obtain ⟨k, hk1, hacc, _, _, hidx, _, _, _, _⟩ := hs nux hres
    refine ⟨k, hk1, hidx, ?_, ?_⟩
    · intro hpos
      have h1 := MonoMode_pos_eq mono u hpos hmm
      rw [h1] at hacc
      exact gateAt_one sum sCount cells k hacc.2
    · intro hneg
      have h1 := MonoMode_neg_eq mono u hneg hmm
      rw [h1] at hacc
      exact gateAt_negone sum sCount cells k hacc.2
  · intro mono u sum preBias sCount rankDense implicit cellsLow cellsHigh nux
      hcnt hhigh hmm hres
    obtain ⟨k, hk1, hadm, hgain, hinfo, hsc, hLH, hRH, hgate⟩ :=
      splitNumDense_spec (MonoMode mono u) sum sCount preBias rankDense implicit
        cellsLow cellsHigh hcnt hhigh nux hres
    refine ⟨k, hk1, hLH, hsc, ?_⟩
    cases hgate with
    | inl hdense => exact Or.inl hdense
    | inr hg =>
        refine Or.inr ⟨?_, ?_⟩
        · intro hpos
          have h1 := MonoMode_pos_eq mono u hpos hmm
          rw [h1] at hg
          exact gateAt_one sum sCount _ k hg
        · intro hneg
          have h1 := MonoMode_neg_eq mono u hneg hmm
          rw [h1] at hg
          exact gateAt_negone sum sCount _ k hg
  · refine ⟨by norm_num [MonoMode], ?_, ?_, ?_, ?_, ?_⟩
    · norm_num [splitNumDense, dnCexHigh, splitNumDenseGo, splitNumDenseStep, denseEval,
        monoOK, ySumTot, sCountTot]
    · norm_num [dnCexCells, dnCexHigh, denseCells, rankAt, ySumTot, sCountTot]
    · norm_num [dnCexCells, dnCexHigh, denseCells, rankAt, ySumTot, sCountTot]
    · norm_num [dnCexCells, dnCexHigh, denseCells, sCountRAt, sCountTot, ySumTot]
    · norm_num [dnCexCells, dnCexHigh, denseCells, sumRAt, sCountRAt, ySumTot, sCountTot]

/-- Witness for the amended C4 theorem at concrete candidates of both
    the non-implicit and the implicit scans. -/
theorem splitNumMono_sign_witness :
    ((2 = sCountTot [(⟨1, 0, 1⟩ : SampleRank), ⟨10, 1, 1⟩] ∧ MonoMode 1 0 ≠ 0 ∧
      splitNum (MonoMode 1 0) 11 2 0 [⟨1, 0, 1⟩, ⟨10, 1, 1⟩] = some ⟨1, 1, 101, 0, 1⟩) ∧
      (∃ k, k + 1 < ([(⟨1, 0, 1⟩ : SampleRank), ⟨10, 1, 1⟩] : List SampleRank).length ∧
        (⟨1, 1, 101, 0, 1⟩ : NuxLH).lhIdxCount = k + 1 ∧
        ((0 : ℚ) < 1 →
          (11 - sumRAt [⟨1, 0, 1⟩, ⟨10, 1, 1⟩] k)
              * (sCountRAt [⟨1, 0, 1⟩, ⟨10, 1, 1⟩] k : ℚ)
            ≤ sumRAt [⟨1, 0, 1⟩, ⟨10, 1, 1⟩] k
              * ((2 - sCountRAt [⟨1, 0, 1⟩, ⟨10, 1, 1⟩] k : ℕ) : ℚ)) ∧
        ((1 : ℚ) < 0 →
          sumRAt [⟨1, 0, 1⟩, ⟨10, 1, 1⟩] k
              * ((2 - sCountRAt [⟨1, 0, 1⟩, ⟨10, 1, 1⟩] k : ℕ) : ℚ)
            < (11 - sumRAt [⟨1, 0, 1⟩, ⟨10, 1, 1⟩] k)
              * (sCountRAt [⟨1, 0, 1⟩, ⟨10, 1, 1⟩] k : ℚ)))) ∧
    ((3 = sCountTot dnCexCells ∧ (∀ c ∈ dnCexHigh, c.rank ≠ 0) ∧ MonoMode 1 0 ≠ 0 ∧
      splitNumDense (MonoMode 1 0) 10 3 0 0 1 [] dnCexHigh = some ⟨1, 1, 100, 0, 1, 1⟩) ∧
      (∃ k, k + 1 < dnCexCells.length ∧
        (⟨1, 1, 100, 0, 1, 1⟩ : DNux).rankLH = rankAt dnCexCells k ∧
        (⟨1, 1, 100, 0, 1, 1⟩ : DNux).lhSCount = 3 - sCountRAt dnCexCells k ∧
        (rankAt dnCexCells k = 0 ∨
          (((0 : ℚ) < 1 →
            (10 - sumRAt dnCexCells k) * (sCountRAt dnCexCells k : ℚ)
              ≤ sumRAt dnCexCells k * ((3 - sCountRAt dnCexCells k : ℕ) : ℚ)) ∧
          ((1 : ℚ) < 0 →
            sumRAt dnCexCells k * ((3 - sCountRAt dnCexCells k : ℕ) : ℚ)
              < (10 - sumRAt dnCexCells k) * (sCountRAt dnCexCells k : ℚ)))))) := by
  have hm : MonoMode 1 0 ≠ 0 := by norm_num [MonoMode]
  have h1 : 2 = sCountTot [(⟨1, 0, 1⟩ : SampleRank), ⟨10, 1, 1⟩] := by decide
  have h2 : splitNum (MonoMode 1 0) 11 2 0 [⟨1, 0, 1⟩, ⟨10, 1, 1⟩]
      = some ⟨1, 1, 101, 0, 1⟩ := by
    norm_num [splitNum, splitNumGo, splitNumStep, monoOK, MonoMode, rankAt]
  have h3 : 3 = sCountTot dnCexCells := by
    norm_num [dnCexCells, dnCexHigh, denseCells, sCountTot, ySumTot]
  have h4 : ∀ c ∈ dnCexHigh, c.rank ≠ 0 := by decide
  have h5 : splitNumDense (MonoMode 1 0) 10 3 0 0 1 [] dnCexHigh
      = some ⟨1, 1, 100, 0, 1, 1⟩ := by
    norm_num [splitNumDense, dnCexHigh, splitNumDenseGo, splitNumDenseStep, denseEval,
      monoOK, MonoMode, ySumTot, sCountTot]
  refine ⟨⟨⟨h1, hm, h2⟩, splitNumMono_sign.1 1 0 11 0 2 _ _ h1 hm h2⟩,
    ⟨⟨h3, h4, hm, h5⟩, ?_⟩⟩
  have := splitNumMono_sign.2.1 1 0 10 0 3 0 1 [] dnCexHigh ⟨1, 1, 100, 0, 1, 1⟩
    h3 h4 hm h5
  exact this

/-- Concrete candidate refuting the sign convention claimed for the
    monotone acceptance test. -/
def cellsCex4 : List SampleRank := [⟨0, 0, 1⟩, ⟨10, 1, 1⟩]

/-- C4 counterexample: with mono = 1 and uniform variate 0 the monotone
    mode is active with sign plus one, yet the scan retains the cut at
    boundary 0 of this candidate, whose decomposition satisfies
    sumL * sCountR - sumR * sCountL = -10 < 0.  The retained cut's sign
    is therefore opposite to the claimed sign(mono), refuting the claim
    that a cut is accepted only when
    sign(sumL * sCountR - sumR * sCountL) equals sign(mono) in the
    non-decreasing case. -/
theorem splitNumMono_sign_claim_false :
    MonoMode 1 0 = 1 ∧
    splitNum (MonoMode 1 0) 10 2 50 cellsCex4 = some ⟨1, 1, 50, 0, 1⟩ ∧
    (10 - sumRAt cellsCex4 0) * (sCountRAt cellsCex4 0 : ℚ)
        - sumRAt cellsCex4 0 * ((2 - sCountRAt cellsCex4 0 : ℕ) : ℚ) = -10 ∧
    ¬ (0 : ℚ) < (10 - sumRAt cellsCex4 0) * (sCountRAt cellsCex4 0 : ℚ)
        - sumRAt cellsCex4 0 * ((2 - sCountRAt cellsCex4 0 : ℕ) : ℚ) := by
  refine ⟨by norm_num [MonoMode], ?_, ?_, ?_⟩
  · norm_num [splitNum, cellsCex4, splitNumGo, splitNumStep, monoOK, MonoMode, rankAt]
  · norm_num [cellsCex4, sumRAt, sCountRAt, ySumTot, sCountTot]
  · norm_num [cellsCex4, sumRAt, sCountRAt, ySumTot, sCountTot]

lemma sCountTot_pos (l : List SampleRank) (hne : l ≠ [])
    (hpos : ∀ c ∈ l, 0 < c.sCount) : 0 < sCountTot l := by
  cases l with
  | nil => exact absurd rfl hne
  | cons c t =>
      have hc := hpos c (List.mem_cons_self c t)
      have : sCountTot (c :: t) = c.sCount + sCountTot t := by simp [sCountTot]
      omega

lemma sCountRAt_pos (cells : List SampleRank) (k : ℕ) (hk : k + 1 < cells.length)
    (hpos : ∀ c ∈ cells, 0 < c.sCount) : 0 < sCountRAt cells k := by
  unfold sCountRAt
  refine sCountTot_pos _ ?_ ?_
  · have : 0 < (cells.drop (k + 1)).length := by
      rw [List.length_drop]
      omega
    exact List.ne_nil_of_length_pos this
  · intro c hc
    exact hpos c (List.drop_subset (k + 1) cells hc)

lemma sCountLAt_pos (cells : List SampleRank) (k sCount : ℕ)
    (hcnt : sCount = sCountTot cells) (hk : k + 1 < cells.length)
    (hpos : ∀ c ∈ cells, 0 < c.sCount) : 0 < sCount - sCountRAt cells k := by
  have hsplit : sCountTot (cells.take (k + 1)) + sCountTot (cells.drop (k + 1))
      = sCountTot cells := by
    rw [← sCountTot_append, List.take_append_drop]
  have htk : 0 < sCountTot (cells.take (k + 1)) := by
    refine sCountTot_pos _ ?_ ?_
    · have : 0 < (cells.take (k + 1)).length := by
        rw [List.length_take]
        omega
      exact List.ne_nil_of_length_pos this
    · intro c hc
      exact hpos c (List.take_subset (k + 1) cells hc)
  unfold sCountRAt
  omega

/-- One observation cell of the cart splitting engine as unpacked by
    Obs::unpackReg (obs.h): response sum, sample count and the tied
    flag precomputed during staging. -/
structure ObsReg where
  ySum : ℚ
  sCount : ℕ
  tied : Bool
deriving Repr, DecidableEq, Inhabited

/-- Modelled from the spec: CutAccum::infoVar is declared in the
    cutaccum header, which is not part of the source tree; the spec
    gives the regression information as
    sumL * sumL / sCountL + sumR * sumR / sCountR. -/
def infoVar (sumL sumR : ℚ) (sCountL sCountR : ℕ) : ℚ :=
  sumL * sumL / (sCountL : ℚ) + sumR * sumR / (sCountR : ℚ)

/-- Modelled from the spec: CutAccum::argmaxRL is declared in the
    cutaccum header, which is not part of the source tree; it retains
    the maximal information seen so far together with the observation
    index of the corresponding cut. -/
def argmaxRL (best : Option (ℚ × ℕ)) (info : ℚ) (idx : ℕ) : Option (ℚ × ℕ) :=
  match best with
  | none => some (info, idx)
  | some (b, j) => if b < info then some (info, idx) else some (b, j)

/-- Scan state of CutAccumRegCart::splitRL: the running sum and sample
    count of the left part, the previously visited cell and the argmax
    record. -/
structure CutState where
  sum : ℚ
  sCount : ℕ
  obsThis : ObsReg
  best : Option (ℚ × ℕ)
deriving Repr, DecidableEq

/-- The loop of CutAccumRegCart::splitRL (cutaccumcart.cc lines 48 to
    67): at index idx the previously visited cell (at idx + 1) is
    deducted from the running sums, and only when that cell is untied is
    the boundary between idx and idx + 1 offered to the argmax. -/
def splitRLGo (sumCand : ℚ) (sCountCand : ℕ) :
    List ObsReg → ℕ → CutState → CutState
  | [], _, st => st
  | c :: rest, idx, st =>
      let sum := st.sum - st.obsThis.ySum
      let sCount := st.sCount - st.obsThis.sCount
      let best :=
        if st.obsThis.tied = false then
          argmaxRL st.best (infoVar sum (sumCand - sum) sCount (sCountCand - sCount)) idx
        else st.best
      splitRLGo sumCand sCountCand rest (idx - 1) ⟨sum, sCount, c, best⟩

/-- CutAccumRegCart::splitRL over the candidate's staged cells: the
    scan starts at the top cell with the candidate totals and walks the
    remaining cells right to left, returning the argmax record. -/
def splitRL (sumCand : ℚ) (sCountCand : ℕ) (cells : List ObsReg) : Option (ℚ × ℕ) :=
  match cells.reverse with
  | [] => none
  | cEnd :: rest =>
      (splitRLGo sumCand sCountCand rest (cells.length - 2)
        ⟨sumCand, sCountCand, cEnd, none⟩).best

/-- Every cut recorded in the argmax is at a boundary whose right cell
    is untied. -/
def TiedInv (cells : List ObsReg) (best : Option (ℚ × ℕ)) : Prop :=
  ∀ v k, best = some (v, k) →
    k + 1 < cells.length ∧ (cells.getD (k + 1) default).tied = false

lemma argmaxRL_tied (cells : List ObsReg) (best : Option (ℚ × ℕ)) (v : ℚ) (i : ℕ)
    (hi : i + 1 < cells.length) (huntied : (cells.getD (i + 1) default).tied = false)
    (hT : TiedInv cells best) : TiedInv cells (argmaxRL best v i) := by
  intro w k hk
  rcases best with _ | ⟨b, j⟩
  · unfold argmaxRL at hk
    dsimp only at hk
    obtain ⟨_, hk⟩ := Prod.mk.injEq _ _ _ _ ▸ Option.some.inj hk
    exact hk ▸ ⟨hi, huntied⟩
  · unfold argmaxRL at hk
    dsimp only at hk
    by_cases hb : b < v
    · rw [if_pos hb] at hk
      obtain ⟨_, hk⟩ := Prod.mk.injEq _ _ _ _ ▸ Option.some.inj hk
      exact hk ▸ ⟨hi, huntied⟩
    · rw [if_neg hb] at hk
      obtain ⟨hb1, hk⟩ := Prod.mk.injEq _ _ _ _ ▸ Option.some.inj hk
      exact hk ▸ hT b j rfl

lemma splitRLGo_tied (sumCand : ℚ) (sCountCand : ℕ) (cells : List ObsReg) :
    ∀ (i : ℕ) (st : CutState), i + 1 < cells.length →
      st.obsThis = cells.getD (i + 1) default →
      TiedInv cells st.best →
      TiedInv cells
        (splitRLGo sumCand sCountCand ((cells.take (i + 1)).reverse) i st).best := by
  intro i
  induction i with
  | zero =>
      intro st hlen hobs hT
      have h0 : 0 < cells.length := by omega
      have htake : (cells.take 1).reverse = [cells.getD 0 default] := by
        rw [List.take_succ, List.take_zero, List.getElem?_eq_getElem h0,
            List.getD_eq_getElem cells default h0]
        simp
      rw [htake]
      show TiedInv cells
        (splitRLGo sumCand sCountCand [] 0
          ⟨st.sum - st.obsThis.ySum, st.sCount - st.obsThis.sCount, cells.getD 0 default,
            if st.obsThis.tied = false then
              argmaxRL st.best
                (infoVar (st.sum - st.obsThis.ySum) (sumCand - (st.sum - st.obsThis.ySum))
                  (st.sCount - st.obsThis.sCount)
                  (sCountCand - (st.sCount - st.obsThis.sCount))) 0
            else st.best⟩).best
      show TiedInv cells
        (if st.obsThis.tied = false then
          argmaxRL st.best
            (infoVar (st.sum - st.obsThis.ySum) (sumCand - (st.sum - st.obsThis.ySum))
              (st.sCount - st.obsThis.sCount)
              (sCountCand - (st.sCount - st.obsThis.sCount))) 0
          else st.best)
      split
      · refine argmaxRL_tied cells st.best _ 0 hlen ?_ hT
        rw [← hobs]
        assumption
      · exact hT
  | succ i ih =>
      intro st hlen hobs hT
      have hi1 : i + 1 < cells.length := by omega
      have htake : (cells.take (i + 2)).reverse
          = cells.getD (i + 1) default :: (cells.take (i + 1)).reverse := by
        rw [List.take_succ, List.getElem?_eq_getElem hi1,
            List.getD_eq_getElem cells default hi1]
        simp
      rw [htake]
      show TiedInv cells
        (splitRLGo sumCand sCountCand ((cells.take (i + 1)).reverse) i
          ⟨st.sum - st.obsThis.ySum, st.sCount - st.obsThis.sCount, cells.getD (i + 1) default,
            if st.obsThis.tied = false then
              argmaxRL st.best
                (infoVar (st.sum - st.obsThis.ySum) (sumCand - (st.sum - st.obsThis.ySum))
                  (st.sCount - st.obsThis.sCount)
                  (sCountCand - (st.sCount - st.obsThis.sCount))) (i + 1)
            else st.best⟩).best
      refine ih _ hi1 rfl ?_
      show TiedInv cells
        (if st.obsThis.tied = false then
          argmaxRL st.best
            (infoVar (st.sum - st.obsThis.ySum) (sumCand - (st.sum - st.obsThis.ySum))
              (st.sCount - st.obsThis.sCount)
              (sCountCand - (st.sCount - st.obsThis.sCount))) (i + 1)
          else st.best)
      split
      · refine argmaxRL_tied cells st.best _ (i + 1) hlen ?_ hT
        rw [← hobs]
        assumption
      · exact hT

lemma splitRL_tied (sumCand : ℚ) (sCountCand : ℕ) (cells : List ObsReg)
    (v : ℚ) (k : ℕ) (hres : splitRL sumCand sCountCand cells = some (v, k)) :
    k + 1 < cells.length ∧ (cells.getD (k + 1) default).tied = false := by
  cases hc : cells.reverse with
  | nil =>
      unfold splitRL at hres
      rw [hc] at hres
      exact absurd hres (by simp)
  | cons cEnd rest =>
      have hne : cells ≠ [] := by
        intro h
        rw [h] at hc
        simp at hc
      unfold splitRL at hres
      rw [hc] at hres
      by_cases hlen : 2 ≤ cells.length
      · obtain ⟨m, hm⟩ : ∃ m, cells.length = m + 2 := ⟨cells.length - 2, by omega⟩
        have h1 : cells.length - 1 = m + 1 := by omega
        have h2 : cells.length - 2 = m := by omega
        have hrl := reverse_eq_last_cons cells hne
        rw [hc, h1] at hrl
        have hEnd : cEnd = cells.getD (m + 1) default := (List.cons.injEq _ _ _ _ ▸ hrl).1
        have hRest : rest = (cells.take (m + 1)).reverse := (List.cons.injEq _ _ _ _ ▸ hrl).2
        rw [h2, hRest] at hres
        have hT := splitRLGo_tied sumCand sCountCand cells m
          ⟨sumCand, sCountCand, cEnd, none⟩ (by omega)
          (by rw [hEnd]) (by intro w j hj; exact absurd hj (by simp))
        exact hT v k hres
      · have hone : cells.length = 1 := by
          have := List.length_pos.mpr hne
          omega
        have hrlen : rest = [] := by
          have := congrArg List.length hc
          rw [List.length_reverse, hone] at this
          simpa using this.symm
        rw [hrlen] at hres
        exact absurd hres (by simp [splitRLGo])

/-- Total response sum of a run of cart observation cells. -/
def oySumTot (cells : List ObsReg) : ℚ := (cells.map ObsReg.ySum).sum

/-- Total sample count of a run of cart observation cells. -/
def osCountTot (cells : List ObsReg) : ℕ := (cells.map ObsReg.sCount).sum

/-- Right-hand response sum of the boundary between positions k and k+1. -/
def osumRAt (cells : List ObsReg) (k : ℕ) : ℚ := oySumTot (cells.drop (k + 1))

/-- Right-hand sample count of the boundary between positions k and k+1. -/
def osCountRAt (cells : List ObsReg) (k : ℕ) : ℕ := osCountTot (cells.drop (k + 1))

/-- The loop of CutAccumRegCart::splitMono (cutaccumcart.cc lines 90 to
    109): identical to the splitRL loop except that an untied boundary
    is offered to the argmax only when the monotone comparison agrees
    with the mode sign; mode 0 renders the test absent, which also
    realizes the loop of CutAccumRegCart::residualLR (lines 129 to 149)
    and CutAccumRegCart::splitMonoDense (lines 177 to 198), whose bodies
    differ from these only in rank-index bookkeeping. -/
def splitMonoGo (mm : ℤ) (sumCand : ℚ) (sCountCand : ℕ) :
    List ObsReg → ℕ → CutState → CutState
  | [], _, st => st
  | c :: rest, idx, st =>
      let sum := st.sum - st.obsThis.ySum
      let sCount := st.sCount - st.obsThis.sCount
      let best :=
        if st.obsThis.tied = false
            ∧ monoOK mm sum (sumCand - sum) sCount (sCountCand - sCount) then
          argmaxRL st.best (infoVar sum (sumCand - sum) sCount (sCountCand - sCount)) idx
        else st.best
      splitMonoGo mm sumCand sCountCand rest (idx - 1) ⟨sum, sCount, c, best⟩

/-- CutAccumRegCart::splitMono over the candidate's staged cells: the
    scan starts at the top cell with the candidate totals and walks the
    remaining cells right to left. -/
def splitMono (mm : ℤ) (sumCand : ℚ) (sCountCand : ℕ) (cells : List ObsReg) :
    Option (ℚ × ℕ) :=
  match cells.reverse with
  | [] => none
  | cEnd :: rest =>
      (splitMonoGo mm sumCand sCountCand rest (cells.length - 2)
        ⟨sumCand, sCountCand, cEnd, none⟩).best

lemma osCountTot_append (a b : List ObsReg) :
    osCountTot (a ++ b) = osCountTot a + osCountTot b := by
  simp [osCountTot]

lemma osCountRAt_le (cells : List ObsReg) (k : ℕ) :
    osCountRAt cells k ≤ osCountTot cells := by
  have h : osCountTot (cells.take (k + 1)) + osCountTot (cells.drop (k + 1))
      = osCountTot cells := by
    rw [← osCountTot_append, List.take_append_drop]
  unfold osCountRAt
  omega

lemma drop_succ_obs (cells : List ObsReg) (i : ℕ) (h : i < cells.length) :
    cells.drop i = cells.getD i default :: cells.drop (i + 1) := by
  rw [List.getD_eq_getElem cells default h]
  exact List.drop_eq_getElem_cons h

lemma oySumTot_drop (cells : List ObsReg) (i : ℕ) (h : i < cells.length) :
    oySumTot (cells.drop i) = (cells.getD i default).ySum + oySumTot (cells.drop (i + 1)) := by
  rw [drop_succ_obs cells i h]
  simp [oySumTot]

lemma osCountTot_drop (cells : List ObsReg) (i : ℕ) (h : i < cells.length) :
    osCountTot (cells.drop i)
      = (cells.getD i default).sCount + osCountTot (cells.drop (i + 1)) := by
  rw [drop_succ_obs cells i h]
  simp [osCountTot]

lemma osCountTot_pos (l : List ObsReg) (hne : l ≠ [])
    (hpos : ∀ c ∈ l, 0 < c.sCount) : 0 < osCountTot l := by
  cases l with
  | nil => exact absurd rfl hne
  | cons c t =>
      have hc := hpos c (List.mem_cons_self c t)
      have : osCountTot (c :: t) = c.sCount + osCountTot t := by simp [osCountTot]
      omega

lemma osCountRAt_pos (cells : List ObsReg) (k : ℕ) (hk : k + 1 < cells.length)
    (hpos : ∀ c ∈ cells, 0 < c.sCount) : 0 < osCountRAt cells k := by
  unfold osCountRAt
  refine osCountTot_pos _ ?_ ?_
  · have : 0 < (cells.drop (k + 1)).length := by
      rw [List.length_drop]
      omega
    exact List.ne_nil_of_length_pos this
  · intro c hc
    exact hpos c (List.drop_subset (k + 1) cells hc)

lemma osCountLAt_pos (cells : List ObsReg) (k sCountCand : ℕ)
    (hcnt : sCountCand = osCountTot cells) (hk : k + 1 < cells.length)
    (hpos : ∀ c ∈ cells, 0 < c.sCount) : 0 < sCountCand - osCountRAt cells k := by
  have hsplit : osCountTot (cells.take (k + 1)) + osCountTot (cells.drop (k + 1))
      = osCountTot cells := by
    rw [← osCountTot_append, List.take_append_drop]
  have htk : 0 < osCountTot (cells.take (k + 1)) := by
    refine osCountTot_pos _ ?_ ?_
    · have : 0 < (cells.take (k + 1)).length := by
        rw [List.length_take]
        omega
      exact List.ne_nil_of_length_pos this
    · intro c hc
      exact hpos c (List.take_subset (k + 1) cells hc)
  unfold osCountRAt
  omega

/-- The argmax preserves any property already holding of the recorded
    index and offered at the new index. -/
lemma argmaxRL_keep (Q : ℕ → Prop) (best : Option (ℚ × ℕ)) (v : ℚ) (i : ℕ)
    (hQ : Q i) (hT : ∀ w k, best = some (w, k) → Q k) (w : ℚ) (k : ℕ)
    (hk : argmaxRL best v i = some (w, k)) : Q k := by
  rcases best with _ | ⟨b, j⟩
  · unfold argmaxRL at hk
    dsimp only at hk
    obtain ⟨_, hk⟩ := Prod.mk.injEq _ _ _ _ ▸ Option.some.inj hk
    exact hk ▸ hQ
  · unfold argmaxRL at hk
    dsimp only at hk
    by_cases hb : b < v
    · rw [if_pos hb] at hk
      obtain ⟨_, hk⟩ := Prod.mk.injEq _ _ _ _ ▸ Option.some.inj hk
      exact hk ▸ hQ
    · rw [if_neg hb] at hk
      obtain ⟨_, hk⟩ := Prod.mk.injEq _ _ _ _ ▸ Option.some.inj hk
      exact hk ▸ hT b j rfl

/-- Every cut recorded by the monotone scan is at an untied boundary
    whose suffix-sum decomposition passes the monotone test. -/
def MonoInv (mm : ℤ) (sumCand : ℚ) (sCountCand : ℕ) (cells : List ObsReg)
    (best : Option (ℚ × ℕ)) : Prop :=
  ∀ v k, best = some (v, k) →
    k + 1 < cells.length ∧ (cells.getD (k + 1) default).tied = false ∧
    monoOK mm (sumCand - osumRAt cells k) (osumRAt cells k)
      (sCountCand - osCountRAt cells k) (osCountRAt cells k) = true

lemma monoStep_sums (sumCand : ℚ) (sCountCand : ℕ) (cells : List ObsReg)
    (hcnt : sCountCand = osCountTot cells) (i : ℕ) (st : CutState)
    (hlen : i + 1 < cells.length)
    (hobs : st.obsThis = cells.getD (i + 1) default)
    (hsum : st.sum = sumCand - oySumTot (cells.drop (i + 2)))
    (hsc : st.sCount = sCountCand - osCountTot (cells.drop (i + 2))) :
    st.sum - st.obsThis.ySum = sumCand - osumRAt cells i ∧
    sumCand - (st.sum - st.obsThis.ySum) = osumRAt cells i ∧
    st.sCount - st.obsThis.sCount = sCountCand - osCountRAt cells i ∧
    sCountCand - (st.sCount - st.obsThis.sCount) = osCountRAt cells i := by
  have hd1 : oySumTot (cells.drop (i + 1))
      = (cells.getD (i + 1) default).ySum + oySumTot (cells.drop (i + 2)) :=
    oySumTot_drop cells (i + 1) hlen
  have hd2 : osCountTot (cells.drop (i + 1))
      = (cells.getD (i + 1) default).sCount + osCountTot (cells.drop (i + 2)) :=
    osCountTot_drop cells (i + 1) hlen
  have hle : osCountRAt cells i ≤ osCountTot cells := osCountRAt_le cells i
  unfold osCountRAt at hle
  unfold osumRAt osCountRAt
  refine ⟨?_, ?_, ?_, ?_⟩
  · rw [hsum, hobs, hd1]
    ring
  · rw [hsum, hobs, hd1]
    ring
  · rw [hsc, hobs]
    omega
  · rw [hsc, hobs]
    omega

lemma splitMonoGo_inv (mm : ℤ) (sumCand : ℚ) (sCountCand : ℕ) (cells : List ObsReg)
    (hcnt : sCountCand = osCountTot cells) :
    ∀ (i : ℕ) (st : CutState), i + 1 < cells.length →
      st.obsThis = cells.getD (i + 1) default →
      st.sum = sumCand - oySumTot (cells.drop (i + 2)) →
      st.sCount = sCountCand - osCountTot (cells.drop (i + 2)) →
      MonoInv mm sumCand sCountCand cells st.best →
      MonoInv mm sumCand sCountCand cells
        (splitMonoGo mm sumCand sCountCand ((cells.take (i + 1)).reverse) i st).best := by
  intro i
  induction i with
  | zero =>
      intro st hlen hobs hsum hsc hT
      have h0 : 0 < cells.length := by omega
      have htake : (cells.take 1).reverse = [cells.getD 0 default] := by
        rw [List.take_succ, List.take_zero, List.getElem?_eq_getElem h0,
            List.getD_eq_getElem cells default h0]
        simp
      rw [htake]
      obtain ⟨e1, e3, e2, e4⟩ := monoStep_sums sumCand sCountCand cells hcnt 0 st
        hlen hobs hsum hsc
      show MonoInv mm sumCand sCountCand cells
        (if st.obsThis.tied = false
            ∧ monoOK mm (st.sum - st.obsThis.ySum) (sumCand - (st.sum - st.obsThis.ySum))
                (st.sCount - st.obsThis.sCount)
                (sCountCand - (st.sCount - st.obsThis.sCount)) = true then
          argmaxRL st.best
            (infoVar (st.sum - st.obsThis.ySum) (sumCand - (st.sum - st.obsThis.ySum))
              (st.sCount - st.obsThis.sCount)
              (sCountCand - (st.sCount - st.obsThis.sCount))) 0
          else st.best)
      split
      next hg =>
        intro v k hk
        refine argmaxRL_keep _ st.best _ 0 ⟨hlen, ?_, ?_⟩ hT v k hk
        · rw [← hobs]
          exact hg.1
        · have hgo := hg.2
          rw [e3, e4, e1, e2] at hgo
          exact hgo
      next => exact hT
  | succ i ih =>
      intro st hlen hobs hsum hsc hT
      have hi1 : i + 1 < cells.length := by omega
      have htake : (cells.take (i + 2)).reverse
          = cells.getD (i + 1) default :: (cells.take (i + 1)).reverse := by
        rw [List.take_succ, List.getElem?_eq_getElem hi1,
            List.getD_eq_getElem cells default hi1]
        simp
      rw [htake]
      obtain ⟨e1, e3, e2, e4⟩ := monoStep_sums sumCand sCountCand cells hcnt (i + 1) st
        hlen hobs hsum hsc
      show MonoInv mm sumCand sCountCand cells
        (splitMonoGo mm sumCand sCountCand ((cells.take (i + 1)).reverse) i
          ⟨st.sum - st.obsThis.ySum, st.sCount - st.obsThis.sCount,
            cells.getD (i + 1) default,
            if st.obsThis.tied = false
                ∧ monoOK mm (st.sum - st.obsThis.ySum)
                    (sumCand - (st.sum - st.obsThis.ySum))
                    (st.sCount - st.obsThis.sCount)
                    (sCountCand - (st.sCount - st.obsThis.sCount)) = true then
              argmaxRL st.best
                (infoVar (st.sum - st.obsThis.ySum) (sumCand - (st.sum - st.obsThis.ySum))
                  (st.sCount - st.obsThis.sCount)
                  (sCountCand - (st.sCount - st.obsThis.sCount))) (i + 1)
            else st.best⟩).best
      refine ih _ hi1 rfl ?_ ?_ ?_
      · show st.sum - st.obsThis.ySum = sumCand - oySumTot (cells.drop (i + 2))
        exact e1
      · show st.sCount - st.obsThis.sCount = sCountCand - osCountTot (cells.drop (i + 2))
        exact e2
      · show MonoInv mm sumCand sCountCand cells
          (if st.obsThis.tied = false
              ∧ monoOK mm (st.sum - st.obsThis.ySum)
                  (sumCand - (st.sum - st.obsThis.ySum))
                  (st.sCount - st.obsThis.sCount)
                  (sCountCand - (st.sCount - st.obsThis.sCount)) = true then
            argmaxRL st.best
              (infoVar (st.sum - st.obsThis.ySum) (sumCand - (st.sum - st.obsThis.ySum))
                (st.sCount - st.obsThis.sCount)
                (sCountCand - (st.sCount - st.obsThis.sCount))) (i + 1)
            else st.best)
        split
        next hg =>
          intro v k hk
          refine argmaxRL_keep _ st.best _ (i + 1) ⟨hlen, ?_, ?_⟩ hT v k hk
          · rw [← hobs]
            exact hg.1
          · have hgo := hg.2
            rw [e3, e4, e1, e2] at hgo
            exact hgo
        next => exact hT

/-- The cut recorded by CutAccumRegCart::splitMono lies at an untied
    boundary whose decomposition passes the monotone test. -/
lemma splitMono_gate (mm : ℤ) (sumCand : ℚ) (sCountCand : ℕ) (cells : List ObsReg)
    (hcnt : sCountCand = osCountTot cells) (v : ℚ) (k : ℕ)
    (hres : splitMono mm sumCand sCountCand cells = some (v, k)) :
    k + 1 < cells.length ∧ (cells.getD (k + 1) default).tied = false ∧
    monoOK mm (sumCand - osumRAt cells k) (osumRAt cells k)
      (sCountCand - osCountRAt cells k) (osCountRAt cells k) = true := by
  cases hc : cells.reverse with
  | nil =>
      unfold splitMono at hres
      rw [hc] at hres
      exact absurd hres (by simp)
  | cons cEnd rest =>
      have hne : cells ≠ [] := by
        intro h
        rw [h] at hc
        simp at hc
      unfold splitMono at hres
      rw [hc] at hres
      by_cases hlen : 2 ≤ cells.length
      · obtain ⟨m, hm⟩ : ∃ m, cells.length = m + 2 := ⟨cells.length - 2, by omega⟩
        have h1 : cells.length - 1 = m + 1 := by omega
        have h2 : cells.length - 2 = m := by omega
        have hrl := reverse_eq_last_cons cells hne
        rw [hc, h1] at hrl
        have hEnd : cEnd = cells.getD (m + 1) default := (List.cons.injEq _ _ _ _ ▸ hrl).1
        have hRest : rest = (cells.take (m + 1)).reverse := (List.cons.injEq _ _ _ _ ▸ hrl).2
        rw [h2, hRest] at hres
        have hdrop : cells.drop (m + 2) = [] := List.drop_eq_nil_of_le (by omega)
        have hT := splitMonoGo_inv mm sumCand sCountCand cells hcnt m
          ⟨sumCand, sCountCand, cEnd, none⟩ (by omega)
          (by rw [hEnd]) (by show sumCand = _; rw [hdrop]; simp [oySumTot])
          (by show sCountCand = _; rw [hdrop]; simp [osCountTot])
          (by intro w j hj; exact absurd hj (by simp))
        exact hT v k hres
      · have hone : cells.length = 1 := by
          have := List.length_pos.mpr hne
          omega
        have hrlen : rest = [] := by
          have := congrArg List.length hc
          rw [List.length_reverse, hone] at this
          simpa using this.symm
        rw [hrlen] at hres
        exact absurd hres (by simp [splitMonoGo])

lemma monoOK_one (sumL sumR : ℚ) (sCountL sCountR : ℕ)
    (h : monoOK 1 sumL sumR sCountL sCountR = true) :
    sumL * (sCountR : ℚ) ≤ sumR * (sCountL : ℚ) := by
  unfold monoOK at h
  simpa using h

/-- C5 (amended): with mono = 1 applied deterministically (a uniform
    variate below one always activates the non-decreasing mode), every
    cut retained at an explicit boundary satisfies
    sumL * sCountR <= sumR * sCountL and hence has left mean at most
    right mean: the first conjunct covers SplitCoord::SplitNumMono, the
    second CutAccumRegCart::splitMono, and the third the implicit-rank
    scan, whose retained cut is either means-ordered or the dense
    boundary; the dense boundary carries no monotone test, and the
    counterexample shows the ordering violable there. -/
theorem splitNumMono_means_ordered :
    (∀ (u sum preBias : ℚ) (sCount : ℕ) (cells : List SampleRank) (nux : NuxLH),
      sCount = sCountTot cells → u < 1 → (∀ c ∈ cells, 0 < c.sCount) →
      splitNum (MonoMode 1 u) sum sCount preBias cells = some nux →
      ∃ k, k + 1 < cells.length ∧ nux.lhIdxCount = k + 1 ∧
        (sum - sumRAt cells k) * (sCountRAt cells k : ℚ)
          ≤ sumRAt cells k * ((sCount - sCountRAt cells k : ℕ) : ℚ) ∧
        (sum - sumRAt cells k) / ((sCount - sCountRAt cells k : ℕ) : ℚ)
          ≤ sumRAt cells k / (sCountRAt cells k : ℚ)) ∧
    (∀ (u sumCand : ℚ) (sCountCand : ℕ) (cells : List ObsReg) (v : ℚ) (k : ℕ),
      sCountCand = osCountTot cells → u < 1 → (∀ c ∈ cells, 0 < c.sCount) →
      splitMono (MonoMode 1 u) sumCand sCountCand cells = some (v, k) →
      k + 1 < cells.length ∧
      (sumCand - osumRAt cells k) * (osCountRAt cells k : ℚ)
        ≤ osumRAt cells k * ((sCountCand - osCountRAt cells k : ℕ) : ℚ) ∧
      (sumCand - osumRAt cells k) / ((sCountCand - osCountRAt cells k : ℕ) : ℚ)
        ≤ osumRAt cells k / (osCountRAt cells k : ℚ)) ∧
    (∀ (u sum preBias : ℚ) (sCount rankDense implicit : ℕ)
        (cellsLow cellsHigh : List SampleRank) (nux : DNux),
      sCount = sCountTot (denseCells sum sCount rankDense cellsLow cellsHigh) →
      (∀ c ∈ cellsHigh, c.rank ≠ rankDense) →
      (∀ c ∈ denseCells sum sCount rankDense cellsLow cellsHigh, 0 < c.sCount) →
      u < 1 →
      splitNumDense (MonoMode 1 u) sum sCount preBias rankDense implicit
          cellsLow cellsHigh = some nux →
      ∃ k, k + 1 < (denseCells sum sCount rankDense cellsLow cellsHigh).length ∧
        nux.rankLH = rankAt (denseCells sum sCount rankDense cellsLow cellsHigh) k ∧
        (rankAt (denseCells sum sCount rankDense cellsLow cellsHigh) k = rankDense ∨
          (sum - sumRAt (denseCells sum sCount rankDense cellsLow cellsHigh) k)
              / ((sCount
                  - sCountRAt (denseCells sum sCount rankDense cellsLow cellsHigh) k : ℕ)
                : ℚ)
            ≤ sumRAt (denseCells sum sCount rankDense cellsLow cellsHigh) k
              / (sCountRAt (denseCells sum sCount rankDense cellsLow cellsHigh) k : ℚ))) := by
  have hmm1 : ∀ u : ℚ, u < 1 → MonoMode 1 u = 1 := by
    intro u hu
    unfold MonoMode
    norm_num [hu]
  refine ⟨?_, ?_, ?_⟩
  · intro u sum preBias sCount cells nux hcnt hu hpos hres
    rw [hmm1 u hu] at hres
    obtain ⟨hs, _⟩ := splitNum_spec 1 sum sCount preBias cells hcnt
    obtain ⟨k, hk1, hacc, _, _, hidx, _, _, _, _⟩ := hs nux hres
    have hcross := gateAt_one sum sCount cells k hacc.2
    have hL : (0 : ℚ) < ((sCount - sCountRAt cells k : ℕ) : ℚ) :=
      Nat.cast_pos.mpr (sCountLAt_pos cells k sCount hcnt hk1 hpos)
    have hR : (0 : ℚ) < (sCountRAt cells k : ℚ) :=
      Nat.cast_pos.mpr (sCountRAt_pos cells k hk1 hpos)
    refine ⟨k, hk1, hidx, hcross, ?_⟩
    rw [div_le_div_iff₀ hL hR]
    exact hcross
  · intro u sumCand sCountCand cells v k hcnt hu hpos hres
    rw [hmm1 u hu] at hres
    obtain ⟨hk1, _, hgate⟩ := splitMono_gate 1 sumCand sCountCand cells hcnt v k hres
    have hcross := monoOK_one _ _ _ _ hgate
    have hL : (0 : ℚ) < ((sCountCand - osCountRAt cells k : ℕ) : ℚ) :=
      Nat.cast_pos.mpr (osCountLAt_pos cells k sCountCand hcnt hk1 hpos)
    have hR : (0 : ℚ) < (osCountRAt cells k : ℚ) :=
      Nat.cast_pos.mpr (osCountRAt_pos cells k hk1 hpos)
    refine ⟨hk1, hcross, ?_⟩
    rw [div_le_div_iff₀ hL hR]
    exact hcross
  · intro u sum preBias sCount rankDense implicit cellsLow cellsHigh nux
      hcnt hhigh hposV hu hres
    rw [hmm1 u hu] at hres
    obtain ⟨k, hk1, hadm, hgain, hinfo, hsc, hLH, hRH, hgate⟩ :=
      splitNumDense_spec 1 sum sCount preBias rankDense implicit
        cellsLow cellsHigh hcnt hhigh nux hres
    refine ⟨k, hk1, hLH, ?_⟩
    cases hgate with
    | inl hdense => exact Or.inl hdense
    | inr hg =>
        refine Or.inr ?_
        have hcross := gateAt_one sum sCount _ k hg
        have hL : (0 : ℚ)
            < ((sCount
                - sCountRAt (denseCells sum sCount rankDense cellsLow cellsHigh) k : ℕ) : ℚ) :=
          Nat.cast_pos.mpr (sCountLAt_pos _ k sCount hcnt hk1 hposV)
        have hR : (0 : ℚ)
            < (sCountRAt (denseCells sum sCount rankDense cellsLow cellsHigh) k : ℚ) :=
          Nat.cast_pos.mpr (sCountRAt_pos _ k hk1 hposV)
        rw [div_le_div_iff₀ hL hR]
        exact hcross

/-- C5 counterexample: the monotone mode is active with sign one, the
    implicit-rank scan retains the dense-boundary cut of the exhibited
    candidate on information alone, and that cut has left mean 10 and
    right mean 0, so mean(L) <= mean(R) fails for a retained cut. -/
theorem splitNumMono_means_ordered_claim_false :
    MonoMode 1 0 = 1 ∧
    splitNumDense 1 10 3 0 0 1 [] dnCexHigh = some ⟨1, 1, 100, 0, 1, 1⟩ ∧
    (⟨1, 1, 100, 0, 1, 1⟩ : DNux).lhSCount = 3 - sCountRAt dnCexCells 0 ∧
    (⟨1, 1, 100, 0, 1, 1⟩ : DNux).rankLH = rankAt dnCexCells 0 ∧
    (10 - sumRAt dnCexCells 0) / ((3 - sCountRAt dnCexCells 0 : ℕ) : ℚ) = 10 ∧
    sumRAt dnCexCells 0 / (sCountRAt dnCexCells 0 : ℚ) = 0 ∧
    ¬ ((10 - sumRAt dnCexCells 0) / ((3 - sCountRAt dnCexCells 0 : ℕ) : ℚ)
        ≤ sumRAt dnCexCells 0 / (sCountRAt dnCexCells 0 : ℚ)) := by
  refine ⟨by norm_num [MonoMode], ?_, ?_, ?_, ?_, ?_, ?_⟩
  · norm_num [splitNumDense, dnCexHigh, splitNumDenseGo, splitNumDenseStep, denseEval,
      monoOK, ySumTot, sCountTot]
  · norm_num [dnCexCells, dnCexHigh, denseCells, sCountRAt, sCountTot, ySumTot]
  · norm_num [dnCexCells, dnCexHigh, denseCells, rankAt, ySumTot, sCountTot]
  · norm_num [dnCexCells, dnCexHigh, denseCells, sumRAt, sCountRAt, ySumTot, sCountTot]
  · norm_num [dnCexCells, dnCexHigh, denseCells, sumRAt, sCountRAt, ySumTot, sCountTot]
  · norm_num [dnCexCells, dnCexHigh, denseCells, sumRAt, sCountRAt, ySumTot, sCountTot]

/-- Witness for the amended C5 theorem at concrete candidates of the
    three scans. -/
theorem splitNumMono_means_ordered_witness :
    ((2 = sCountTot [(⟨2, 0, 1⟩ : SampleRank), ⟨10, 1, 1⟩] ∧ (1 / 2 : ℚ) < 1 ∧
      (∀ c ∈ [(⟨2, 0, 1⟩ : SampleRank), ⟨10, 1, 1⟩], 0 < c.sCount) ∧
      splitNum (MonoMode 1 (1 / 2)) 12 2 0 [⟨2, 0, 1⟩, ⟨10, 1, 1⟩]
        = some ⟨1, 1, 104, 0, 1⟩) ∧
      (∃ k, k + 1 < ([(⟨2, 0, 1⟩ : SampleRank), ⟨10, 1, 1⟩] : List SampleRank).length ∧
        (⟨1, 1, 104, 0, 1⟩ : NuxLH).lhIdxCount = k + 1 ∧
        (12 - sumRAt [⟨2, 0, 1⟩, ⟨10, 1, 1⟩] k)
            * (sCountRAt [⟨2, 0, 1⟩, ⟨10, 1, 1⟩] k : ℚ)
          ≤ sumRAt [⟨2, 0, 1⟩, ⟨10, 1, 1⟩] k
            * ((2 - sCountRAt [⟨2, 0, 1⟩, ⟨10, 1, 1⟩] k : ℕ) : ℚ) ∧
        (12 - sumRAt [⟨2, 0, 1⟩, ⟨10, 1, 1⟩] k)
            / ((2 - sCountRAt [⟨2, 0, 1⟩, ⟨10, 1, 1⟩] k : ℕ) : ℚ)
          ≤ sumRAt [⟨2, 0, 1⟩, ⟨10, 1, 1⟩] k
            / (sCountRAt [⟨2, 0, 1⟩, ⟨10, 1, 1⟩] k : ℚ))) ∧
    ((2 = osCountTot [(⟨2, 1, false⟩ : ObsReg), ⟨10, 1, false⟩] ∧ (1 / 2 : ℚ) < 1 ∧
      (∀ c ∈ [(⟨2, 1, false⟩ : ObsReg), ⟨10, 1, false⟩], 0 < c.sCount) ∧
      splitMono (MonoMode 1 (1 / 2)) 12 2 [⟨2, 1, false⟩, ⟨10, 1, false⟩]
        = some (104, 0)) ∧
      (0 + 1 < ([(⟨2, 1, false⟩ : ObsReg), ⟨10, 1, false⟩] : List ObsReg).length ∧
        (12 - osumRAt [⟨2, 1, false⟩, ⟨10, 1, false⟩] 0)
            * (osCountRAt [⟨2, 1, false⟩, ⟨10, 1, false⟩] 0 : ℚ)
          ≤ osumRAt [⟨2, 1, false⟩, ⟨10, 1, false⟩] 0
            * ((2 - osCountRAt [⟨2, 1, false⟩, ⟨10, 1, false⟩] 0 : ℕ) : ℚ) ∧
        (12 - osumRAt [⟨2, 1, false⟩, ⟨10, 1, false⟩] 0)
            / ((2 - osCountRAt [⟨2, 1, false⟩, ⟨10, 1, false⟩] 0 : ℕ) : ℚ)
          ≤ osumRAt [⟨2, 1, false⟩, ⟨10, 1, false⟩] 0
            / (osCountRAt [⟨2, 1, false⟩, ⟨10, 1, false⟩] 0 : ℚ))) ∧
    ((3 = sCountTot dnCexCells ∧ (∀ c ∈ dnCexHigh, c.rank ≠ 0) ∧
      (∀ c ∈ dnCexCells, 0 < c.sCount) ∧ (0 : ℚ) < 1 ∧
      splitNumDense (MonoMode 1 0) 10 3 0 0 1 [] dnCexHigh = some ⟨1, 1, 100, 0, 1, 1⟩) ∧
      (∃ k, k + 1 < dnCexCells.length ∧
        (⟨1, 1, 100, 0, 1, 1⟩ : DNux).rankLH = rankAt dnCexCells k ∧
        (rankAt dnCexCells k = 0 ∨
          (10 - sumRAt dnCexCells k) / ((3 - sCountRAt dnCexCells k : ℕ) : ℚ)
            ≤ sumRAt dnCexCells k / (sCountRAt dnCexCells k : ℚ)))) := by
  have h1 : 2 = sCountTot [(⟨2, 0, 1⟩ : SampleRank), ⟨10, 1, 1⟩] := by decide
  have h2 : splitNum (MonoMode 1 (1 / 2)) 12 2 0 [⟨2, 0, 1⟩, ⟨10, 1, 1⟩]
      = some ⟨1, 1, 104, 0, 1⟩ := by
    norm_num [splitNum, splitNumGo, splitNumStep, monoOK, MonoMode, rankAt]
  have h3 : 2 = osCountTot [(⟨2, 1, false⟩ : ObsReg), ⟨10, 1, false⟩] := by decide
  have h4 : splitMono (MonoMode 1 (1 / 2)) 12 2 [⟨2, 1, false⟩, ⟨10, 1, false⟩]
      = some (104, 0) := by
    norm_num [splitMono, splitMonoGo, argmaxRL, infoVar, monoOK, MonoMode]
  have h5 : 3 = sCountTot dnCexCells := by
    norm_num [dnCexCells, dnCexHigh, denseCells, sCountTot, ySumTot]
  have h6 : ∀ c ∈ dnCexHigh, c.rank ≠ 0 := by decide
  have h7 : ∀ c ∈ dnCexCells, 0 < c.sCount := by
    norm_num [dnCexCells, dnCexHigh, denseCells, sCountTot, ySumTot]
  have h8 : splitNumDense (MonoMode 1 0) 10 3 0 0 1 [] dnCexHigh
      = some ⟨1, 1, 100, 0, 1, 1⟩ := by
    norm_num [splitNumDense, dnCexHigh, splitNumDenseGo, splitNumDenseStep, denseEval,
      monoOK, MonoMode, ySumTot, sCountTot]
  have hp : ∀ c ∈ [(⟨2, 0, 1⟩ : SampleRank), ⟨10, 1, 1⟩], 0 < c.sCount := by decide
  have hq : ∀ c ∈ [(⟨2, 1, false⟩ : ObsReg), ⟨10, 1, false⟩], 0 < c.sCount := by decide
  refine ⟨⟨⟨h1, by norm_num, hp, h2⟩,
      splitNumMono_means_ordered.1 (1 / 2) 12 0 2 _ _ h1 (by norm_num) hp h2⟩,
    ⟨⟨h3, by norm_num, hq, h4⟩,
      splitNumMono_means_ordered.2.1 (1 / 2) 12 2 _ 104 0 h3 (by norm_num) hq h4⟩,
    ⟨⟨h5, h6, h7, by norm_num, h8⟩,
      splitNumMono_means_ordered.2.2 0 10 0 3 0 1 [] dnCexHigh ⟨1, 1, 100, 0, 1, 1⟩
        h5 h6 h7 (by norm_num) h8⟩⟩


/-- Concrete splitpred candidate used to instantiate C3. -/
def cellsW3 : List SampleRank := [⟨1, 0, 1⟩, ⟨10, 1, 1⟩]

/-- Concrete cart candidate used to instantiate C3. -/
def obsW3 : List ObsReg := [⟨1, 1, false⟩, ⟨10, 1, false⟩]

/-- One staged observation cell of a classification candidate as read
    off by SampleRank::CtgFields in SplitCoord::NumCtgGini
    (splitpred.cc line 1023): response sum, rank, sample count and
    response category. -/
structure SampleRankCtg where
  ySum : ℚ
  rank : ℕ
  sCount : ℕ
  yCtg : ℕ
deriving Repr, DecidableEq, Inhabited

/-- Rank of the classification cell at position k. -/
def rankCtgAt (cells : List SampleRankCtg) (k : ℕ) : ℕ := (cells.getD k default).rank

/-- Scan state of SplitCoord::NumCtgGini (splitpred.cc lines 1004 to
    1047): the left running sums, the rank of the previously visited
    cell, the two sums of squares, the per-category right accumulator
    (SPCtg::CtgSumAccum, modelled from the spec as the header holding it
    is absent: it returns its prior value and absorbs the cell sum) and
    the argmax record. -/
structure NCState where
  sumL : ℚ
  sCountL : ℕ
  rkRight : ℕ
  ssL : ℚ
  ssR : ℚ
  ctgAcc : ℕ → ℚ
  maxGini : ℚ
  lhSampCt : ℕ
  rankLH : ℕ
  rankRH : ℕ
  rhInf : ℕ

/-- The loop of SplitCoord::NumCtgGini (splitpred.cc lines 1020 to
    1046), processing the cell at index idx: the boundary between idx
    and idx+1 is scored with ssL/sumL + ssR/sumR and recorded when the
    adjacent ranks differ, the denominators are stable
    (SPCtg::StableDenoms, a predicate from the absent header supplied
    as a parameter) and the score beats the running maximum; the cell is
    then deducted from the left sums and folded into the right
    accumulators. -/
def numCtgGiniGo (stable : ℚ → ℚ → Bool) (ctgSumNode : ℕ → ℚ) (sum : ℚ) :
    List SampleRankCtg → ℕ → NCState → NCState
  | [], _, st => st
  | c :: rest, idx, st =>
      let sumR := sum - st.sumL
      let cutGini := st.ssL / st.sumL + st.ssR / sumR
      let st1 :=
        if c.rank ≠ st.rkRight ∧ stable st.sumL sumR = true ∧ st.maxGini < cutGini then
          { st with
              maxGini := cutGini
              lhSampCt := st.sCountL
              rankLH := c.rank
              rankRH := st.rkRight
              rhInf := idx + 1 }
        else st
      let sumRCtg := st1.ctgAcc c.yCtg
      numCtgGiniGo stable ctgSumNode sum rest (idx - 1)
        { st1 with
            rkRight := c.rank
            sCountL := st1.sCountL - c.sCount
            sumL := st1.sumL - c.ySum
            ssR := st1.ssR + c.ySum * (c.ySum + 2 * sumRCtg)
            ssL := st1.ssL + c.ySum * (c.ySum - 2 * (ctgSumNode c.yCtg - sumRCtg))
            ctgAcc := Function.update st1.ctgAcc c.yCtg (sumRCtg + c.ySum) }

/-- SplitCoord::NumCtg (splitpred.cc lines 978 to 1001): the scan is
    seeded with the candidate totals, the node sum of squares
    (SPCtg::SumSquares, supplied as a parameter from the absent header)
    and the rank of the top cell, and walks all cells right to left;
    a split is written exactly when the maximal score exceeds the
    prebias. -/
def numCtg (stable : ℚ → ℚ → Bool) (ctgSumNode : ℕ → ℚ) (ssInit : ℚ)
    (ctgAcc0 : ℕ → ℚ) (sum : ℚ) (sCount : ℕ) (preBias : ℚ)
    (cells : List SampleRankCtg) : Option DNux :=
  let st0 : NCState :=
    ⟨sum, sCount, rankCtgAt cells (cells.length - 1), ssInit, 0, ctgAcc0,
      preBias, 0, 0, 0, cells.length - 1⟩
  let fin := numCtgGiniGo stable ctgSumNode sum cells.reverse (cells.length - 1) st0
  if preBias < fin.maxGini then
    some ⟨fin.rhInf, fin.lhSampCt, fin.maxGini - preBias, fin.rankLH, fin.rankRH, 0⟩
  else none

lemma numCtgGiniGo_inv (stable : ℚ → ℚ → Bool) (ctgSumNode : ℕ → ℚ) (sum preBias : ℚ) :
    ∀ (seg : List SampleRankCtg) (i : ℕ) (st : NCState),
      preBias ≤ st.maxGini → (st.maxGini = preBias ∨ st.rankLH ≠ st.rankRH) →
      preBias ≤ (numCtgGiniGo stable ctgSumNode sum seg i st).maxGini ∧
      ((numCtgGiniGo stable ctgSumNode sum seg i st).maxGini = preBias ∨
        (numCtgGiniGo stable ctgSumNode sum seg i st).rankLH
          ≠ (numCtgGiniGo stable ctgSumNode sum seg i st).rankRH) := by
  intro seg
  induction seg with
  | nil =>
      intro i st h1 h2
      exact ⟨h1, h2⟩
  | cons c rest ih =>
      intro i st h1 h2
      simp only [numCtgGiniGo]
      split
      next hg =>
        refine ih (i - 1) _ ?_ ?_
        · dsimp only
          exact le_of_lt (lt_of_le_of_lt h1 hg.2.2)
        · dsimp only
          exact Or.inr hg.1
      next =>
        exact ih (i - 1) _ h1 h2

lemma numCtgGiniGo_rkRight (stable : ℚ → ℚ → Bool) (ctgSumNode : ℕ → ℚ) (sum : ℚ) :
    ∀ (seg : List SampleRankCtg) (i : ℕ) (st : NCState), seg ≠ [] →
      (numCtgGiniGo stable ctgSumNode sum seg i st).rkRight
        = (seg.getD (seg.length - 1) default).rank := by
  intro seg
  induction seg with
  | nil => intro i st h; exact absurd rfl h
  | cons c rest ih =>
      intro i st _
      simp only [numCtgGiniGo]
      cases hr : rest with
      | nil =>
          subst hr
          split
          all_goals rfl
      | cons d t =>
          have hne : rest ≠ [] := by rw [hr]; simp
          rw [← hr]
          have := ih (i - 1)
          have hlen : (c :: rest).length - 1 = rest.length - 1 + 1 := by
            rw [hr]
            simp
          rw [hlen, List.getD_cons_succ]
          split
          · exact ih (i - 1) _ hne
          · exact ih (i - 1) _ hne

/-- The split signature written by SplitCoord::NumCtg names differing
    rank bounds: the recording gate requires the adjacent ranks to
    differ. -/
lemma numCtg_tie (stable : ℚ → ℚ → Bool) (ctgSumNode : ℕ → ℚ) (ssInit : ℚ)
    (ctgAcc0 : ℕ → ℚ) (sum : ℚ) (sCount : ℕ) (preBias : ℚ)
    (cells : List SampleRankCtg) (nux : DNux)
    (hres : numCtg stable ctgSumNode ssInit ctgAcc0 sum sCount preBias cells = some nux) :
    nux.rankLH ≠ nux.rankRH := by
  unfold numCtg at hres
  obtain ⟨hle, hdisj⟩ := numCtgGiniGo_inv stable ctgSumNode sum preBias cells.reverse
    (cells.length - 1)
    ⟨sum, sCount, rankCtgAt cells (cells.length - 1), ssInit, 0, ctgAcc0,
      preBias, 0, 0, 0, cells.length - 1⟩
    (le_refl preBias) (Or.inl rfl)
  dsimp only at hres
  split at hres
  next hlt =>
      obtain rfl : nux = ⟨_, _, _, _, _, 0⟩ := (Option.some.inj hres).symm
      cases hdisj with
      | inl heq =>
          rw [heq] at hlt
          exact absurd hlt (lt_irrefl preBias)
      | inr hne => exact hne
  next => exact absurd hres (by simp)

/-- The descending scan of SPCtg::Residuals (splitpred.cc lines 926 to
    936) that locates the lowest index whose rank is at or above the
    dense rank, defaulting to the top index; cells are supplied in
    reverse order with the index of the head cell. -/
def denseCutGo (rankDense : ℕ) : List SampleRankCtg → ℕ → ℕ → ℕ
  | [], _, dc => dc
  | c :: rest, idx, dc =>
      denseCutGo rankDense rest (idx - 1) (if rankDense ≤ c.rank then idx else dc)

/-- The dense cut of a classification candidate (SPCtg::Residuals). -/
def denseCutOf (rankDense : ℕ) (cells : List SampleRankCtg) : ℕ :=
  denseCutGo rankDense cells.reverse (cells.length - 1) (cells.length - 1)

/-- SPCtg::ApplyResiduals (splitpred.cc lines 950 to 963): folds the
    residual per-category sums into the two sums of squares and the
    category accumulator, category by category; the first component
    receives the left-hand pattern, the second the right-hand pattern,
    mirroring the reference order at the call sites. -/
def applyResiduals (ctgSumNode sumDenseCtg : ℕ → ℚ) (nCtg : ℕ)
    (ssA ssB : ℚ) (ctgAcc : ℕ → ℚ) : ℚ × ℚ × (ℕ → ℚ) :=
  (List.range nCtg).foldl
    (fun st ctg =>
      let ySum := sumDenseCtg ctg
      let sumRCtg := st.2.2 ctg
      (st.1 + ySum * (ySum - 2 * (ctgSumNode ctg - sumRCtg)),
        st.2.1 + ySum * (ySum + 2 * sumRCtg),
        Function.update st.2.2 ctg (sumRCtg + ySum)))
    (ssA, ssB, ctgAcc)

/-- The final scan state of SplitCoord::NumCtgDense (splitpred.cc lines
    1050 to 1110): residual sums from SPCtg::Residuals, the first
    NumCtgGini pass from the top down to the final index (the whole
    range when the dense blob lies at an end, one past the dense cut
    otherwise), the dense-component evaluation whenever the dense cut is
    not the top index, and the second NumCtgGini pass below the dense
    cut when the blob does not lie to the far left. -/
def numCtgDenseFin (stable : ℚ → ℚ → Bool) (ctgSumNode : ℕ → ℚ) (ssInit : ℚ)
    (ctgAcc0 : ℕ → ℚ) (nCtg : ℕ) (sum : ℚ) (sCount : ℕ) (preBias : ℚ)
    (rankDense : ℕ) (cells : List SampleRankCtg) : NCState :=
  let sumDense := sum - (cells.map SampleRankCtg.ySum).sum
  let sCountDense := sCount - (cells.map SampleRankCtg.sCount).sum
  let sumDenseCtg : ℕ → ℚ := fun ctg =>
    ctgSumNode ctg - ((cells.filter (fun c => c.yCtg = ctg)).map SampleRankCtg.ySum).sum
  let idxEnd := cells.length - 1
  let denseCut := denseCutOf rankDense cells
  let denseRight := denseCut = idxEnd ∧ rankCtgAt cells denseCut < rankDense
  let denseLeft := denseCut = 0 ∧ rankDense < rankCtgAt cells denseCut
  let idxFinal := if denseRight then 0 else if denseLeft then 0 else denseCut + 1
  let st0 : NCState :=
    if denseRight then
      let r := applyResiduals ctgSumNode sumDenseCtg nCtg ssInit 0 ctgAcc0
      ⟨sum - sumDense, sCount - sCountDense, rankDense, r.1, r.2.1, r.2.2,
        preBias, 0, 0, 0, idxEnd⟩
    else
      ⟨sum, sCount, rankCtgAt cells idxEnd, ssInit, 0, ctgAcc0,
        preBias, 0, 0, 0, idxEnd⟩
  let st1 := numCtgGiniGo stable ctgSumNode sum ((cells.drop idxFinal).reverse) idxEnd st0
  if denseCut ≠ idxEnd then
    let sumR := sum - st1.sumL
    let st2 :=
      if stable st1.sumL sumR = true ∧ st1.maxGini < st1.ssL / st1.sumL + st1.ssR / sumR
      then
        { st1 with
            maxGini := st1.ssL / st1.sumL + st1.ssR / sumR
            lhSampCt := st1.sCountL
            rankLH := rankDense
            rankRH := st1.rkRight
            rhInf := idxFinal }
      else st1
    if denseLeft then st2
    else
      let r := applyResiduals ctgSumNode sumDenseCtg nCtg st2.ssR st2.ssL st2.ctgAcc
      let st3 : NCState :=
        { st2 with
            ssR := r.1
            ssL := r.2.1
            ctgAcc := r.2.2
            sCountL := st2.sCountL - sCountDense
            sumL := st2.sumL - sumDense }
      numCtgGiniGo stable ctgSumNode sum ((cells.take (denseCut + 1)).reverse) denseCut st3
  else st1

/-- SplitCoord::NumCtgDense (splitpred.cc lines 1050 to 1116): a split
    is written exactly when the final maximal score exceeds the prebias,
    the implicit count joining the left side when the recorded left rank
    is at or above the dense rank. -/
def numCtgDense (stable : ℚ → ℚ → Bool) (ctgSumNode : ℕ → ℚ) (ssInit : ℚ)
    (ctgAcc0 : ℕ → ℚ) (nCtg : ℕ) (sum : ℚ) (sCount : ℕ) (preBias : ℚ)
    (rankDense implicit : ℕ) (cells : List SampleRankCtg) : Option DNux :=
  let fin := numCtgDenseFin stable ctgSumNode ssInit ctgAcc0 nCtg sum sCount preBias
    rankDense cells
  if preBias < fin.maxGini then
    let lhDense := if rankDense ≤ fin.rankLH then implicit else 0
    some ⟨fin.rhInf + lhDense, fin.lhSampCt, fin.maxGini - preBias, fin.rankLH, fin.rankRH,
      lhDense⟩
  else none

lemma denseCutGo_le (rankDense b : ℕ) :
    ∀ (seg : List SampleRankCtg) (i dc : ℕ), i ≤ b → dc ≤ b →
      denseCutGo rankDense seg i dc ≤ b := by
  intro seg
  induction seg with
  | nil =>
      intro i dc _ h2
      exact h2
  | cons c rest ih =>
      intro i dc h1 h2
      simp only [denseCutGo]
      refine ih (i - 1) _ (by omega) ?_
      split
      · exact h1
      · exact h2

lemma denseCutOf_le (rankDense : ℕ) (cells : List SampleRankCtg) :
    denseCutOf rankDense cells ≤ cells.length - 1 :=
  denseCutGo_le rankDense (cells.length - 1) cells.reverse (cells.length - 1)
    (cells.length - 1) (le_refl _) (le_refl _)

lemma getD_reverse_at {α : Type} [Inhabited α] (l : List α) (t : ℕ) (h : t < l.length) :
    l.reverse.getD t default = l.getD (l.length - 1 - t) default := by
  rw [List.getD_eq_getElem _ _ (by simpa using h),
      List.getD_eq_getElem _ _ (by omega)]
  exact List.getElem_reverse _

lemma getD_drop_zero {α : Type} [Inhabited α] (l : List α) (f : ℕ) (h : f < l.length) :
    (l.drop f).getD 0 default = l.getD f default := by
  rw [List.getD_eq_getElem _ _ (by rw [List.length_drop]; omega),
      List.getD_eq_getElem _ _ h]
  simp

lemma getD_mem_of_lt {α : Type} [Inhabited α] (l : List α) (f : ℕ) (h : f < l.length) :
    l.getD f default ∈ l := by
  rw [List.getD_eq_getElem _ _ h]
  exact List.getElem_mem _

lemma rk_first_of_drop (cells : List SampleRankCtg) (f : ℕ) (h : f < cells.length) :
    ((cells.drop f).reverse).getD (((cells.drop f).reverse).length - 1) default
      = cells.getD f default := by
  have h1 : ((cells.drop f).reverse).length = cells.length - f := by
    rw [List.length_reverse, List.length_drop]
  rw [h1, getD_reverse_at _ _ (by rw [List.length_drop]; omega)]
  have h3 : (cells.drop f).length - 1 - (cells.length - f - 1) = 0 := by
    rw [List.length_drop]
    omega
  rw [h3]
  exact getD_drop_zero cells f h

/-- Every split written by SplitCoord::NumCtgDense names differing rank
    bounds, provided no explicit cell carries the dense rank: the pass
    gates enforce the difference at explicit boundaries, and the
    dense-component record pairs the dense rank with the rank of an
    explicit cell. -/
lemma numCtgDense_tie (stable : ℚ → ℚ → Bool) (ctgSumNode : ℕ → ℚ) (ssInit : ℚ)
    (ctgAcc0 : ℕ → ℚ) (nCtg : ℕ) (sum : ℚ) (sCount : ℕ) (preBias : ℚ)
    (rankDense implicit : ℕ) (cells : List SampleRankCtg) (nux : DNux)
    (hrk : ∀ c ∈ cells, c.rank ≠ rankDense)
    (hres : numCtgDense stable ctgSumNode ssInit ctgAcc0 nCtg sum sCount preBias
      rankDense implicit cells = some nux) :
    nux.rankLH ≠ nux.rankRH := by
  have hfin : preBias ≤ (numCtgDenseFin stable ctgSumNode ssInit ctgAcc0 nCtg sum sCount
        preBias rankDense cells).maxGini ∧
      ((numCtgDenseFin stable ctgSumNode ssInit ctgAcc0 nCtg sum sCount
          preBias rankDense cells).maxGini = preBias ∨
        (numCtgDenseFin stable ctgSumNode ssInit ctgAcc0 nCtg sum sCount
          preBias rankDense cells).rankLH
          ≠ (numCtgDenseFin stable ctgSumNode ssInit ctgAcc0 nCtg sum sCount
            preBias rankDense cells).rankRH) := by
    unfold numCtgDenseFin
    dsimp only
    by_cases hdc : denseCutOf rankDense cells = cells.length - 1
    · rw [if_neg (not_not_intro hdc)]
      split
      · exact numCtgGiniGo_inv stable ctgSumNode sum preBias _ _ _
          (le_refl _) (Or.inl rfl)
      · exact numCtgGiniGo_inv stable ctgSumNode sum preBias _ _ _
          (le_refl _) (Or.inl rfl)
    · rw [if_pos hdc]
      have hle := denseCutOf_le rankDense cells
      have hlt : denseCutOf rankDense cells < cells.length - 1 := lt_of_le_of_ne hle hdc
      have hndr : ¬(denseCutOf rankDense cells = cells.length - 1
          ∧ rankCtgAt cells (denseCutOf rankDense cells) < rankDense) :=
        fun h => hdc h.1
      rw [if_neg hndr, if_neg hndr]
      by_cases hdl : denseCutOf rankDense cells = 0
          ∧ rankDense < rankCtgAt cells (denseCutOf rankDense cells)
      · rw [if_pos hdl, if_pos hdl]
        have hne : ((cells.drop 0).reverse : List SampleRankCtg) ≠ [] := by
          have : ((cells.drop 0).reverse).length = cells.length := by
            rw [List.length_reverse, List.length_drop]
            omega
          intro hc
          rw [hc] at this
          simp at this
          omega
        have hinv1 := numCtgGiniGo_inv stable ctgSumNode sum preBias
          ((cells.drop 0).reverse) (cells.length - 1)
          (⟨sum, sCount, rankCtgAt cells (cells.length - 1), ssInit, 0, ctgAcc0,
            preBias, 0, 0, 0, cells.length - 1⟩ : NCState)
          (le_refl _) (Or.inl rfl)
        have hr := numCtgGiniGo_rkRight stable ctgSumNode sum
          ((cells.drop 0).reverse) (cells.length - 1)
          (⟨sum, sCount, rankCtgAt cells (cells.length - 1), ssInit, 0, ctgAcc0,
            preBias, 0, 0, 0, cells.length - 1⟩ : NCState) hne
        rw [rk_first_of_drop cells 0 (by omega)] at hr
        have hrne : (cells.getD 0 default).rank ≠ rankDense :=
          hrk _ (getD_mem_of_lt cells 0 (by omega))
        split
        next hg =>
          refine ⟨le_of_lt (lt_of_le_of_lt hinv1.1 hg.2), Or.inr ?_⟩
          dsimp only
          rw [hr]
          exact fun h => hrne h.symm
        next => exact hinv1
      · rw [if_neg hdl, if_neg hdl]
        have hf : denseCutOf rankDense cells + 1 < cells.length := by omega
        have hne : ((cells.drop (denseCutOf rankDense cells + 1)).reverse
            : List SampleRankCtg) ≠ [] := by
          have : ((cells.drop (denseCutOf rankDense cells + 1)).reverse).length
              = cells.length - (denseCutOf rankDense cells + 1) := by
            rw [List.length_reverse, List.length_drop]
          intro hc
          rw [hc] at this
          simp at this
          omega
        have hinv1 := numCtgGiniGo_inv stable ctgSumNode sum preBias
          ((cells.drop (denseCutOf rankDense cells + 1)).reverse) (cells.length - 1)
          (⟨sum, sCount, rankCtgAt cells (cells.length - 1), ssInit, 0, ctgAcc0,
            preBias, 0, 0, 0, cells.length - 1⟩ : NCState)
          (le_refl _) (Or.inl rfl)
        have hr := numCtgGiniGo_rkRight stable ctgSumNode sum
          ((cells.drop (denseCutOf rankDense cells + 1)).reverse) (cells.length - 1)
          (⟨sum, sCount, rankCtgAt cells (cells.length - 1), ssInit, 0, ctgAcc0,
            preBias, 0, 0, 0, cells.length - 1⟩ : NCState) hne
        rw [rk_first_of_drop cells (denseCutOf rankDense cells + 1) hf] at hr
        have hrne : (cells.getD (denseCutOf rankDense cells + 1) default).rank
            ≠ rankDense :=
          hrk _ (getD_mem_of_lt cells (denseCutOf rankDense cells + 1) hf)
        have hinv2 : preBias ≤ (numCtgGiniGo stable ctgSumNode sum
              ((cells.drop (denseCutOf rankDense cells + 1)).reverse) (cells.length - 1)
              (⟨sum, sCount, rankCtgAt cells (cells.length - 1), ssInit, 0, ctgAcc0,
                preBias, 0, 0, 0, cells.length - 1⟩ : NCState)).maxGini := hinv1.1
        split
        next hg =>
          refine numCtgGiniGo_inv stable ctgSumNode sum preBias _ _ _ ?_ ?_
          · dsimp only
            exact le_of_lt (lt_of_le_of_lt hinv1.1 hg.2)
          · dsimp only
            rw [hr]
            exact Or.inr (fun h => hrne h.symm)
        next =>
          exact numCtgGiniGo_inv stable ctgSumNode sum preBias _ _ _ hinv1.1 hinv1.2
  unfold numCtgDense at hres
  dsimp only at hres
  split at hres
  next hlt =>
      obtain rfl : nux = ⟨_, _, _, _, _, _⟩ := (Option.some.inj hres).symm
      cases hfin.2 with
      | inl heq =>
          rw [heq] at hlt
          exact absurd hlt (lt_irrefl preBias)
      | inr hne => exact hne
  next => exact absurd hres (by simp)

/-- One observation cell of the cart classification engine as unpacked
    by Obs::unpackCtg (obs.h is absent from the tree; the fields are the
    ones read at the call sites in cutaccumcart.cc): response sum,
    response category, sample count and the tied flag. -/
structure ObsCtg where
  ySum : ℚ
  yCtg : ℕ
  sCount : ℕ
  tied : Bool
deriving Repr, DecidableEq, Inhabited

/-- Modelled from the spec: CutAccum::infoGini is declared in the absent
    cutaccum header; the spec gives the Gini information as
    ssL / sumL + ssR / sumR. -/
def infoGini (ssL ssR sumL sumR : ℚ) : ℚ := ssL / sumL + ssR / sumR

/-- Scan state of CutAccumCtgCart::splitRL (cutaccumcart.cc lines 70 to
    84): running sum and sample count, the two sums of squares, the
    per-category accumulator behind CutAccumCtg::accumCtgSS (modelled
    from the spec, its header being absent: the accumulator returns its
    prior value and absorbs the cell sum, the right sum of squares grows
    by ySum(ySum + 2 sumRCtg) and the left by
    ySum(ySum - 2(ctgSumNode - sumRCtg))), the previously visited cell
    and the argmax record. -/
structure CutStateCtg where
  sum : ℚ
  sCount : ℕ
  ssL : ℚ
  ssR : ℚ
  ctgAcc : ℕ → ℚ
  obsThis : ObsCtg
  best : Option (ℚ × ℕ)

/-- The loop of CutAccumCtgCart::splitRL (cutaccumcart.cc lines 70 to
    84): the previously visited cell is deducted and folded into the
    category accumulators, and only when it is untied is the boundary
    offered to the argmax with the Gini information. -/
def splitRLCtgGo (ctgSumNode : ℕ → ℚ) (sumCand : ℚ) (sCountCand : ℕ) :
    List ObsCtg → ℕ → CutStateCtg → CutStateCtg
  | [], _, st => st
  | c :: rest, idx, st =>
      let sum := st.sum - st.obsThis.ySum
      let sCount := st.sCount - st.obsThis.sCount
      let sumRCtg := st.ctgAcc st.obsThis.yCtg
      let ssR := st.ssR + st.obsThis.ySum * (st.obsThis.ySum + 2 * sumRCtg)
      let ssL := st.ssL + st.obsThis.ySum
          * (st.obsThis.ySum - 2 * (ctgSumNode st.obsThis.yCtg - sumRCtg))
      let ctgAcc := Function.update st.ctgAcc st.obsThis.yCtg (sumRCtg + st.obsThis.ySum)
      let best :=
        if st.obsThis.tied = false then
          argmaxRL st.best (infoGini ssL ssR sum (sumCand - sum)) idx
        else st.best
      splitRLCtgGo ctgSumNode sumCand sCountCand rest (idx - 1)
        ⟨sum, sCount, ssL, ssR, ctgAcc, c, best⟩

/-- CutAccumCtgCart::splitRL over the candidate's staged cells, seeded
    with the candidate totals, the node sum of squares and the supplied
    initial category accumulator. -/
def splitRLCtg (ctgSumNode : ℕ → ℚ) (ssInit : ℚ) (ctgAcc0 : ℕ → ℚ)
    (sumCand : ℚ) (sCountCand : ℕ) (cells : List ObsCtg) : Option (ℚ × ℕ) :=
  match cells.reverse with
  | [] => none
  | cEnd :: rest =>
      (splitRLCtgGo ctgSumNode sumCand sCountCand rest (cells.length - 2)
        ⟨sumCand, sCountCand, ssInit, 0, ctgAcc0, cEnd, none⟩).best

/-- Indices recorded by the monotone regression loop satisfy any
    property that holds wherever the loop can offer a boundary: at the
    head index when the standing cell is untied, and at the successive
    indices gated by the successive cells. -/
lemma splitMonoGo_bestInv (mm : ℤ) (sumCand : ℚ) (sCountCand : ℕ) (Q : ℕ → Prop) :
    ∀ (seg : List ObsReg) (i : ℕ) (st : CutState),
      (∀ w k, st.best = some (w, k) → Q k) →
      (seg ≠ [] → st.obsThis.tied = false → Q i) →
      (∀ t, t + 1 < seg.length → (seg.getD t default).tied = false → Q (i - 1 - t)) →
      ∀ w k, (splitMonoGo mm sumCand sCountCand seg i st).best = some (w, k) → Q k := by
  intro seg
  induction seg with
  | nil =>
      intro i st hB _ _ w k hk
      exact hB w k hk
  | cons c rest ih =>
      intro i st hB hH hSeg w k hk
      simp only [splitMonoGo] at hk
      refine ih (i - 1) _ ?_ ?_ ?_ w k hk
      · intro w1 k1 hk1
        dsimp only at hk1
        by_cases ht : st.obsThis.tied = false
            ∧ monoOK mm (st.sum - st.obsThis.ySum)
                (sumCand - (st.sum - st.obsThis.ySum))
                (st.sCount - st.obsThis.sCount)
                (sCountCand - (st.sCount - st.obsThis.sCount)) = true
        · rw [if_pos ht] at hk1
          exact argmaxRL_keep Q st.best _ i (hH (by simp) ht.1) hB w1 k1 hk1
        · rw [if_neg ht] at hk1
          exact hB w1 k1 hk1
      · intro hrne htied
        dsimp only at htied
        have h0 := hSeg 0 (by simp [List.length_pos.mpr hrne]) (by simpa using htied)
        simpa using h0
      · intro t ht1 htt
        have he : i - 1 - 1 - t = i - 1 - (t + 1) := by omega
        rw [he]
        exact hSeg (t + 1) (by simpa using ht1) (by simpa using htt)

/-- The classification analogue for the loop of
    CutAccumCtgCart::splitRL. -/
lemma splitRLCtgGo_bestInv (ctgSumNode : ℕ → ℚ) (sumCand : ℚ) (sCountCand : ℕ)
    (Q : ℕ → Prop) :
    ∀ (seg : List ObsCtg) (i : ℕ) (st : CutStateCtg),
      (∀ w k, st.best = some (w, k) → Q k) →
      (seg ≠ [] → st.obsThis.tied = false → Q i) →
      (∀ t, t + 1 < seg.length → (seg.getD t default).tied = false → Q (i - 1 - t)) →
      ∀ w k, (splitRLCtgGo ctgSumNode sumCand sCountCand seg i st).best = some (w, k)
        → Q k := by
  intro seg
  induction seg with
  | nil =>
      intro i st hB _ _ w k hk
      exact hB w k hk
  | cons c rest ih =>
      intro i st hB hH hSeg w k hk
      simp only [splitRLCtgGo] at hk
      refine ih (i - 1) _ ?_ ?_ ?_ w k hk
      · intro w1 k1 hk1
        dsimp only at hk1
        by_cases ht : st.obsThis.tied = false
        · rw [if_pos ht] at hk1
          exact argmaxRL_keep Q st.best _ i (hH (by simp) ht) hB w1 k1 hk1
        · rw [if_neg ht] at hk1
          exact hB w1 k1 hk1
      · intro hrne htied
        dsimp only at htied
        have h0 := hSeg 0 (by simp [List.length_pos.mpr hrne]) (by simpa using htied)
        simpa using h0
      · intro t ht1 htt
        have he : i - 1 - 1 - t = i - 1 - (t + 1) := by omega
        rw [he]
        exact hSeg (t + 1) (by simpa using ht1) (by simpa using htt)

lemma getD_take_of_lt {α : Type} [Inhabited α] (l : List α) (m j : ℕ) (hj : j < m)
    (hl : j < l.length) :
    (l.take m).getD j default = l.getD j default := by
  rw [List.getD_eq_getElem _ _ (by rw [List.length_take]; omega),
      List.getD_eq_getElem _ _ hl]
  exact List.getElem_take _

/-- The cut recorded by CutAccumCtgCart::splitRL lies at a boundary
    whose right cell is untied. -/
lemma splitRLCtg_tie (ctgSumNode : ℕ → ℚ) (ssInit : ℚ) (ctgAcc0 : ℕ → ℚ)
    (sumCand : ℚ) (sCountCand : ℕ) (cells : List ObsCtg) (v : ℚ) (k : ℕ)
    (hres : splitRLCtg ctgSumNode ssInit ctgAcc0 sumCand sCountCand cells = some (v, k)) :
    k + 1 < cells.length ∧ (cells.getD (k + 1) default).tied = false := by
  cases hc : cells.reverse with
  | nil =>
      unfold splitRLCtg at hres
      rw [hc] at hres
      exact absurd hres (by simp)
  | cons cEnd rest =>
      have hne : cells ≠ [] := by
        intro h
        rw [h] at hc
        simp at hc
      unfold splitRLCtg at hres
      rw [hc] at hres
      by_cases hlen : 2 ≤ cells.length
      · obtain ⟨m, hm⟩ : ∃ m, cells.length = m + 2 := ⟨cells.length - 2, by omega⟩
        have h1 : cells.length - 1 = m + 1 := by omega
        have h2 : cells.length - 2 = m := by omega
        have hrl := reverse_eq_last_cons cells hne
        rw [hc, h1] at hrl
        have hEnd : cEnd = cells.getD (m + 1) default := (List.cons.injEq _ _ _ _ ▸ hrl).1
        have hRest : rest = (cells.take (m + 1)).reverse := (List.cons.injEq _ _ _ _ ▸ hrl).2
        rw [h2] at hres
        refine splitRLCtgGo_bestInv ctgSumNode sumCand sCountCand
          (fun j => j + 1 < cells.length ∧ (cells.getD (j + 1) default).tied = false)
          rest m ⟨sumCand, sCountCand, ssInit, 0, ctgAcc0, cEnd, none⟩
          (by intro w j hj; exact absurd hj (by simp)) ?_ ?_ v k hres
        · intro _ htied
          dsimp only at htied
          rw [hEnd] at htied
          exact ⟨by omega, htied⟩
        · intro t ht1 htt
          have hrlen : rest.length = m + 1 := by
            have := congrArg List.length hc
            rw [List.length_reverse, hm] at this
            simpa using this.symm
          rw [hrlen] at ht1
          have htk : (cells.take (m + 1)).length = m + 1 := by
            rw [List.length_take]
            omega
          have hgt : rest.getD t default = cells.getD (m - t) default := by
            rw [hRest, getD_reverse_at _ _ (by rw [htk]; omega), htk]
            have he : m + 1 - 1 - t = m - t := by omega
            rw [he]
            exact getD_take_of_lt cells (m + 1) (m - t) (by omega) (by omega)
          rw [hgt] at htt
          have he2 : m - 1 - t + 1 = m - t := by omega
          refine ⟨by omega, ?_⟩
          rw [he2]
          exact htt
      · have hone : cells.length = 1 := by
          have := List.length_pos.mpr hne
          omega
        have hrlen : rest = [] := by
          have := congrArg List.length hc
          rw [List.length_reverse, hone] at this
          simpa using this.symm
        rw [hrlen] at hres
        exact absurd hres (by simp [splitRLCtgGo])

/-- CutAccumRegCart::splitImpl (cutaccumcart.cc lines 112 to 126) and
    its phases: when the cut residual lies at or below the top
    observation, the explicit cells above the residual are walked by the
    splitRL/splitMono loop and CutAccumRegCart::splitResidual (lines 201
    to 212) then offers the residual boundary, gated by the monotone
    test alone; when the residual lies above the lowest observation,
    residualLR/splitMonoDense (lines 129 to 149 and 177 to 198) walk the
    cells below it, seeded with the residual pseudo-observation built by
    Obs::residualReg (obs.h, absent: supplied as a parameter).  Cells
    are supplied split about the residual and positions are those of the
    virtual sequence cellsLow ++ resid :: cellsHigh; mode 0 renders the
    monotone tests absent, so one definition covers both the plain and
    the monotone variants. -/
def splitImplReg (mm : ℤ) (sumCand : ℚ) (sCountCand : ℕ) (resid : ObsReg)
    (cellsLow cellsHigh : List ObsReg) : Option (ℚ × ℕ) :=
  let cr := cellsLow.length
  let st1 :=
    match cellsHigh.reverse with
    | [] => (⟨sumCand, sCountCand, resid, none⟩ : CutState)
    | cEnd :: restH =>
        let st := splitMonoGo mm sumCand sCountCand restH
          ((cellsLow ++ cellsHigh).length - 1) ⟨sumCand, sCountCand, cEnd, none⟩
        let sum := st.sum - st.obsThis.ySum
        let sCount := st.sCount - st.obsThis.sCount
        let best :=
          if monoOK mm sum (sumCand - sum) sCount (sCountCand - sCount) = true then
            argmaxRL st.best (infoVar sum (sumCand - sum) sCount (sCountCand - sCount)) cr
          else st.best
        ⟨sum, sCount, resid, best⟩
  if cellsLow.isEmpty then st1.best
  else (splitMonoGo mm sumCand sCountCand cellsLow.reverse (cr - 1) st1).best

/-- CutAccumCtgCart::splitImpl (cutaccumcart.cc lines 251 to 265) and
    its phases: the explicit cells above the residual are walked by the
    classification splitRL loop, CutAccumCtgCart::splitResidual (lines
    215 to 221) then offers the residual boundary unconditionally, and
    CutAccumCtgCart::residualLR (lines 152 to 174) walks the cells below
    the residual after folding the residual category sums
    (Obs::residualCtg, obs.h being absent, the residual totals and
    per-category sums are supplied as parameters) into the accumulators,
    the standing cell being the untied dummy observation. -/
def splitImplCtg (ctgSumNode : ℕ → ℚ) (ssInit : ℚ) (ctgAcc0 : ℕ → ℚ) (nCtg : ℕ)
    (sumCand : ℚ) (sCountCand : ℕ) (residSum : ℚ) (residSCount : ℕ)
    (ctgResid : ℕ → ℚ) (cellsLow cellsHigh : List ObsCtg) : Option (ℚ × ℕ) :=
  let cr := cellsLow.length
  let st1 :=
    match cellsHigh.reverse with
    | [] =>
        (⟨sumCand, sCountCand, ssInit, 0, ctgAcc0, ⟨0, 0, 0, false⟩, none⟩ : CutStateCtg)
    | cEnd :: restH =>
        let st := splitRLCtgGo ctgSumNode sumCand sCountCand restH
          ((cellsLow ++ cellsHigh).length - 1)
          ⟨sumCand, sCountCand, ssInit, 0, ctgAcc0, cEnd, none⟩
        let sum := st.sum - st.obsThis.ySum
        let sCount := st.sCount - st.obsThis.sCount
        let sumRCtg := st.ctgAcc st.obsThis.yCtg
        let ssR := st.ssR + st.obsThis.ySum * (st.obsThis.ySum + 2 * sumRCtg)
        let ssL := st.ssL + st.obsThis.ySum
            * (st.obsThis.ySum - 2 * (ctgSumNode st.obsThis.yCtg - sumRCtg))
        let ctgAcc := Function.update st.ctgAcc st.obsThis.yCtg (sumRCtg + st.obsThis.ySum)
        let best := argmaxRL st.best (infoGini ssL ssR sum (sumCand - sum)) cr
        ⟨sum, sCount, ssL, ssR, ctgAcc, ⟨0, 0, 0, false⟩, best⟩
  if cellsLow.isEmpty then st1.best
  else
    let r := applyResiduals ctgSumNode ctgResid nCtg st1.ssL st1.ssR st1.ctgAcc
    let st2 : CutStateCtg :=
      ⟨st1.sum - residSum, st1.sCount - residSCount, r.1, r.2.1, r.2.2,
        ⟨0, 0, 0, false⟩, st1.best⟩
    (splitRLCtgGo ctgSumNode sumCand sCountCand cellsLow.reverse (cr - 1) st2).best

/-- The cut recorded by the implicit regression scan lies at a boundary
    of the virtual sequence whose right cell is untied, or is the
    residual boundary offered by splitResidual. -/
lemma splitImplReg_tie (mm : ℤ) (sumCand : ℚ) (sCountCand : ℕ) (resid : ObsReg)
    (cellsLow cellsHigh : List ObsReg) (v : ℚ) (k : ℕ)
    (hres : splitImplReg mm sumCand sCountCand resid cellsLow cellsHigh = some (v, k)) :
    k + 1 < (cellsLow ++ resid :: cellsHigh).length ∧
    (((cellsLow ++ resid :: cellsHigh).getD (k + 1) default).tied = false
      ∨ k = cellsLow.length) := by
  have hWlen : (cellsLow ++ resid :: cellsHigh).length
      = cellsLow.length + cellsHigh.length + 1 := by
    rw [List.length_append, List.length_cons]
    omega
  have hWres : (cellsLow ++ resid :: cellsHigh).getD cellsLow.length default = resid := by
    rw [List.getD_append_right _ _ _ _ (le_refl _)]
    simp
  have hWlow : ∀ j, j < cellsLow.length →
      (cellsLow ++ resid :: cellsHigh).getD j default = cellsLow.getD j default := by
    intro j hj
    exact List.getD_append _ _ _ _ hj
  have hWhigh : ∀ j, j < cellsHigh.length →
      (cellsLow ++ resid :: cellsHigh).getD (cellsLow.length + 1 + j) default
        = cellsHigh.getD j default := by
    intro j hj
    rw [List.getD_append_right _ _ _ _ (by omega)]
    have he : cellsLow.length + 1 + j - cellsLow.length = j + 1 := by omega
    rw [he, List.getD_cons_succ]
  unfold splitImplReg at hres
  cases hc : cellsHigh.reverse with
  | nil =>
      rw [hc] at hres
      dsimp only at hres
      by_cases hLE : cellsLow.isEmpty = true
      · rw [if_pos hLE] at hres
        exact absurd hres (by simp)
      · rw [if_neg hLE] at hres
        have hcr : 1 ≤ cellsLow.length := by
          have hne2 : cellsLow ≠ [] := by
            intro hnil
            rw [hnil] at hLE
            exact hLE rfl
          have := List.length_pos.mpr hne2
          omega
        refine splitMonoGo_bestInv mm sumCand sCountCand
          (fun j => j + 1 < (cellsLow ++ resid :: cellsHigh).length ∧
            (((cellsLow ++ resid :: cellsHigh).getD (j + 1) default).tied = false
              ∨ j = cellsLow.length))
          cellsLow.reverse (cellsLow.length - 1) ⟨sumCand, sCountCand, resid, none⟩
          (by intro w j hj; exact absurd hj (by simp)) ?_ ?_ v k hres
        · intro _ htied
          dsimp only at htied
          have he : cellsLow.length - 1 + 1 = cellsLow.length := by omega
          refine ⟨by omega, ?_⟩
          rw [he, hWres]
          exact Or.inl htied
        · intro t ht1 htt
          rw [List.length_reverse] at ht1
          have hgt : cellsLow.reverse.getD t default
              = cellsLow.getD (cellsLow.length - 1 - t) default :=
            getD_reverse_at _ _ (by omega)
          rw [hgt] at htt
          have he : cellsLow.length - 1 - 1 - t + 1 = cellsLow.length - 1 - t := by omega
          refine ⟨by omega, Or.inl ?_⟩
          rw [he, hWlow _ (by omega)]
          exact htt
  | cons cEnd restH =>
      have hne : cellsHigh ≠ [] := by
        intro h
        rw [h] at hc
        simp at hc
      have hh1 : 1 ≤ cellsHigh.length := by
        have := List.length_pos.mpr hne
        omega
      have hrlen : restH.length = cellsHigh.length - 1 := by
        have := congrArg List.length hc
        rw [List.length_reverse, List.length_cons] at this
        omega
      have hrl := reverse_eq_last_cons cellsHigh hne
      rw [hc] at hrl
      have hEnd : cEnd = cellsHigh.getD (cellsHigh.length - 1) default :=
        (List.cons.injEq _ _ _ _ ▸ hrl).1
      have hRest : restH = (cellsHigh.take (cellsHigh.length - 1)).reverse :=
        (List.cons.injEq _ _ _ _ ▸ hrl).2
      have hnlen : (cellsLow ++ cellsHigh).length
          = cellsLow.length + cellsHigh.length := by
        rw [List.length_append]
      have hGoInv : ∀ w j, (splitMonoGo mm sumCand sCountCand restH
          ((cellsLow ++ cellsHigh).length - 1)
          ⟨sumCand, sCountCand, cEnd, none⟩).best = some (w, j) →
          j + 1 < (cellsLow ++ resid :: cellsHigh).length ∧
          (((cellsLow ++ resid :: cellsHigh).getD (j + 1) default).tied = false
            ∨ j = cellsLow.length) := by
        refine splitMonoGo_bestInv mm sumCand sCountCand
          (fun j => j + 1 < (cellsLow ++ resid :: cellsHigh).length ∧
            (((cellsLow ++ resid :: cellsHigh).getD (j + 1) default).tied = false
              ∨ j = cellsLow.length))
          restH ((cellsLow ++ cellsHigh).length - 1) ⟨sumCand, sCountCand, cEnd, none⟩
          (by intro w j hj; exact absurd hj (by simp)) ?_ ?_
        · intro _ htied
          dsimp only at htied
          have he : (cellsLow ++ cellsHigh).length - 1 + 1
              = cellsLow.length + 1 + (cellsHigh.length - 1) := by
            rw [hnlen]
            omega
          refine ⟨by rw [hWlen, hnlen]; omega, Or.inl ?_⟩
          rw [he, hWhigh _ (by omega), ← hEnd]
          exact htied
        · intro t ht1 htt
          rw [hrlen] at ht1
          have htk : (cellsHigh.take (cellsHigh.length - 1)).length
              = cellsHigh.length - 1 := by
            rw [List.length_take]
            omega
          have hgt : restH.getD t default
              = cellsHigh.getD (cellsHigh.length - 2 - t) default := by
            rw [hRest, getD_reverse_at _ _ (by rw [htk]; omega), htk]
            have he : cellsHigh.length - 1 - 1 - t = cellsHigh.length - 2 - t := by omega
            rw [he]
            exact getD_take_of_lt _ _ _ (by omega) (by omega)
          rw [hgt] at htt
          have he : (cellsLow ++ cellsHigh).length - 1 - 1 - t + 1
              = cellsLow.length + 1 + (cellsHigh.length - 2 - t) := by
            rw [hnlen]
            omega
          refine ⟨by rw [hWlen, hnlen]; omega, Or.inl ?_⟩
          rw [he, hWhigh _ (by omega)]
          exact htt
      rw [hc] at hres
      dsimp only at hres
      by_cases hLE : cellsLow.isEmpty = true
      · rw [if_pos hLE] at hres
        split at hres
        next =>
          refine argmaxRL_keep _ _ _ cellsLow.length
            ⟨by rw [hWlen]; omega, Or.inr rfl⟩ hGoInv v k hres
        next => exact hGoInv v k hres
      · rw [if_neg hLE] at hres
        have hcr : 1 ≤ cellsLow.length := by
          have hne2 : cellsLow ≠ [] := by
            intro hnil
            rw [hnil] at hLE
            exact hLE rfl
          have := List.length_pos.mpr hne2
          omega
        refine splitMonoGo_bestInv mm sumCand sCountCand
          (fun j => j + 1 < (cellsLow ++ resid :: cellsHigh).length ∧
            (((cellsLow ++ resid :: cellsHigh).getD (j + 1) default).tied = false
              ∨ j = cellsLow.length))
          cellsLow.reverse (cellsLow.length - 1) _ ?_ ?_ ?_ v k hres
        · intro w1 j hj
          dsimp only at hj
          split at hj
          next =>
            refine argmaxRL_keep _ _ _ cellsLow.length
              ⟨by rw [hWlen]; omega, Or.inr rfl⟩ hGoInv w1 j hj
          next => exact hGoInv w1 j hj
        · intro _ htied
          dsimp only at htied
          have he : cellsLow.length - 1 + 1 = cellsLow.length := by omega
          refine ⟨by rw [hWlen]; omega, ?_⟩
          rw [he, hWres]
          exact Or.inl htied
        · intro t ht1 htt
          rw [List.length_reverse] at ht1
          have hgt : cellsLow.reverse.getD t default
              = cellsLow.getD (cellsLow.length - 1 - t) default :=
            getD_reverse_at _ _ (by omega)
          rw [hgt] at htt
          have he : cellsLow.length - 1 - 1 - t + 1 = cellsLow.length - 1 - t := by omega
          refine ⟨by rw [hWlen]; omega, Or.inl ?_⟩
          rw [he, hWlow _ (by omega)]
          exact htt

/-- The cut recorded by the implicit classification scan lies at a
    boundary of the virtual sequence (the residual slot holding the
    untied dummy observation) whose right cell is untied, or is the
    residual boundary offered by splitResidual. -/
lemma splitImplCtg_tie (ctgSumNode : ℕ → ℚ) (ssInit : ℚ) (ctgAcc0 : ℕ → ℚ) (nCtg : ℕ)
    (sumCand : ℚ) (sCountCand : ℕ) (residSum : ℚ) (residSCount : ℕ)
    (ctgResid : ℕ → ℚ) (cellsLow cellsHigh : List ObsCtg) (v : ℚ) (k : ℕ)
    (hres : splitImplCtg ctgSumNode ssInit ctgAcc0 nCtg sumCand sCountCand residSum
      residSCount ctgResid cellsLow cellsHigh = some (v, k)) :
    k + 1 < (cellsLow ++ (⟨0, 0, 0, false⟩ : ObsCtg) :: cellsHigh).length ∧
    (((cellsLow ++ (⟨0, 0, 0, false⟩ : ObsCtg) :: cellsHigh).getD (k + 1) default).tied
        = false
      ∨ k = cellsLow.length) := by
  have hWlen : (cellsLow ++ (⟨0, 0, 0, false⟩ : ObsCtg) :: cellsHigh).length
      = cellsLow.length + cellsHigh.length + 1 := by
    rw [List.length_append, List.length_cons]
    omega
  have hWres : (cellsLow ++ (⟨0, 0, 0, false⟩ : ObsCtg) :: cellsHigh).getD
      cellsLow.length default = ⟨0, 0, 0, false⟩ := by
    rw [List.getD_append_right _ _ _ _ (le_refl _)]
    simp
  have hWlow : ∀ j, j < cellsLow.length →
      (cellsLow ++ (⟨0, 0, 0, false⟩ : ObsCtg) :: cellsHigh).getD j default
        = cellsLow.getD j default := by
    intro j hj
    exact List.getD_append _ _ _ _ hj
  have hWhigh : ∀ j, j < cellsHigh.length →
      (cellsLow ++ (⟨0, 0, 0, false⟩ : ObsCtg) :: cellsHigh).getD
        (cellsLow.length + 1 + j) default = cellsHigh.getD j default := by
    intro j hj
    rw [List.getD_append_right _ _ _ _ (by omega)]
    have he : cellsLow.length + 1 + j - cellsLow.length = j + 1 := by omega
    rw [he, List.getD_cons_succ]
  unfold splitImplCtg at hres
  cases hc : cellsHigh.reverse with
  | nil =>
      rw [hc] at hres
      dsimp only at hres
      by_cases hLE : cellsLow.isEmpty = true
      · rw [if_pos hLE] at hres
        exact absurd hres (by simp)
      · rw [if_neg hLE] at hres
        have hcr : 1 ≤ cellsLow.length := by
          have hne2 : cellsLow ≠ [] := by
            intro hnil
            rw [hnil] at hLE
            exact hLE rfl
          have := List.length_pos.mpr hne2
          omega
        refine splitRLCtgGo_bestInv ctgSumNode sumCand sCountCand
          (fun j => j + 1 < (cellsLow ++ (⟨0, 0, 0, false⟩ : ObsCtg) :: cellsHigh).length ∧
            (((cellsLow ++ (⟨0, 0, 0, false⟩ : ObsCtg) :: cellsHigh).getD (j + 1)
                default).tied = false
              ∨ j = cellsLow.length))
          cellsLow.reverse (cellsLow.length - 1) _
          (by intro w j hj; exact absurd hj (by simp)) ?_ ?_ v k hres
        · intro _ _
          have he : cellsLow.length - 1 + 1 = cellsLow.length := by omega
          refine ⟨by rw [hWlen]; omega, ?_⟩
          rw [he, hWres]
          exact Or.inl rfl
        · intro t ht1 htt
          rw [List.length_reverse] at ht1
          have hgt : cellsLow.reverse.getD t default
              = cellsLow.getD (cellsLow.length - 1 - t) default :=
            getD_reverse_at _ _ (by omega)
          rw [hgt] at htt
          have he : cellsLow.length - 1 - 1 - t + 1 = cellsLow.length - 1 - t := by omega
          refine ⟨by rw [hWlen]; omega, Or.inl ?_⟩
          rw [he, hWlow _ (by omega)]
          exact htt
  | cons cEnd restH =>
      have hne : cellsHigh ≠ [] := by
        intro h
        rw [h] at hc
        simp at hc
      have hh1 : 1 ≤ cellsHigh.length := by
        have := List.length_pos.mpr hne
        omega
      have hrlen : restH.length = cellsHigh.length - 1 := by
        have := congrArg List.length hc
        rw [List.length_reverse, List.length_cons] at this
        omega
      have hrl := reverse_eq_last_cons cellsHigh hne
      rw [hc] at hrl
      have hEnd : cEnd = cellsHigh.getD (cellsHigh.length - 1) default :=
        (List.cons.injEq _ _ _ _ ▸ hrl).1
      have hRest : restH = (cellsHigh.take (cellsHigh.length - 1)).reverse :=
        (List.cons.injEq _ _ _ _ ▸ hrl).2
      have hnlen : (cellsLow ++ cellsHigh).length
          = cellsLow.length + cellsHigh.length := by
        rw [List.length_append]
      have hGoInv : ∀ w j, (splitRLCtgGo ctgSumNode sumCand sCountCand restH
          ((cellsLow ++ cellsHigh).length - 1)
          ⟨sumCand, sCountCand, ssInit, 0, ctgAcc0, cEnd, none⟩).best = some (w, j) →
          j + 1 < (cellsLow ++ (⟨0, 0, 0, false⟩ : ObsCtg) :: cellsHigh).length ∧
          (((cellsLow ++ (⟨0, 0, 0, false⟩ : ObsCtg) :: cellsHigh).getD (j + 1)
              default).tied = false
            ∨ j = cellsLow.length) := by
        refine splitRLCtgGo_bestInv ctgSumNode sumCand sCountCand
          (fun j => j + 1 < (cellsLow ++ (⟨0, 0, 0, false⟩ : ObsCtg) :: cellsHigh).length ∧
            (((cellsLow ++ (⟨0, 0, 0, false⟩ : ObsCtg) :: cellsHigh).getD (j + 1)
                default).tied = false
              ∨ j = cellsLow.length))
          restH ((cellsLow ++ cellsHigh).length - 1)
          ⟨sumCand, sCountCand, ssInit, 0, ctgAcc0, cEnd, none⟩
          (by intro w j hj; exact absurd hj (by simp)) ?_ ?_
        · intro _ htied
          dsimp only at htied
          have he : (cellsLow ++ cellsHigh).length - 1 + 1
              = cellsLow.length + 1 + (cellsHigh.length - 1) := by
            rw [hnlen]
            omega
          refine ⟨by rw [hWlen, hnlen]; omega, Or.inl ?_⟩
          rw [he, hWhigh _ (by omega), ← hEnd]
          exact htied
        · intro t ht1 htt
          rw [hrlen] at ht1
          have htk : (cellsHigh.take (cellsHigh.length - 1)).length
              = cellsHigh.length - 1 := by
            rw [List.length_take]
            omega
          have hgt : restH.getD t default
              = cellsHigh.getD (cellsHigh.length - 2 - t) default := by
            rw [hRest, getD_reverse_at _ _ (by rw [htk]; omega), htk]
            have he : cellsHigh.length - 1 - 1 - t = cellsHigh.length - 2 - t := by omega
            rw [he]
            exact getD_take_of_lt _ _ _ (by omega) (by omega)
          rw [hgt] at htt
          have he : (cellsLow ++ cellsHigh).length - 1 - 1 - t + 1
              = cellsLow.length + 1 + (cellsHigh.length - 2 - t) := by
            rw [hnlen]
            omega
          refine ⟨by rw [hWlen, hnlen]; omega, Or.inl ?_⟩
          rw [he, hWhigh _ (by omega)]
          exact htt
      rw [hc] at hres
      dsimp only at hres
      by_cases hLE : cellsLow.isEmpty = true
      · rw [if_pos hLE] at hres
        refine argmaxRL_keep _ _ _ cellsLow.length
          ⟨by rw [hWlen]; omega, Or.inr rfl⟩ hGoInv v k hres
      · rw [if_neg hLE] at hres
        have hcr : 1 ≤ cellsLow.length := by
          have hne2 : cellsLow ≠ [] := by
            intro hnil
            rw [hnil] at hLE
            exact hLE rfl
          have := List.length_pos.mpr hne2
          omega
        refine splitRLCtgGo_bestInv ctgSumNode sumCand sCountCand
          (fun j => j + 1 < (cellsLow ++ (⟨0, 0, 0, false⟩ : ObsCtg) :: cellsHigh).length ∧
            (((cellsLow ++ (⟨0, 0, 0, false⟩ : ObsCtg) :: cellsHigh).getD (j + 1)
                default).tied = false
              ∨ j = cellsLow.length))
          cellsLow.reverse (cellsLow.length - 1) _ ?_ ?_ ?_ v k hres
        · intro w1 j hj
          dsimp only at hj
          exact argmaxRL_keep _ _ _ cellsLow.length
            ⟨by rw [hWlen]; omega, Or.inr rfl⟩ hGoInv w1 j hj
        · intro _ _
          have he : cellsLow.length - 1 + 1 = cellsLow.length := by omega
          refine ⟨by rw [hWlen]; omega, ?_⟩
          rw [he, hWres]
          exact Or.inl rfl
        · intro t ht1 htt
          rw [List.length_reverse] at ht1
          have hgt : cellsLow.reverse.getD t default
              = cellsLow.getD (cellsLow.length - 1 - t) default :=
            getD_reverse_at _ _ (by omega)
          rw [hgt] at htt
          have he : cellsLow.length - 1 - 1 - t + 1 = cellsLow.length - 1 - t := by omega
          refine ⟨by rw [hWlen]; omega, Or.inl ?_⟩
          rw [he, hWlow _ (by omega)]
          exact htt

/-- C3 (amended): no cut is placed between tied ranks at any explicitly
    scanned boundary, across the numeric splitting engines.  Regression:
    the splitpred scans record the adjacent ranks of the retained
    boundary and they differ (first conjunct SplitNum/SplitNumMono,
    third SplitNumDense/SplitNumDenseMono over the virtual sequence with
    the residual interposed); the cart scans offer a boundary only when
    its right cell is untied, so under the staging relation between the
    tied flag and rank equality the retained cut separates differing
    ranks (second conjunct splitRL, sixth splitMono), and the implicit
    cart scan may also retain the residual boundary, whose flanking
    ranks differ by construction of the residual cut (eighth conjunct).
    Classification: the recorded rank bounds always differ, for
    NumCtg/NumCtgGini (fourth), NumCtgDense given explicit ranks
    distinct from the dense rank (fifth), CutAccumCtgCart::splitRL
    (seventh) and the implicit classification scan (ninth).  The
    positional form of the claim fails at the dense-component
    evaluation of NumCtgDense: see the counterexample. -/
theorem cut_not_between_tied_ranks :
    (∀ (mm : ℤ) (sum : ℚ) (sCount : ℕ) (preBias : ℚ) (cells : List SampleRank) (nux : NuxLH),
      sCount = sCountTot cells →
      splitNum mm sum sCount preBias cells = some nux →
      nux.rankLH ≠ nux.rankRH ∧
      nux.rankLH = rankAt cells nux.cutPos ∧
      nux.rankRH = rankAt cells (nux.cutPos + 1)) ∧
    (∀ (sumCand : ℚ) (sCountCand : ℕ) (cells : List ObsReg) (ranks : ℕ → ℕ) (v : ℚ) (k : ℕ),
      (∀ j, j + 1 < cells.length →
        ((cells.getD (j + 1) default).tied = false ↔ ranks (j + 1) ≠ ranks j)) →
      splitRL sumCand sCountCand cells = some (v, k) →
      k + 1 < cells.length ∧ (cells.getD (k + 1) default).tied = false ∧
      ranks (k + 1) ≠ ranks k) ∧
    (∀ (mm : ℤ) (sum preBias : ℚ) (sCount rankDense implicit : ℕ)
        (cellsLow cellsHigh : List SampleRank) (nux : DNux),
      sCount = sCountTot (denseCells sum sCount rankDense cellsLow cellsHigh) →
      (∀ c ∈ cellsHigh, c.rank ≠ rankDense) →
      splitNumDense mm sum sCount preBias rankDense implicit cellsLow cellsHigh
        = some nux →
      nux.rankLH ≠ nux.rankRH ∧
      ∃ k, k + 1 < (denseCells sum sCount rankDense cellsLow cellsHigh).length ∧
        nux.rankLH = rankAt (denseCells sum sCount rankDense cellsLow cellsHigh) k ∧
        nux.rankRH = rankAt (denseCells sum sCount rankDense cellsLow cellsHigh) (k + 1) ∧
        rankAt (denseCells sum sCount rankDense cellsLow cellsHigh) k
          ≠ rankAt (denseCells sum sCount rankDense cellsLow cellsHigh) (k + 1)) ∧
    (∀ (stable : ℚ → ℚ → Bool) (ctgSumNode : ℕ → ℚ) (ssInit : ℚ) (ctgAcc0 : ℕ → ℚ)
        (sum : ℚ) (sCount : ℕ) (preBias : ℚ) (cells : List SampleRankCtg) (nux : DNux),
      numCtg stable ctgSumNode ssInit ctgAcc0 sum sCount preBias cells = some nux →
      nux.rankLH ≠ nux.rankRH) ∧
    (∀ (stable : ℚ → ℚ → Bool) (ctgSumNode : ℕ → ℚ) (ssInit : ℚ) (ctgAcc0 : ℕ → ℚ)
        (nCtg : ℕ) (sum : ℚ) (sCount : ℕ) (preBias : ℚ) (rankDense implicit : ℕ)
        (cells : List SampleRankCtg) (nux : DNux),
      (∀ c ∈ cells, c.rank ≠ rankDense) →
      numCtgDense stable ctgSumNode ssInit ctgAcc0 nCtg sum sCount preBias
        rankDense implicit cells = some nux →
      nux.rankLH ≠ nux.rankRH) ∧
    (∀ (mm : ℤ) (sumCand : ℚ) (sCountCand : ℕ) (cells : List ObsReg) (ranks : ℕ → ℕ)
        (v : ℚ) (k : ℕ),
      sCountCand = osCountTot cells →
      (∀ j, j + 1 < cells.length →
        ((cells.getD (j + 1) default).tied = false ↔ ranks (j + 1) ≠ ranks j)) →
      splitMono mm sumCand sCountCand cells = some (v, k) →
      k + 1 < cells.length ∧ (cells.getD (k + 1) default).tied = false ∧
      ranks (k + 1) ≠ ranks k) ∧
    (∀ (ctgSumNode : ℕ → ℚ) (ssInit : ℚ) (ctgAcc0 : ℕ → ℚ) (sumCand : ℚ)
        (sCountCand : ℕ) (cells : List ObsCtg) (ranks : ℕ → ℕ) (v : ℚ) (k : ℕ),
      (∀ j, j + 1 < cells.length →
        ((cells.getD (j + 1) default).tied = false ↔ ranks (j + 1) ≠ ranks j)) →
      splitRLCtg ctgSumNode ssInit ctgAcc0 sumCand sCountCand cells = some (v, k) →
      k + 1 < cells.length ∧ (cells.getD (k + 1) default).tied = false ∧
      ranks (k + 1) ≠ ranks k) ∧
    (∀ (mm : ℤ) (sumCand : ℚ) (sCountCand : ℕ) (resid : ObsReg)
        (cellsLow cellsHigh : List ObsReg) (ranks : ℕ → ℕ) (v : ℚ) (k : ℕ),
      (∀ j, j + 1 < (cellsLow ++ resid :: cellsHigh).length →
        (((cellsLow ++ resid :: cellsHigh).getD (j + 1) default).tied = false
          ↔ ranks (j + 1) ≠ ranks j)) →
      ranks (cellsLow.length + 1) ≠ ranks cellsLow.length →
      splitImplReg mm sumCand sCountCand resid cellsLow cellsHigh = some (v, k) →
      k + 1 < (cellsLow ++ resid :: cellsHigh).length ∧ ranks (k + 1) ≠ ranks k) ∧
    (∀ (ctgSumNode : ℕ → ℚ) (ssInit : ℚ) (ctgAcc0 : ℕ → ℚ) (nCtg : ℕ)
        (sumCand : ℚ) (sCountCand : ℕ) (residSum : ℚ) (residSCount : ℕ)
        (ctgResid : ℕ → ℚ) (cellsLow cellsHigh : List ObsCtg) (ranks : ℕ → ℕ)
        (v : ℚ) (k : ℕ),
      (∀ j, j + 1 < (cellsLow ++ (⟨0, 0, 0, false⟩ : ObsCtg) :: cellsHigh).length →
        (((cellsLow ++ (⟨0, 0, 0, false⟩ : ObsCtg) :: cellsHigh).getD (j + 1)
            default).tied = false
          ↔ ranks (j + 1) ≠ ranks j)) →
      ranks (cellsLow.length + 1) ≠ ranks cellsLow.length →
      splitImplCtg ctgSumNode ssInit ctgAcc0 nCtg sumCand sCountCand residSum
        residSCount ctgResid cellsLow cellsHigh = some (v, k) →
      k + 1 < (cellsLow ++ (⟨0, 0, 0, false⟩ : ObsCtg) :: cellsHigh).length ∧
      ranks (k + 1) ≠ ranks k) := by
  refine ⟨?_, ?_, ?_, ?_, ?_, ?_, ?_, ?_, ?_⟩
  · intro mm sum sCount preBias cells nux hcnt hres
    obtain ⟨hs, _⟩ := splitNum_spec mm sum sCount preBias cells hcnt
    obtain ⟨k, hk1, hacc, _, _, hidx, _, hLH, hRH, _⟩ := hs nux hres
    have hcut : nux.cutPos = k := by
      unfold NuxLH.cutPos
      omega
    refine ⟨?_, ?_, ?_⟩
    · rw [hLH, hRH]
      exact hacc.1
    · rw [hcut, hLH]
    · rw [hcut, hRH]
  · intro sumCand sCountCand cells ranks v k htied hres
    obtain ⟨hk1, huntied⟩ := splitRL_tied sumCand sCountCand cells v k hres
    exact ⟨hk1, huntied, (htied k hk1).mp huntied⟩
  · intro mm sum preBias sCount rankDense implicit cellsLow cellsHigh nux hcnt hhigh hres
    obtain ⟨k, hk1, hadm, _, _, _, hLH, hRH, _⟩ :=
      splitNumDense_spec mm sum sCount preBias rankDense implicit cellsLow cellsHigh
        hcnt hhigh nux hres
    refine ⟨?_, k, hk1, hLH, hRH, hadm⟩
    rw [hLH, hRH]
    exact hadm
  · intro stable ctgSumNode ssInit ctgAcc0 sum sCount preBias cells nux hres
    exact numCtg_tie stable ctgSumNode ssInit ctgAcc0 sum sCount preBias cells nux hres
  · intro stable ctgSumNode ssInit ctgAcc0 nCtg sum sCount preBias rankDense implicit
      cells nux hrk hres
    exact numCtgDense_tie stable ctgSumNode ssInit ctgAcc0 nCtg sum sCount preBias
      rankDense implicit cells nux hrk hres
  · intro mm sumCand sCountCand cells ranks v k hcnt htied hres
    obtain ⟨hk1, htf, _⟩ := splitMono_gate mm sumCand sCountCand cells hcnt v k hres
    exact ⟨hk1, htf, (htied k hk1).mp htf⟩
  · intro ctgSumNode ssInit ctgAcc0 sumCand sCountCand cells ranks v k htied hres
    obtain ⟨hk1, htf⟩ := splitRLCtg_tie ctgSumNode ssInit ctgAcc0 sumCand sCountCand
      cells v k hres
    exact ⟨hk1, htf, (htied k hk1).mp htf⟩
  · intro mm sumCand sCountCand resid cellsLow cellsHigh ranks v k htied hrk hres
    obtain ⟨hk1, hd⟩ := splitImplReg_tie mm sumCand sCountCand resid cellsLow cellsHigh
      v k hres
    refine ⟨hk1, ?_⟩
    cases hd with
    | inl htf => exact (htied k hk1).mp htf
    | inr hcr =>
        rw [hcr]
        exact hrk
  · intro ctgSumNode ssInit ctgAcc0 nCtg sumCand sCountCand residSum residSCount
      ctgResid cellsLow cellsHigh ranks v k htied hrk hres
    obtain ⟨hk1, hd⟩ := splitImplCtg_tie ctgSumNode ssInit ctgAcc0 nCtg sumCand sCountCand
      residSum residSCount ctgResid cellsLow cellsHigh v k hres
    refine ⟨hk1, ?_⟩
    cases hd with
    | inl htf => exact (htied k hk1).mp htf
    | inr hcr =>
        rw [hcr]
        exact hrk

/-- Classification candidate with an implicit rank between the first
    cell's rank and the tied ranks of the top two cells. -/
def ncCexCells : List SampleRankCtg := [⟨10, 1, 1, 0⟩, ⟨1, 5, 1, 0⟩, ⟨1, 5, 1, 0⟩]

/-- C3 counterexample: SplitCoord::NumCtgDense runs its first
    classification pass only down to denseCut + 1 (idxFinal,
    splitpred.cc line 1076) where the regression analogue continues to
    denseCut, so the dense-component evaluation (lines 1085 to 1096)
    scores the partition separating explicit cells denseCut and
    denseCut + 1 with no rank gate.  On this candidate (explicit ranks
    1, 5, 5 with dense rank 3 between them) that evaluation wins with
    positive information: the written split has lhIdxCount - lhDense = 2
    explicit cells on the left, placing the cut between explicit
    positions 1 and 2, whose ranks are both 5 - a cut between tied
    ranks.  The recorded rank bounds, 3 and 5, nevertheless differ,
    which is the amended and provable form of the claim. -/
theorem cut_not_between_tied_ranks_claim_false :
    numCtgDense (fun _ _ => true) (fun _ => 13) 169 (fun _ => 0) 1 13 4 0 3 1 ncCexCells
      = some ⟨3, 3, 13, 3, 5, 1⟩ ∧
    0 < (⟨3, 3, 13, 3, 5, 1⟩ : DNux).info ∧
    (⟨3, 3, 13, 3, 5, 1⟩ : DNux).lhIdxCount - (⟨3, 3, 13, 3, 5, 1⟩ : DNux).lhDense = 2 ∧
    rankCtgAt ncCexCells (2 - 1) = rankCtgAt ncCexCells 2 := by
  refine ⟨?_, by norm_num, by norm_num, ?_⟩
  · norm_num [numCtgDense, numCtgDenseFin, numCtgGiniGo, denseCutOf, denseCutGo,
      applyResiduals, rankCtgAt, ncCexCells, Function.update, List.range_succ]
  · norm_num [rankCtgAt, ncCexCells]

/-- Concrete classification splitpred candidate used to instantiate C3. -/
def ctgCellsW : List SampleRankCtg := [⟨1, 0, 1, 0⟩, ⟨10, 1, 1, 0⟩]

/-- Concrete monotone cart candidate used to instantiate C3. -/
def obsMonoW : List ObsReg := [⟨2, 1, false⟩, ⟨10, 1, false⟩]

/-- Concrete classification cart candidate used to instantiate C3. -/
def obsCtgW : List ObsCtg := [⟨1, 0, 1, false⟩, ⟨10, 0, 1, false⟩]

/-- Cells below the residual of the implicit regression candidate. -/
def implRegLowW : List ObsReg := [⟨1, 1, false⟩]

/-- Cells above the residual of the implicit regression candidate. -/
def implRegHighW : List ObsReg := [⟨10, 1, false⟩]

/-- Residual pseudo-observation of the implicit regression candidate. -/
def implResidW : ObsReg := ⟨5, 1, false⟩

/-- Cells below the residual of the implicit classification candidate. -/
def implCtgLowW : List ObsCtg := [⟨1, 0, 1, false⟩]

/-- Cells above the residual of the implicit classification candidate. -/
def implCtgHighW : List ObsCtg := [⟨10, 0, 1, false⟩]

/-- Witness for the amended C3 theorem at concrete candidates of the
    nine numeric splitting paths. -/
theorem cut_not_between_tied_ranks_witness :
    ((2 = sCountTot cellsW3 ∧ splitNum 0 11 2 0 cellsW3 = some ⟨1, 1, 101, 0, 1⟩) ∧
      ((⟨1, 1, 101, 0, 1⟩ : NuxLH).rankLH ≠ (⟨1, 1, 101, 0, 1⟩ : NuxLH).rankRH ∧
        (⟨1, 1, 101, 0, 1⟩ : NuxLH).rankLH = rankAt cellsW3 (⟨1, 1, 101, 0, 1⟩ : NuxLH).cutPos ∧
        (⟨1, 1, 101, 0, 1⟩ : NuxLH).rankRH
          = rankAt cellsW3 ((⟨1, 1, 101, 0, 1⟩ : NuxLH).cutPos + 1))) ∧
    (((∀ j, j + 1 < obsW3.length →
          ((obsW3.getD (j + 1) default).tied = false ↔ j + 1 ≠ j)) ∧
        splitRL 11 2 obsW3 = some (101, 0)) ∧
      (0 + 1 < obsW3.length ∧ (obsW3.getD (0 + 1) default).tied = false ∧ 0 + 1 ≠ 0)) ∧
    ((3 = sCountTot dnCexCells ∧ (∀ c ∈ dnCexHigh, c.rank ≠ 0) ∧
        splitNumDense 1 10 3 0 0 1 [] dnCexHigh = some ⟨1, 1, 100, 0, 1, 1⟩) ∧
      ((⟨1, 1, 100, 0, 1, 1⟩ : DNux).rankLH ≠ (⟨1, 1, 100, 0, 1, 1⟩ : DNux).rankRH ∧
        ∃ k, k + 1 < dnCexCells.length ∧
          (⟨1, 1, 100, 0, 1, 1⟩ : DNux).rankLH = rankAt dnCexCells k ∧
          (⟨1, 1, 100, 0, 1, 1⟩ : DNux).rankRH = rankAt dnCexCells (k + 1) ∧
          rankAt dnCexCells k ≠ rankAt dnCexCells (k + 1))) ∧
    ((numCtg (fun _ _ => true) (fun _ => 11) 121 (fun _ => 0) 11 2 0 ctgCellsW
        = some ⟨1, 1, 11, 0, 1, 0⟩) ∧
      (⟨1, 1, 11, 0, 1, 0⟩ : DNux).rankLH ≠ (⟨1, 1, 11, 0, 1, 0⟩ : DNux).rankRH) ∧
    (((∀ c ∈ ncCexCells, c.rank ≠ 3) ∧
        numCtgDense (fun _ _ => true) (fun _ => 13) 169 (fun _ => 0) 1 13 4 0 3 1 ncCexCells
          = some ⟨3, 3, 13, 3, 5, 1⟩) ∧
      (⟨3, 3, 13, 3, 5, 1⟩ : DNux).rankLH ≠ (⟨3, 3, 13, 3, 5, 1⟩ : DNux).rankRH) ∧
    ((2 = osCountTot obsMonoW ∧
        (∀ j, j + 1 < obsMonoW.length →
          ((obsMonoW.getD (j + 1) default).tied = false ↔ j + 1 ≠ j)) ∧
        splitMono 1 12 2 obsMonoW = some (104, 0)) ∧
      (0 + 1 < obsMonoW.length ∧ (obsMonoW.getD (0 + 1) default).tied = false ∧
        0 + 1 ≠ 0)) ∧
    (((∀ j, j + 1 < obsCtgW.length →
          ((obsCtgW.getD (j + 1) default).tied = false ↔ j + 1 ≠ j)) ∧
        splitRLCtg (fun _ => 11) 121 (fun _ => 0) 11 2 obsCtgW = some (11, 0)) ∧
      (0 + 1 < obsCtgW.length ∧ (obsCtgW.getD (0 + 1) default).tied = false ∧
        0 + 1 ≠ 0)) ∧
    (((∀ j, j + 1 < (implRegLowW ++ implResidW :: implRegHighW).length →
          (((implRegLowW ++ implResidW :: implRegHighW).getD (j + 1) default).tied = false
            ↔ j + 1 ≠ j)) ∧
        (implRegLowW.length + 1 ≠ implRegLowW.length) ∧
        splitImplReg 0 16 3 implResidW implRegLowW implRegHighW = some (118, 1)) ∧
      (1 + 1 < (implRegLowW ++ implResidW :: implRegHighW).length ∧ 1 + 1 ≠ 1)) ∧
    (((∀ j, j + 1 < (implCtgLowW ++ (⟨0, 0, 0, false⟩ : ObsCtg) :: implCtgHighW).length →
          (((implCtgLowW ++ (⟨0, 0, 0, false⟩ : ObsCtg) :: implCtgHighW).getD (j + 1)
              default).tied = false
            ↔ j + 1 ≠ j)) ∧
        (implCtgLowW.length + 1 ≠ implCtgLowW.length) ∧
        splitImplCtg (fun _ => 16) 256 (fun _ => 0) 1 16 3 5 1 (fun _ => 5)
          implCtgLowW implCtgHighW = some (16, 1)) ∧
      (1 + 1 < (implCtgLowW ++ (⟨0, 0, 0, false⟩ : ObsCtg) :: implCtgHighW).length ∧
        1 + 1 ≠ 1)) := by
  have h1 : 2 = sCountTot cellsW3 := by decide
  have h2 : splitNum 0 11 2 0 cellsW3 = some ⟨1, 1, 101, 0, 1⟩ := by
    norm_num [splitNum, cellsW3, splitNumGo, splitNumStep, monoOK, rankAt]
  have h3 : ∀ j, j + 1 < obsW3.length →
      ((obsW3.getD (j + 1) default).tied = false ↔ j + 1 ≠ j) := by
    intro j hj
    have hj0 : j = 0 := by
      simp only [obsW3, List.length_cons, List.length_nil] at hj
      omega
    subst hj0
    simp [obsW3]
  have h4 : splitRL 11 2 obsW3 = some (101, 0) := by
    norm_num [splitRL, obsW3, splitRLGo, argmaxRL, infoVar]
  have h5 : 3 = sCountTot dnCexCells := by
    norm_num [dnCexCells, dnCexHigh, denseCells, sCountTot, ySumTot]
  have h6 : ∀ c ∈ dnCexHigh, c.rank ≠ 0 := by decide
  have h7 : splitNumDense 1 10 3 0 0 1 [] dnCexHigh = some ⟨1, 1, 100, 0, 1, 1⟩ := by
    norm_num [splitNumDense, dnCexHigh, splitNumDenseGo, splitNumDenseStep, denseEval,
      monoOK, ySumTot, sCountTot]
  have h8 : numCtg (fun _ _ => true) (fun _ => 11) 121 (fun _ => 0) 11 2 0 ctgCellsW
      = some ⟨1, 1, 11, 0, 1, 0⟩ := by
    norm_num [numCtg, ctgCellsW, numCtgGiniGo, rankCtgAt, Function.update]
  have h9 : ∀ c ∈ ncCexCells, c.rank ≠ 3 := by decide
  have h10 : numCtgDense (fun _ _ => true) (fun _ => 13) 169 (fun _ => 0) 1 13 4 0 3 1
      ncCexCells = some ⟨3, 3, 13, 3, 5, 1⟩ := by
    norm_num [numCtgDense, numCtgDenseFin, numCtgGiniGo, denseCutOf, denseCutGo,
      applyResiduals, rankCtgAt, ncCexCells, Function.update, List.range_succ]
  have h11 : 2 = osCountTot obsMonoW := by decide
  have h12 : ∀ j, j + 1 < obsMonoW.length →
      ((obsMonoW.getD (j + 1) default).tied = false ↔ j + 1 ≠ j) := by
    intro j hj
    have hj0 : j = 0 := by
      simp only [obsMonoW, List.length_cons, List.length_nil] at hj
      omega
    subst hj0
    simp [obsMonoW]
  have h13 : splitMono 1 12 2 obsMonoW = some (104, 0) := by
    norm_num [splitMono, obsMonoW, splitMonoGo, argmaxRL, infoVar, monoOK]
  have h14 : ∀ j, j + 1 < obsCtgW.length →
      ((obsCtgW.getD (j + 1) default).tied = false ↔ j + 1 ≠ j) := by
    intro j hj
    have hj0 : j = 0 := by
      simp only [obsCtgW, List.length_cons, List.length_nil] at hj
      omega
    subst hj0
    simp [obsCtgW]
  have h15 : splitRLCtg (fun _ => 11) 121 (fun _ => 0) 11 2 obsCtgW = some (11, 0) := by
    norm_num [splitRLCtg, obsCtgW, splitRLCtgGo, argmaxRL, infoGini, Function.update]
  have h16 : ∀ j, j + 1 < (implRegLowW ++ implResidW :: implRegHighW).length →
      (((implRegLowW ++ implResidW :: implRegHighW).getD (j + 1) default).tied = false
        ↔ j + 1 ≠ j) := by
    intro j hj
    have hj0 : j = 0 ∨ j = 1 := by
      simp only [implRegLowW, implResidW, implRegHighW, List.length_append,
        List.length_cons, List.length_nil] at hj
      omega
    rcases hj0 with rfl | rfl
    · simp [implRegLowW, implResidW, implRegHighW]
    · simp [implRegLowW, implResidW, implRegHighW]
  have h17 : implRegLowW.length + 1 ≠ implRegLowW.length := by decide
  have h18 : splitImplReg 0 16 3 implResidW implRegLowW implRegHighW = some (118, 1) := by
    norm_num [splitImplReg, implRegLowW, implRegHighW, implResidW, splitMonoGo,
      argmaxRL, infoVar, monoOK]
  have h19 : ∀ j, j + 1 < (implCtgLowW ++ (⟨0, 0, 0, false⟩ : ObsCtg)
        :: implCtgHighW).length →
      (((implCtgLowW ++ (⟨0, 0, 0, false⟩ : ObsCtg) :: implCtgHighW).getD (j + 1)
          default).tied = false
        ↔ j + 1 ≠ j) := by
    intro j hj
    have hj0 : j = 0 ∨ j = 1 := by
      simp only [implCtgLowW, implCtgHighW, List.length_append,
        List.length_cons, List.length_nil] at hj
      omega
    rcases hj0 with rfl | rfl
    · simp [implCtgLowW, implCtgHighW]
    · simp [implCtgLowW, implCtgHighW]
  have h20 : implCtgLowW.length + 1 ≠ implCtgLowW.length := by decide
  have h21 : splitImplCtg (fun _ => 16) 256 (fun _ => 0) 1 16 3 5 1 (fun _ => 5)
      implCtgLowW implCtgHighW = some (16, 1) := by
    norm_num [splitImplCtg, implCtgLowW, implCtgHighW, splitRLCtgGo, applyResiduals,
      argmaxRL, infoGini, Function.update, List.range_succ]
  refine ⟨⟨⟨h1, h2⟩, cut_not_between_tied_ranks.1 0 11 2 0 cellsW3 ⟨1, 1, 101, 0, 1⟩ h1 h2⟩,
    ⟨⟨h3, h4⟩, cut_not_between_tied_ranks.2.1 11 2 obsW3 (fun j => j) 101 0 h3 h4⟩,
    ⟨⟨h5, h6, h7⟩, cut_not_between_tied_ranks.2.2.1 1 10 0 3 0 1 [] dnCexHigh
      ⟨1, 1, 100, 0, 1, 1⟩ h5 h6 h7⟩,
    ⟨h8, cut_not_between_tied_ranks.2.2.2.1 (fun _ _ => true) (fun _ => 11) 121
      (fun _ => 0) 11 2 0 ctgCellsW ⟨1, 1, 11, 0, 1, 0⟩ h8⟩,
    ⟨⟨h9, h10⟩, cut_not_between_tied_ranks.2.2.2.2.1 (fun _ _ => true) (fun _ => 13) 169
      (fun _ => 0) 1 13 4 0 3 1 ncCexCells ⟨3, 3, 13, 3, 5, 1⟩ h9 h10⟩,
    ⟨⟨h11, h12, h13⟩, cut_not_between_tied_ranks.2.2.2.2.2.1 1 12 2 obsMonoW
      (fun j => j) 104 0 h11 h12 h13⟩,
    ⟨⟨h14, h15⟩, cut_not_between_tied_ranks.2.2.2.2.2.2.1 (fun _ => 11) 121 (fun _ => 0)
      11 2 obsCtgW (fun j => j) 11 0 h14 h15⟩,
    ⟨⟨h16, h17, h18⟩, cut_not_between_tied_ranks.2.2.2.2.2.2.2.1 0 16 3 implResidW
      implRegLowW implRegHighW (fun j => j) 118 1 h16 h17 h18⟩,
    ⟨⟨h19, h20, h21⟩, cut_not_between_tied_ranks.2.2.2.2.2.2.2.2 (fun _ => 16) 256
      (fun _ => 0) 1 16 3 5 1 (fun _ => 5) implCtgLowW implCtgHighW (fun j => j)
      16 1 h19 h20 h21⟩⟩


/-- RowRank::NumVal (rowrank.h lines 121 to 123): representative-value
    lookup within the per-predictor jagged numVal array. -/
def NumVal (numOffset : ℕ → ℕ) (numVal : ℕ → ℚ) (predIdx rk : ℕ) : ℚ :=
  numVal (numOffset predIdx + rk)

/-- RowRank::QuantRank (rowrank.h lines 240 to 246): synthesizes the
    fractional rank rankLow + splitQuant[predIdx] * (rankHigh - rankLow)
    (the rank difference being computed in unsigned arithmetic, modelled
    by truncated subtraction) and interpolates between the
    representative values at its floor and ceiling; the floor and
    ceiling are stored into unsigned ints, modelled by Int.toNat. -/
def QuantRank (numOffset : ℕ → ℕ) (numVal : ℕ → ℚ) (predIdx : ℕ)
    (rankLow rankHigh : ℕ) (splitQuant : ℕ → ℚ) : ℚ :=
  let rankNum : ℚ := (rankLow : ℚ) + splitQuant predIdx * ((rankHigh - rankLow : ℕ) : ℚ)
  let rankFloor : ℕ := (Int.floor rankNum).toNat
  let rankCeil : ℕ := (Int.ceil rankNum).toNat
  NumVal numOffset numVal predIdx rankFloor
    + (rankNum - (rankFloor : ℚ))
      * (NumVal numOffset numVal predIdx rankCeil
          - NumVal numOffset numVal predIdx rankFloor)

/-- The cut-value formula as the spec words it:
    q = rankLow + splitQuant[p] * (rankHigh - rankLow) over the
    rationals, and the value numVal[floor q] +
    (q - floor q) * (numVal[ceil q] - numVal[floor q]). -/
def specCutValue (numOffset : ℕ → ℕ) (numVal : ℕ → ℚ) (predIdx : ℕ)
    (rankLow rankHigh : ℕ) (splitQuant : ℕ → ℚ) : ℚ :=
  let q : ℚ := (rankLow : ℚ) + splitQuant predIdx * ((rankHigh : ℚ) - (rankLow : ℚ))
  NumVal numOffset numVal predIdx (Int.floor q).toNat
    + (q - ((Int.floor q : ℤ) : ℚ))
      * (NumVal numOffset numVal predIdx (Int.ceil q).toNat
          - NumVal numOffset numVal predIdx (Int.floor q).toNat)

/-- C2: for a nonnegative per-predictor quantile and ordered rank
    bounds, the emitted cut value of RowRank::QuantRank equals the
    spec's interpolation formula; in particular with splitQuant = 1/2
    and adjacent representative values 3 and 4 the cut value is 3.5. -/
theorem QuantRank_matches_spec :
    (∀ (numOffset : ℕ → ℕ) (numVal : ℕ → ℚ) (predIdx rankLow rankHigh : ℕ)
        (splitQuant : ℕ → ℚ), 0 ≤ splitQuant predIdx → rankLow ≤ rankHigh →
      QuantRank numOffset numVal predIdx rankLow rankHigh splitQuant
        = specCutValue numOffset numVal predIdx rankLow rankHigh splitQuant) ∧
    QuantRank (fun _ => 0) (fun r => (r : ℚ) + 1) 0 2 3 (fun _ => 1 / 2) = 7 / 2 := by
  constructor
  · intro numOffset numVal predIdx rankLow rankHigh splitQuant hq hr
    unfold QuantRank specCutValue
    have hsub : ((rankHigh - rankLow : ℕ) : ℚ) = (rankHigh : ℚ) - (rankLow : ℚ) :=
      Nat.cast_sub hr
    rw [hsub]
    have hle : (rankLow : ℚ) ≤ (rankHigh : ℚ) := Nat.cast_le.mpr hr
    have hq0 : 0 ≤ (rankLow : ℚ) + splitQuant predIdx * ((rankHigh : ℚ) - (rankLow : ℚ)) :=
      add_nonneg (Nat.cast_nonneg rankLow) (mul_nonneg hq (sub_nonneg.mpr hle))
    have hfl : (0 : ℤ) ≤ Int.floor ((rankLow : ℚ)
        + splitQuant predIdx * ((rankHigh : ℚ) - (rankLow : ℚ))) :=
      Int.floor_nonneg.mpr hq0
    have hcast : (((Int.floor ((rankLow : ℚ)
          + splitQuant predIdx * ((rankHigh : ℚ) - (rankLow : ℚ)))).toNat : ℕ) : ℚ)
        = ((Int.floor ((rankLow : ℚ)
            + splitQuant predIdx * ((rankHigh : ℚ) - (rankLow : ℚ))) : ℤ) : ℚ) := by
      exact_mod_cast congrArg (fun z : ℤ => (z : ℚ)) (Int.toNat_of_nonneg hfl)
    dsimp only
    rw [hcast]
  · unfold QuantRank
    have h0 : ((2 : ℕ) : ℚ) + (1 / 2) * ((3 - 2 : ℕ) : ℚ) = 5 / 2 := by norm_num
    have h1 : Int.floor (((2 : ℕ) : ℚ) + (1 / 2) * ((3 - 2 : ℕ) : ℚ)) = 2 := by
      rw [h0]; norm_num
    have h2 : Int.ceil (((2 : ℕ) : ℚ) + (1 / 2) * ((3 - 2 : ℕ) : ℚ)) = 3 := by
      rw [h0, Int.ceil_eq_iff] <;> norm_num
    dsimp only
    rw [h1, h2]
    have h3 : Int.toNat 2 = 2 := rfl
    have h4 : Int.toNat 3 = 3 := rfl
    rw [h3, h4]
    norm_num [NumVal]

/-- Witness for C2, applying the general interpolation equation at the
    concrete inputs of the adjacent-values scenario. -/
theorem QuantRank_matches_spec_witness :
    ((0 : ℚ) ≤ (1 / 2 : ℚ) ∧ (2 : ℕ) ≤ 3) ∧
    QuantRank (fun _ => 0) (fun r => (r : ℚ) + 1) 0 2 3 (fun _ => 1 / 2)
      = specCutValue (fun _ => 0) (fun r => (r : ℚ) + 1) 0 2 3 (fun _ => 1 / 2) :=
  ⟨⟨by norm_num, by norm_num⟩,
    QuantRank_matches_spec.1 (fun _ => 0) (fun r => (r : ℚ) + 1) 0 2 3 (fun _ => 1 / 2)
      (by norm_num) (by norm_num)⟩

/-- One observation cell of the generic split accumulator (split
    engine): response sum, sample count and response category. -/
structure Obs where
  ySum : ℚ
  sCount : ℕ
  ctg : ℕ
deriving Repr, DecidableEq, Inhabited

/-- Response sum of the cells in index range [start, start + len). -/
def ySumRange (obsCell : ℕ → Obs) (start len : ℕ) : ℚ :=
  ((List.range' start len).map (fun i => (obsCell i).ySum)).sum

/-- Sample count of the cells in index range [start, start + len). -/
def sCountRange (obsCell : ℕ → Obs) (start len : ℕ) : ℕ :=
  ((List.range' start len).map (fun i => (obsCell i).sCount)).sum

/-- Sum of squared responses of the cells in [start, start + len). -/
def ssRange (obsCell : ℕ → Obs) (start len : ℕ) : ℚ :=
  ((List.range' start len).map (fun i => (obsCell i).ySum * (obsCell i).ySum)).sum

/-- Per-category response sum of the cells in [start, start + len). -/
def ctgSumRange (obsCell : ℕ → Obs) (start len c : ℕ) : ℚ :=
  ((List.range' start len).map
    (fun i => if (obsCell i).ctg = c then (obsCell i).ySum else 0)).sum

/-- Accum::filterMissing (accum.cc lines 35 to 47): walks the trailing
    missing-value cells [obsEnd, obsEnd + nMissing) and subtracts their
    response sums and sample counts from the candidate totals. -/
def filterMissing (obsCell : ℕ → Obs) (obsEnd nMissing : ℕ)
    (sumCand : ℚ) (sCountCand : ℕ) : ℚ × ℕ :=
  (List.range' obsEnd nMissing).foldl
    (fun sc obsIdx => (sc.1 - (obsCell obsIdx).ySum, sc.2 - (obsCell obsIdx).sCount))
    (sumCand, sCountCand)

/-- The fields of the Accum constructor (accum.cc lines 21 to 32) that
    the claim concerns: the scan bound obsEnd is the candidate's bound
    reduced by the missing count, and the totals are filtered over the
    trailing missing block. -/
def accumInit (obsCell : ℕ → Obs) (candObsEnd nMissing : ℕ)
    (sumCand : ℚ) (sCountCand : ℕ) : ℕ × ℚ × ℕ :=
  let obsEnd := candObsEnd - nMissing
  let sc := filterMissing obsCell obsEnd nMissing sumCand sCountCand
  (obsEnd, sc.1, sc.2)

/-- Accum::filterMissingCtg (accum.cc lines 50 to 60): walks the
    trailing missing-value cells and subtracts each cell's squared
    response from the sum of squares and its response from the
    per-category sum of its category; the per-category vector is
    modelled as a total map. -/
def filterMissingCtg (obsCell : ℕ → Obs) (obsEnd nMissing : ℕ)
    (ssL : ℚ) (ctgSum : ℕ → ℚ) : ℚ × (ℕ → ℚ) :=
  (List.range' obsEnd nMissing).foldl
    (fun st obsIdx =>
      (st.1 - (obsCell obsIdx).ySum * (obsCell obsIdx).ySum,
       Function.update st.2 (obsCell obsIdx).ctg
         (st.2 (obsCell obsIdx).ctg - (obsCell obsIdx).ySum)))
    (ssL, ctgSum)

lemma filterMissing_closed (obsCell : ℕ → Obs) :
    ∀ (nMissing obsEnd : ℕ) (sumCand : ℚ) (sCountCand : ℕ),
      filterMissing obsCell obsEnd nMissing sumCand sCountCand
        = (sumCand - ySumRange obsCell obsEnd nMissing,
           sCountCand - sCountRange obsCell obsEnd nMissing) := by
  intro nMissing
  induction nMissing with
  | zero =>
      intro obsEnd sumCand sCountCand
      simp [filterMissing, ySumRange, sCountRange]
  | succ n ih =>
      intro obsEnd sumCand sCountCand
      unfold filterMissing at ih ⊢
      rw [List.range'_succ]
      rw [List.foldl_cons]
      rw [ih (obsEnd + 1), Prod.mk.injEq]
      constructor
      · show sumCand - (obsCell obsEnd).ySum - ySumRange obsCell (obsEnd + 1) n
          = sumCand - ySumRange obsCell obsEnd (n + 1)
        unfold ySumRange
        rw [List.range'_succ]
        simp
        ring
      · show sCountCand - (obsCell obsEnd).sCount - sCountRange obsCell (obsEnd + 1) n
          = sCountCand - sCountRange obsCell obsEnd (n + 1)
        unfold sCountRange
        rw [List.range'_succ]
        simp
        omega

lemma filterMissingCtg_closed (obsCell : ℕ → Obs) :
    ∀ (nMissing obsEnd : ℕ) (ssL : ℚ) (ctgSum : ℕ → ℚ),
      filterMissingCtg obsCell obsEnd nMissing ssL ctgSum
        = (ssL - ssRange obsCell obsEnd nMissing,
           fun c => ctgSum c - ctgSumRange obsCell obsEnd nMissing c) := by
  intro nMissing
  induction nMissing with
  | zero =>
      intro obsEnd ssL ctgSum
      simp [filterMissingCtg, ssRange, ctgSumRange]
  | succ n ih =>
      intro obsEnd ssL ctgSum
      unfold filterMissingCtg at ih ⊢
      rw [List.range'_succ, List.foldl_cons, ih (obsEnd + 1), Prod.mk.injEq]
      constructor
      · show ssL - (obsCell obsEnd).ySum * (obsCell obsEnd).ySum
            - ssRange obsCell (obsEnd + 1) n
          = ssL - ssRange obsCell obsEnd (n + 1)
        unfold ssRange
        rw [List.range'_succ]
        simp
        ring
      · funext c
        show Function.update ctgSum (obsCell obsEnd).ctg
              (ctgSum (obsCell obsEnd).ctg - (obsCell obsEnd).ySum) c
            - ctgSumRange obsCell (obsEnd + 1) n c
          = ctgSum c - ctgSumRange obsCell obsEnd (n + 1) c
        unfold ctgSumRange
        rw [List.range'_succ]
        simp only [List.map_cons, List.sum_cons]
        by_cases hc : (obsCell obsEnd).ctg = c
        · rw [← hc, Function.update_same, if_pos rfl]
          ring
        · rw [Function.update_noteq (Ne.symm hc) _ ctgSum, if_neg hc]
          ring

lemma range'_split (s m n : ℕ) :
    List.range' s (m + n) = List.range' s m ++ List.range' (s + m) n := by
  have h := List.range'_append s m n 1
  simp only [one_mul] at h
  rw [Nat.add_comm m n]
  exact h.symm

lemma ySumRange_add (obsCell : ℕ → Obs) (s m n : ℕ) :
    ySumRange obsCell s (m + n) = ySumRange obsCell s m + ySumRange obsCell (s + m) n := by
  unfold ySumRange
  rw [range'_split, List.map_append, List.sum_append]

lemma sCountRange_add (obsCell : ℕ → Obs) (s m n : ℕ) :
    sCountRange obsCell s (m + n) = sCountRange obsCell s m + sCountRange obsCell (s + m) n := by
  unfold sCountRange
  rw [range'_split, List.map_append, List.sum_append]

lemma ssRange_add (obsCell : ℕ → Obs) (s m n : ℕ) :
    ssRange obsCell s (m + n) = ssRange obsCell s m + ssRange obsCell (s + m) n := by
  unfold ssRange
  rw [range'_split, List.map_append, List.sum_append]

lemma ctgSumRange_add (obsCell : ℕ → Obs) (s m n c : ℕ) :
    ctgSumRange obsCell s (m + n) c
      = ctgSumRange obsCell s m c + ctgSumRange obsCell (s + m) n c := by
  unfold ctgSumRange
  rw [range'_split, List.map_append, List.sum_append]

/-- C10: the Accum constructor reduces the scanned bound by the missing
    count and filters the candidate totals by subtracting the trailing
    missing cells' response sums and sample counts; applied to totals
    taken over the full staged range, the filtered totals are exactly
    the totals over the non-missing range, and the classification
    filter likewise subtracts the missing cells' squared responses and
    per-category sums, so missing observations never contribute to the
    sums used in split scoring. -/
theorem accum_filterMissing_excludes (obsCell : ℕ → Obs)
    (obsStart candObsEnd nMissing : ℕ) (hm : obsStart + nMissing ≤ candObsEnd)
    (ssL : ℚ) (ctgSum : ℕ → ℚ) :
    accumInit obsCell candObsEnd nMissing
        (ySumRange obsCell obsStart (candObsEnd - obsStart))
        (sCountRange obsCell obsStart (candObsEnd - obsStart))
      = (candObsEnd - nMissing,
         ySumRange obsCell obsStart (candObsEnd - nMissing - obsStart),
         sCountRange obsCell obsStart (candObsEnd - nMissing - obsStart)) ∧
    filterMissingCtg obsCell (candObsEnd - nMissing) nMissing ssL ctgSum
      = (ssL - ssRange obsCell (candObsEnd - nMissing) nMissing,
         fun c => ctgSum c - ctgSumRange obsCell (candObsEnd - nMissing) nMissing c) ∧
    filterMissingCtg obsCell (candObsEnd - nMissing) nMissing
        (ssRange obsCell obsStart (candObsEnd - obsStart))
        (fun c => ctgSumRange obsCell obsStart (candObsEnd - obsStart) c)
      = (ssRange obsCell obsStart (candObsEnd - nMissing - obsStart),
         fun c => ctgSumRange obsCell obsStart (candObsEnd - nMissing - obsStart) c) := by
  have hlen : candObsEnd - obsStart = (candObsEnd - nMissing - obsStart) + nMissing := by
    omega
  have hstart : obsStart + (candObsEnd - nMissing - obsStart) = candObsEnd - nMissing := by
    omega
  refine ⟨?_, ?_, ?_⟩
  · unfold accumInit
    dsimp only
    rw [filterMissing_closed]
    rw [Prod.mk.injEq, Prod.mk.injEq]
    refine ⟨rfl, ?_, ?_⟩
    · rw [hlen, ySumRange_add, hstart]
      ring
    · rw [hlen, sCountRange_add, hstart]
      omega
  · exact filterMissingCtg_closed obsCell nMissing (candObsEnd - nMissing) ssL ctgSum
  · rw [filterMissingCtg_closed]
    rw [Prod.mk.injEq]
    constructor
    · rw [hlen, ssRange_add, hstart]
      ring
    · funext c
      rw [hlen, ctgSumRange_add, hstart]
      ring

/-- Witness for C10 at a concrete cell layout. -/
theorem accum_filterMissing_excludes_witness :
    0 + 1 ≤ 3 ∧
    (accumInit (fun i => ⟨(i : ℚ), 1, 0⟩) 3 1
        (ySumRange (fun i => ⟨(i : ℚ), 1, 0⟩) 0 (3 - 0))
        (sCountRange (fun i => ⟨(i : ℚ), 1, 0⟩) 0 (3 - 0))
      = (3 - 1,
         ySumRange (fun i => ⟨(i : ℚ), 1, 0⟩) 0 (3 - 1 - 0),
         sCountRange (fun i => ⟨(i : ℚ), 1, 0⟩) 0 (3 - 1 - 0)) ∧
    filterMissingCtg (fun i => ⟨(i : ℚ), 1, 0⟩) (3 - 1) 1 5 (fun _ => 2)
      = (5 - ssRange (fun i => ⟨(i : ℚ), 1, 0⟩) (3 - 1) 1,
         fun c => 2 - ctgSumRange (fun i => ⟨(i : ℚ), 1, 0⟩) (3 - 1) 1 c) ∧
    filterMissingCtg (fun i => ⟨(i : ℚ), 1, 0⟩) (3 - 1) 1
        (ssRange (fun i => ⟨(i : ℚ), 1, 0⟩) 0 (3 - 0))
        (fun c => ctgSumRange (fun i => ⟨(i : ℚ), 1, 0⟩) 0 (3 - 0) c)
      = (ssRange (fun i => ⟨(i : ℚ), 1, 0⟩) 0 (3 - 1 - 0),
         fun c => ctgSumRange (fun i => ⟨(i : ℚ), 1, 0⟩) 0 (3 - 1 - 0) c)) :=
  ⟨by omega,
    accum_filterMissing_excludes (fun i => ⟨(i : ℚ), 1, 0⟩) 0 3 1 (by omega) 5 (fun _ => 2)⟩

/-- One staged cell as read during replay by SampleRank::CtgFields:
    response sum, category code and sample count. -/
structure ReplayCell where
  ySum : ℚ
  yCtg : ℕ
  sCount : ℕ
deriving Repr, DecidableEq, Inhabited

/-- Per-category replay accumulator cell, as accumulated by
    SumCount::Accum. -/
structure SumCount where
  ySum : ℚ
  sCount : ℕ
deriving Repr, DecidableEq, Inhabited

/-- SamplePred::BlockReplay (samplepred.cc lines 131 to 154): walks the
    block [start, start + extent), accumulating the response sum and
    setting the replay-explicit bit of each position's sample index;
    when the per-category decomposition vector is nonempty each cell's
    response sum and sample count are also accumulated into its
    category's slot. -/
def BlockReplay (spn : ℕ → ReplayCell) (idx : ℕ → ℕ) (start extent : ℕ)
    (replayExpl : ℕ → Bool) (ctgExpl : List SumCount) :
    ℚ × (ℕ → Bool) × List SumCount :=
  if ctgExpl.isEmpty = false then
    (List.range' start extent).foldl
      (fun st spIdx =>
        (st.1 + (spn spIdx).ySum,
         Function.update st.2.1 (idx spIdx) true,
         st.2.2.set (spn spIdx).yCtg
           ⟨(st.2.2.getD (spn spIdx).yCtg default).ySum + (spn spIdx).ySum,
            (st.2.2.getD (spn spIdx).yCtg default).sCount + (spn spIdx).sCount⟩))
      (0, replayExpl, ctgExpl)
  else
    (List.range' start extent).foldl
      (fun st spIdx =>
        (st.1 + (spn spIdx).ySum,
         Function.update st.2.1 (idx spIdx) true,
         st.2.2))
      (0, replayExpl, ctgExpl)

/-- Response sum of the replayed block. -/
def blockYSum (spn : ℕ → ReplayCell) (start len : ℕ) : ℚ :=
  ((List.range' start len).map (fun i => (spn i).ySum)).sum

/-- Per-category response sum of the replayed block. -/
def blockCtgYSum (spn : ℕ → ReplayCell) (start len c : ℕ) : ℚ :=
  ((List.range' start len).map
    (fun i => if (spn i).yCtg = c then (spn i).ySum else 0)).sum

/-- Per-category sample count of the replayed block. -/
def blockCtgSCount (spn : ℕ → ReplayCell) (start len c : ℕ) : ℕ :=
  ((List.range' start len).map
    (fun i => if (spn i).yCtg = c then (spn i).sCount else 0)).sum

lemma blockReplay_ctg_fold (spn : ℕ → ReplayCell) (idx : ℕ → ℕ) :
    ∀ (extent start : ℕ) (acc : ℚ) (bits : ℕ → Bool) (ctg : List SumCount),
      (∀ i ∈ List.range' start extent, (spn i).yCtg < ctg.length) →
      ((List.range' start extent).foldl
          (fun st spIdx =>
            (st.1 + (spn spIdx).ySum,
             Function.update st.2.1 (idx spIdx) true,
             st.2.2.set (spn spIdx).yCtg
               ⟨(st.2.2.getD (spn spIdx).yCtg default).ySum + (spn spIdx).ySum,
                (st.2.2.getD (spn spIdx).yCtg default).sCount + (spn spIdx).sCount⟩))
          (acc, bits, ctg)).1 = acc + blockYSum spn start extent ∧
      (∀ s, ((List.range' start extent).foldl
          (fun st spIdx =>
            (st.1 + (spn spIdx).ySum,
             Function.update st.2.1 (idx spIdx) true,
             st.2.2.set (spn spIdx).yCtg
               ⟨(st.2.2.getD (spn spIdx).yCtg default).ySum + (spn spIdx).ySum,
                (st.2.2.getD (spn spIdx).yCtg default).sCount + (spn spIdx).sCount⟩))
          (acc, bits, ctg)).2.1 s = true ↔
        bits s = true ∨ ∃ i ∈ List.range' start extent, idx i = s) ∧
      ((List.range' start extent).foldl
          (fun st spIdx =>
            (st.1 + (spn spIdx).ySum,
             Function.update st.2.1 (idx spIdx) true,
             st.2.2.set (spn spIdx).yCtg
               ⟨(st.2.2.getD (spn spIdx).yCtg default).ySum + (spn spIdx).ySum,
                (st.2.2.getD (spn spIdx).yCtg default).sCount + (spn spIdx).sCount⟩))
          (acc, bits, ctg)).2.2.length = ctg.length ∧
      (∀ c, c < ctg.length →
        ((List.range' start extent).foldl
          (fun st spIdx =>
            (st.1 + (spn spIdx).ySum,
             Function.update st.2.1 (idx spIdx) true,
             st.2.2.set (spn spIdx).yCtg
               ⟨(st.2.2.getD (spn spIdx).yCtg default).ySum + (spn spIdx).ySum,
                (st.2.2.getD (spn spIdx).yCtg default).sCount + (spn spIdx).sCount⟩))
          (acc, bits, ctg)).2.2.getD c default
          = ⟨(ctg.getD c default).ySum + blockCtgYSum spn start extent c,
             (ctg.getD c default).sCount + blockCtgSCount spn start extent c⟩) := by
  intro extent
  induction extent with
  | zero =>
      intro start acc bits ctg hctg
      refine ⟨by simp [blockYSum], ?_, by simp, ?_⟩
      · intro s
        simp
      · intro c hc
        simp [blockCtgYSum, blockCtgSCount]
  | succ n ih =>
      intro start acc bits ctg hctg
      rw [List.range'_succ, List.foldl_cons]
      have hhead : (spn start).yCtg < ctg.length :=
        hctg start (by rw [List.range'_succ]; exact List.mem_cons_self _ _)
      have hlenset : (ctg.set (spn start).yCtg
          ⟨(ctg.getD (spn start).yCtg default).ySum + (spn start).ySum,
           (ctg.getD (spn start).yCtg default).sCount + (spn start).sCount⟩).length
          = ctg.length := by simp
      have htail : ∀ i ∈ List.range' (start + 1) n, (spn i).yCtg <
          (ctg.set (spn start).yCtg
            ⟨(ctg.getD (spn start).yCtg default).ySum + (spn start).ySum,
             (ctg.getD (spn start).yCtg default).sCount + (spn start).sCount⟩).length := by
        intro i hi
        rw [hlenset]
        exact hctg i (by rw [List.range'_succ]; exact List.mem_cons_of_mem _ hi)
      obtain ⟨ih1, ih2, ih3, ih4⟩ := ih (start + 1)
        (acc + (spn start).ySum)
        (Function.update bits (idx start) true)
        (ctg.set (spn start).yCtg
          ⟨(ctg.getD (spn start).yCtg default).ySum + (spn start).ySum,
           (ctg.getD (spn start).yCtg default).sCount + (spn start).sCount⟩)
        htail
      refine ⟨?_, ?_, ?_, ?_⟩
      · rw [ih1]
        unfold blockYSum
        rw [List.range'_succ, List.map_cons, List.sum_cons]
        ring
      · intro s
        rw [ih2 s]
        constructor
        · rintro (hu | ⟨i, hi, hie⟩)
          · by_cases hs : idx start = s
            · exact Or.inr ⟨start, List.mem_cons_self _ _, hs⟩
            · rw [Function.update_noteq (fun h => hs h.symm) _ bits] at hu
              exact Or.inl hu
          · exact Or.inr ⟨i, List.mem_cons_of_mem _ hi, hie⟩
        · rintro (hb | ⟨i, hi, hie⟩)
          · by_cases hs : idx start = s
            · exact Or.inl (by rw [← hs, Function.update_same])
            · exact Or.inl (by rw [Function.update_noteq (fun h => hs h.symm) _ bits]; exact hb)
          · rw [List.mem_cons] at hi
            rcases hi with hi | hi
            · subst hi
              exact Or.inl (by rw [← hie, Function.update_same])
            · exact Or.inr ⟨i, hi, hie⟩
      · rw [ih3, hlenset]
      · intro c hc
        rw [ih4 c (by rw [hlenset]; exact hc)]
        have hysum : blockCtgYSum spn start (n + 1) c
            = (if (spn start).yCtg = c then (spn start).ySum else 0)
              + blockCtgYSum spn (start + 1) n c := by
          unfold blockCtgYSum
          rw [List.range'_succ, List.map_cons, List.sum_cons]
        have hscnt : blockCtgSCount spn start (n + 1) c
            = (if (spn start).yCtg = c then (spn start).sCount else 0)
              + blockCtgSCount spn (start + 1) n c := by
          unfold blockCtgSCount
          rw [List.range'_succ, List.map_cons, List.sum_cons]
        by_cases hcc : (spn start).yCtg = c
        · subst hcc
          have hset : (ctg.set (spn start).yCtg
              ⟨(ctg.getD (spn start).yCtg default).ySum + (spn start).ySum,
               (ctg.getD (spn start).yCtg default).sCount + (spn start).sCount⟩).getD
                (spn start).yCtg default
              = ⟨(ctg.getD (spn start).yCtg default).ySum + (spn start).ySum,
                 (ctg.getD (spn start).yCtg default).sCount + (spn start).sCount⟩ := by
            rw [List.getD_eq_getElem _ default (by simpa using hhead)]
            simp [List.getElem_set, hhead]
          rw [hset, hysum, hscnt]
          dsimp only
          rw [SumCount.mk.injEq]
          rw [if_pos rfl, if_pos rfl]
          exact ⟨by ring, by omega⟩
        · have hset : (ctg.set (spn start).yCtg
              ⟨(ctg.getD (spn start).yCtg default).ySum + (spn start).ySum,
               (ctg.getD (spn start).yCtg default).sCount + (spn start).sCount⟩).getD c default
              = ctg.getD c default := by
            simp [List.getD, List.getElem?_set_ne hcc]
          rw [hset, hysum, hscnt]
          rw [SumCount.mk.injEq]
          rw [if_neg hcc, if_neg hcc]
          exact ⟨by ring, by omega⟩

lemma blockReplay_reg_fold (spn : ℕ → ReplayCell) (idx : ℕ → ℕ) :
    ∀ (extent start : ℕ) (acc : ℚ) (bits : ℕ → Bool) (ctg : List SumCount),
      ((List.range' start extent).foldl
          (fun st spIdx =>
            (st.1 + (spn spIdx).ySum,
             Function.update st.2.1 (idx spIdx) true,
             st.2.2))
          (acc, bits, ctg)).1 = acc + blockYSum spn start extent ∧
      (∀ s, ((List.range' start extent).foldl
          (fun st spIdx =>
            (st.1 + (spn spIdx).ySum,
             Function.update st.2.1 (idx spIdx) true,
             st.2.2))
          (acc, bits, ctg)).2.1 s = true ↔
        bits s = true ∨ ∃ i ∈ List.range' start extent, idx i = s) ∧
      ((List.range' start extent).foldl
          (fun st spIdx =>
            (st.1 + (spn spIdx).ySum,
             Function.update st.2.1 (idx spIdx) true,
             st.2.2))
          (acc, bits, ctg)).2.2 = ctg := by
  intro extent
  induction extent with
  | zero =>
      intro start acc bits ctg
      refine ⟨by simp [blockYSum], ?_, by simp⟩
      intro s
      simp
  | succ n ih =>
      intro start acc bits ctg
      rw [List.range'_succ, List.foldl_cons]
      obtain ⟨ih1, ih2, ih3⟩ := ih (start + 1) (acc + (spn start).ySum)
        (Function.update bits (idx start) true) ctg
      refine ⟨?_, ?_, ih3⟩
      · rw [ih1]
        unfold blockYSum
        rw [List.range'_succ, List.map_cons, List.sum_cons]
        ring
      · intro s
        rw [ih2 s]
        constructor
        · rintro (hu | ⟨i, hi, hie⟩)
          · by_cases hs : idx start = s
            · exact Or.inr ⟨start, List.mem_cons_self _ _, hs⟩
            · rw [Function.update_noteq (fun h => hs h.symm) _ bits] at hu
              exact Or.inl hu
          · exact Or.inr ⟨i, List.mem_cons_of_mem _ hi, hie⟩
        · rintro (hb | ⟨i, hi, hie⟩)
          · by_cases hs : idx start = s
            · exact Or.inl (by rw [← hs, Function.update_same])
            · exact Or.inl (by rw [Function.update_noteq (fun h => hs h.symm) _ bits]; exact hb)
          · rw [List.mem_cons] at hi
            rcases hi with hi | hi
            · subst hi
              exact Or.inl (by rw [← hie, Function.update_same])
            · exact Or.inr ⟨i, hi, hie⟩

/-- C9: BlockReplay returns the sum of the staged response values over
    the replayed block, sets the replay-explicit bit of the sample
    index at every position of the block (and no other bit), and, when
    a per-category decomposition is supplied (classification),
    accumulates each cell's response sum and sample count into its
    category's slot of ctgExpl. -/
theorem BlockReplay_spec (spn : ℕ → ReplayCell) (idx : ℕ → ℕ) (start extent : ℕ)
    (replayExpl : ℕ → Bool) (ctgExpl : List SumCount)
    (hctg : ¬ ctgExpl.isEmpty = true → ∀ i ∈ List.range' start extent,
      (spn i).yCtg < ctgExpl.length) :
    (BlockReplay spn idx start extent replayExpl ctgExpl).1
        = blockYSum spn start extent ∧
    (∀ s, (BlockReplay spn idx start extent replayExpl ctgExpl).2.1 s = true ↔
      replayExpl s = true ∨ ∃ i ∈ List.range' start extent, idx i = s) ∧
    (BlockReplay spn idx start extent replayExpl ctgExpl).2.2.length = ctgExpl.length ∧
    (¬ ctgExpl.isEmpty = true → ∀ c, c < ctgExpl.length →
      (BlockReplay spn idx start extent replayExpl ctgExpl).2.2.getD c default
        = ⟨(ctgExpl.getD c default).ySum + blockCtgYSum spn start extent c,
           (ctgExpl.getD c default).sCount + blockCtgSCount spn start extent c⟩) := by
  unfold BlockReplay
  by_cases he : ctgExpl.isEmpty = false
  · rw [if_pos he]
    have hne : ¬ ctgExpl.isEmpty = true := by
      rw [he]
      exact Bool.false_ne_true
    obtain ⟨h1, h2, h3, h4⟩ := blockReplay_ctg_fold spn idx extent start 0 replayExpl ctgExpl
      (hctg hne)
    refine ⟨by rw [h1]; ring, h2, h3, ?_⟩
    intro _ c hc
    exact h4 c hc
  · rw [if_neg he]
    have hemp : ctgExpl.isEmpty = true := by
      cases h : ctgExpl.isEmpty
      · exact absurd h he
      · rfl
    obtain ⟨h1, h2, h3⟩ := blockReplay_reg_fold spn idx extent start 0 replayExpl ctgExpl
    refine ⟨by rw [h1]; ring, h2, by rw [h3], ?_⟩
    intro hne
    exact absurd hemp hne

/-- Witness for C9 at a concrete block. -/
theorem BlockReplay_spec_witness :
    (¬ ([⟨0, 0⟩] : List SumCount).isEmpty = true → ∀ i ∈ List.range' 0 2,
      ((fun _ => (⟨1, 0, 1⟩ : ReplayCell)) i).yCtg < ([⟨0, 0⟩] : List SumCount).length) ∧
    ((BlockReplay (fun _ => ⟨1, 0, 1⟩) (fun i => i) 0 2 (fun _ => false) [⟨0, 0⟩]).1
        = blockYSum (fun _ => ⟨1, 0, 1⟩) 0 2 ∧
    (∀ s, (BlockReplay (fun _ => ⟨1, 0, 1⟩) (fun i => i) 0 2 (fun _ => false) [⟨0, 0⟩]).2.1 s
        = true ↔
      (fun _ => false) s = true ∨ ∃ i ∈ List.range' 0 2, i = s) ∧
    (BlockReplay (fun _ => ⟨1, 0, 1⟩) (fun i => i) 0 2 (fun _ => false)
        [⟨0, 0⟩]).2.2.length = ([⟨0, 0⟩] : List SumCount).length ∧
    (¬ ([⟨0, 0⟩] : List SumCount).isEmpty = true → ∀ c, c < ([⟨0, 0⟩] : List SumCount).length →
      (BlockReplay (fun _ => ⟨1, 0, 1⟩) (fun i => i) 0 2 (fun _ => false)
          [⟨0, 0⟩]).2.2.getD c default
        = ⟨(([⟨0, 0⟩] : List SumCount).getD c default).ySum
              + blockCtgYSum (fun _ => ⟨1, 0, 1⟩) 0 2 c,
           (([⟨0, 0⟩] : List SumCount).getD c default).sCount
              + blockCtgSCount (fun _ => ⟨1, 0, 1⟩) 0 2 c⟩)) :=
  ⟨by intro _ i _; simp,
    BlockReplay_spec (fun _ => ⟨1, 0, 1⟩) (fun i => i) 0 2 (fun _ => false) [⟨0, 0⟩]
      (by intro _ i _; simp)⟩

/-- Modelled from the spec: the front-end row sampler
    (RcppSample::sampleRows, implemented on the R side and absent from
    the source tree) returns nSamp row indices drawn from the row
    distribution, each below nRow. -/
def validDraw (nRow nSamp : ℕ) (draws : List ℕ) : Prop :=
  draws.length = nSamp ∧ ∀ v ∈ draws, v < nRow

/-- Modelled from the spec: under sampling without replacement the
    drawn indices are in addition distinct. -/
def validDrawNoRepl (nRow nSamp : ℕ) (draws : List ℕ) : Prop :=
  validDraw nRow nSamp draws ∧ draws.Nodup

/-- Sample::RowSample (sample.cc lines 71 to 82): walks the drawn row
    vector, incrementing each drawn row's sample count, and counts the
    rows that become newly sampled (the bag count). -/
def RowSample (draws : List ℕ) : (ℕ → ℕ) × ℕ :=
  draws.foldl
    (fun st row =>
      (Function.update st.1 row (st.1 row + 1),
       st.2 + if st.1 row = 0 then 1 else 0))
    (fun _ => 0, 0)

/-- The counting loop of Sampler::countSamples (sampler.cc lines
    119 to 125): per-row increments over the index vector. -/
def scCounts (idx : List ℕ) : ℕ → ℕ :=
  idx.foldl (fun sc v => Function.update sc v (sc v + 1)) (fun _ => 0)

lemma update_count_fold (r : ℕ) :
    ∀ (l : List ℕ) (f : ℕ → ℕ),
      (l.foldl (fun sc v => Function.update sc v (sc v + 1)) f) r = f r + l.count r := by
  intro l
  induction l with
  | nil => intro f; simp
  | cons v rest ih =>
      intro f
      rw [List.foldl_cons, ih]
      by_cases hv : r = v
      · subst hv
        rw [Function.update_same, List.count_cons_self]
        omega
      · rw [Function.update_noteq hv _ f, List.count_cons_of_ne hv]

lemma rowSample_fst (draws : List ℕ) :
    ∀ (f : ℕ → ℕ) (b : ℕ),
      (draws.foldl
        (fun st row =>
          (Function.update st.1 row (st.1 row + 1),
           st.2 + if st.1 row = 0 then 1 else 0))
        (f, b)).1
      = draws.foldl (fun sc v => Function.update sc v (sc v + 1)) f := by
  induction draws with
  | nil => intro f b; rfl
  | cons v rest ih =>
      intro f b
      rw [List.foldl_cons, List.foldl_cons]
      exact ih (Function.update f v (f v + 1)) (b + if f v = 0 then 1 else 0)

lemma sum_count_range (nRow : ℕ) :
    ∀ (draws : List ℕ), (∀ v ∈ draws, v < nRow) →
      (∑ r ∈ Finset.range nRow, draws.count r) = draws.length := by
  intro draws
  induction draws with
  | nil => intro _; simp
  | cons v rest ih =>
      intro hlt
      have hv : v < nRow := hlt v (List.mem_cons_self _ _)
      have hrest : ∀ w ∈ rest, w < nRow := fun w hw => hlt w (List.mem_cons_of_mem _ hw)
      have hcnt : ∀ r ∈ Finset.range nRow,
          (v :: rest).count r = rest.count r + if r = v then 1 else 0 := by
        intro r _
        rw [List.count_cons]
        rcases eq_or_ne r v with h | h
        · simp [h]
        · simp [h, Ne.symm h]
      rw [Finset.sum_congr rfl hcnt, Finset.sum_add_distrib, ih hrest]
      rw [Finset.sum_ite_eq' (Finset.range nRow) v (fun _ => 1)]
      rw [if_pos (Finset.mem_range.mpr hv)]
      simp

/-- C7: over a drawn index vector of the modelled front-end sampler,
    every drawn index contributes exactly one increment to its row's
    count (each row's count is its multiplicity among the draws), and
    the counts over all rows sum to nSamp; under without-replacement
    sampling the sum is therefore at most nSamp.  Both the per-tree
    counting walk Sample::RowSample and the counting loop of
    Sampler::countSamples produce these counts. -/
theorem sample_counts_sum_nSamp (nRow nSamp : ℕ) (draws : List ℕ) :
    (validDraw nRow nSamp draws →
      (∀ r, (RowSample draws).1 r = draws.count r) ∧
      (∀ r, scCounts draws r = draws.count r) ∧
      (∑ r ∈ Finset.range nRow, (RowSample draws).1 r) = nSamp) ∧
    (validDrawNoRepl nRow nSamp draws →
      (∑ r ∈ Finset.range nRow, (RowSample draws).1 r) ≤ nSamp) := by
  have hfst : ∀ r, (RowSample draws).1 r = draws.count r := by
    intro r
    unfold RowSample
    rw [rowSample_fst draws (fun _ => 0) 0, update_count_fold r draws (fun _ => 0)]
    omega
  have hsc : ∀ r, scCounts draws r = draws.count r := by
    intro r
    unfold scCounts
    rw [update_count_fold r draws (fun _ => 0)]
    omega
  constructor
  · intro ⟨hlen, hlt⟩
    refine ⟨hfst, hsc, ?_⟩
    rw [Finset.sum_congr rfl (fun r _ => hfst r), sum_count_range nRow draws hlt, hlen]
  · intro ⟨⟨hlen, hlt⟩, _⟩
    rw [Finset.sum_congr rfl (fun r _ => hfst r), sum_count_range nRow draws hlt, hlen]

/-- Witness for C7 at a concrete draw vector. -/
theorem sample_counts_sum_nSamp_witness :
    validDraw 2 3 [0, 1, 1] ∧
    ((∀ r, (RowSample [0, 1, 1]).1 r = List.count r [0, 1, 1]) ∧
     (∀ r, scCounts [0, 1, 1] r = List.count r [0, 1, 1]) ∧
     (∑ r ∈ Finset.range 2, (RowSample [0, 1, 1]).1 r) = 3) :=
  ⟨⟨by decide, by decide⟩,
    (sample_counts_sum_nSamp 2 3 [0, 1, 1]).1 ⟨by decide, by decide⟩⟩

/-- A factor run record (FRNode, runset.h lines 32 to 55). -/
structure FRNode where
  rank : ℕ
  start : ℕ
  extent : ℕ
  sCount : ℕ
  sum : ℚ
deriving Repr, DecidableEq, Inhabited

/-- RunSet::maxWidth (runset.h line 105). -/
def maxWidth : ℕ := 10

/-- RunSet::effCount (runset.h lines 159 to 161): the lesser of the run
    count and maxWidth. -/
def effCount (runCount : ℕ) : ℕ :=
  if runCount > maxWidth then maxWidth else runCount

/-- Write-back loop of RunSet::deWide: positions 0 to n - 1 of the
    destination receive the temporary area's values in order. -/
def writeBack {α : Type} (temp : ℕ → α) : ℕ → (ℕ → α) → (ℕ → α)
  | 0, dst => dst
  | n + 1, dst => Function.update (writeBack temp n dst) n (temp n)

lemma writeBack_apply {α : Type} (temp : ℕ → α) :
    ∀ (n : ℕ) (dst : ℕ → α) (i : ℕ),
      writeBack temp n dst i = if i < n then temp i else dst i := by
  intro n
  induction n with
  | zero => intro dst i; simp [writeBack]
  | succ m ih =>
      intro dst i
      unfold writeBack
      by_cases hi : i = m
      · subst hi
        rw [Function.update_same, if_pos (by omega)]
      · rw [Function.update_noteq hi _ _, ih dst i]
        by_cases hlt : i < m
        · rw [if_pos hlt, if_pos (by omega)]
        · rw [if_neg hlt, if_neg (by omega)]

/-- A key and slot pair of the binary heap (BHPair, runset.h). -/
structure BHPair where
  key : ℚ
  slot : ℕ
deriving Repr, DecidableEq, Inhabited

/-- The bubble-up loop of BHeap::insert (runset.cc lines 510 to 516):
    while the parent's key exceeds the inserted key, the parent moves
    down and the inserted pair moves up; the parent of index i + 1 is
    i / 2, and index 0 has no parent. -/
def bhInsertGo (input : BHPair) : ℕ → (ℕ → BHPair) → (ℕ → BHPair)
  | 0, pv => pv
  | idx + 1, pv =>
      if input.key < (pv (idx / 2)).key then
        bhInsertGo input (idx / 2)
          (Function.update (Function.update pv (idx + 1) (pv (idx / 2))) (idx / 2) input)
      else pv
decreasing_by omega

/-- BHeap::insert (runset.cc lines 503 to 517): the pair is written at
    the next vacant index, which equals its slot number, and bubbled up
    towards the root. -/
def bhInsert (pv : ℕ → BHPair) (slot : ℕ) (key : ℚ) : ℕ → BHPair :=
  bhInsertGo ⟨key, slot⟩ slot (Function.update pv slot ⟨key, slot⟩)

/-- RunSet::heapRandom (runset.cc lines 261 to 265): every slot is
    inserted into the heap keyed by its pre-drawn uniform variate. -/
def heapRandom (runCount : ℕ) (rv : ℕ → ℚ) : ℕ → BHPair :=
  (List.range runCount).foldl (fun pv slot => bhInsert pv slot (rv slot)) (fun _ => default)

/-- The sift-down loop of BHeap::slotPop (runset.cc lines 550 to 564):
    while a descendant within the working range holds a key below the
    refiled key, the smaller descendant moves up and the refiled pair
    moves down.  The loop multiplies the index at each step, so the
    fuel bounds the iteration count. -/
def bhSiftGo (keyRefile : ℚ) (slotRefile : ℕ) (bot : ℕ) :
    ℕ → ℕ → (ℕ → BHPair) → (ℕ → BHPair)
  | 0, _, pv => pv
  | fuel + 1, idx, pv =>
      let descL := 1 + 2 * idx
      let descR := 2 * (1 + idx)
      if (descR ≤ bot ∧ (pv descR).key < keyRefile) ∨ (descL ≤ bot ∧ (pv descL).key < keyRefile)
      then
        let chIdx := if descR ≤ bot ∧ (pv descR).key < (pv descL).key then descR else descL
        bhSiftGo keyRefile slotRefile bot fuel chIdx
          (Function.update (Function.update pv idx (pv chIdx)) chIdx ⟨keyRefile, slotRefile⟩)
      else pv

/-- BHeap::slotPop (runset.cc lines 541 to 567): returns the root slot;
    when the working range is nonempty the pair at its bottom index is
    refiled from the root downwards. -/
def slotPop (pv : ℕ → BHPair) (bot : ℕ) : ℕ × (ℕ → BHPair) :=
  let ret := (pv 0).slot
  if bot = 0 then (ret, pv)
  else
    (ret, bhSiftGo (pv bot).key (pv bot).slot bot (bot + 1) 0
      (Function.update pv 0 (pv bot)))

/-- BHeap::depopulate (runset.cc lines 529 to 533): pops the requested
    number of elements, the working range shrinking by one per pop. -/
def depopulate : (ℕ → BHPair) → ℕ → List ℕ × (ℕ → BHPair)
  | pv, 0 => ([], pv)
  | pv, n + 1 =>
      let popped := slotPop pv n
      let rest := depopulate popped.2 n
      (popped.1 :: rest.1, rest.2)

/-- RunSet::dePop over the random heap (runset.cc lines 378 to 380):
    the slots output in heap order. -/
def dePopOut (runCount : ℕ) (rv : ℕ → ℚ) (pop : ℕ) : List ℕ :=
  (depopulate (heapRandom runCount rv) pop).1

/-- RunSet::deWide (runset.cc lines 391 to 418): when the run count
    exceeds maxWidth, the runs named by the leading maxWidth slots of
    the random-heap depopulation order are copied to a temporary area
    together with their per-category checkerboard rows, then written
    back to the leading maxWidth slots; the post-shrink run count is
    maxWidth. -/
def deWide (runCount : ℕ) (runZero : ℕ → FRNode) (ctgZero : ℕ → ℕ → ℚ)
    (rv : ℕ → ℚ) : ℕ × (ℕ → FRNode) × (ℕ → ℕ → ℚ) :=
  if runCount ≤ maxWidth then (runCount, runZero, ctgZero)
  else
    let outZero := dePopOut runCount rv maxWidth
    let tempRun : ℕ → FRNode := fun i => runZero (outZero.getD i 0)
    let tempSum : ℕ → ℕ → ℚ := fun i => ctgZero (outZero.getD i 0)
    (maxWidth, writeBack tempRun maxWidth runZero, writeBack tempSum maxWidth ctgZero)

/-- The heap entries over the leading n indices. -/
def entries (n : ℕ) (pv : ℕ → BHPair) : List BHPair := (List.range n).map pv

/-- The slot values of the heap entries over the leading n indices. -/
def slotsOf (n : ℕ) (pv : ℕ → BHPair) : List ℕ := (List.range n).map (fun i => (pv i).slot)

lemma map_range_swap_lt {α : Type} (n j k : ℕ) (hjk : j < k) (hk : k < n) (pv : ℕ → α) :
    ((List.range n).map (Function.update (Function.update pv j (pv k)) k (pv j))).Perm
      ((List.range n).map pv) := by
  have h1 : List.range' 0 n
      = List.range' 0 (j + (1 + ((k - j - 1) + (1 + (n - k - 1))))) := by
    congr 1
    omega
  have hdec : List.range n
      = List.range' 0 j ++ ([j] ++ (List.range' (j + 1) (k - j - 1)
          ++ ([k] ++ List.range' (k + 1) (n - k - 1)))) := by
    rw [List.range_eq_range', h1, range'_split, range'_split]
    simp only [Nat.zero_add]
    rw [range'_split]
    have e1 : j + 1 + (k - j - 1) = k := by omega
    rw [e1, range'_split, List.range'_one, List.range'_one]
  have hseg : ∀ (l : List ℕ), (∀ x ∈ l, x ≠ j ∧ x ≠ k) →
      l.map (Function.update (Function.update pv j (pv k)) k (pv j)) = l.map pv := by
    intro l hl
    refine List.map_congr_left ?_
    intro x hx
    obtain ⟨hxj, hxk⟩ := hl x hx
    rw [Function.update_noteq hxk _ _, Function.update_noteq hxj _ pv]
  have hj2 : (Function.update (Function.update pv j (pv k)) k (pv j)) j = pv k := by
    rw [Function.update_noteq (by omega) _ _, Function.update_same]
  have hk2 : (Function.update (Function.update pv j (pv k)) k (pv j)) k = pv j := by
    rw [Function.update_same]
  have hA : ∀ x ∈ List.range' 0 j, x ≠ j ∧ x ≠ k := by
    intro x hx
    rw [List.mem_range'_1] at hx
    omega
  have hB : ∀ x ∈ List.range' (j + 1) (k - j - 1), x ≠ j ∧ x ≠ k := by
    intro x hx
    rw [List.mem_range'_1] at hx
    omega
  have hC : ∀ x ∈ List.range' (k + 1) (n - k - 1), x ≠ j ∧ x ≠ k := by
    intro x hx
    rw [List.mem_range'_1] at hx
    omega
  rw [hdec]
  simp only [List.map_append, List.map_cons, List.map_nil]
  rw [hseg _ hA, hseg _ hB, hseg _ hC, hj2, hk2]
  refine List.Perm.append_left _ ?_
  refine List.Perm.trans (List.Perm.cons _ List.perm_middle) ?_
  refine List.Perm.trans (List.Perm.swap _ _ _) ?_
  exact List.Perm.cons _ List.perm_middle.symm

lemma map_range_swap {α : Type} (n j k : ℕ) (hj : j < n) (hk : k < n) (hjk : j ≠ k)
    (pv : ℕ → α) :
    ((List.range n).map (Function.update (Function.update pv j (pv k)) k (pv j))).Perm
      ((List.range n).map pv) := by
  rcases Nat.lt_or_ge j k with h | h
  · exact map_range_swap_lt n j k h hk pv
  · have hkj : k < j := by omega
    have hfun : Function.update (Function.update pv j (pv k)) k (pv j)
        = Function.update (Function.update pv k (pv j)) j (pv k) := by
      funext x
      rcases eq_or_ne x k with hx | hx
      · subst hx
        rw [Function.update_same, Function.update_noteq (by omega) _ _, Function.update_same]
      · rcases eq_or_ne x j with hy | hy
        · subst hy
          rw [Function.update_noteq hx _ _, Function.update_same, Function.update_same]
        · rw [Function.update_noteq hx _ _, Function.update_noteq hy _ _,
            Function.update_noteq hy _ _, Function.update_noteq hx _ pv]
    rw [hfun]
    exact map_range_swap_lt n k j hkj hj pv

lemma bhInsertGo_entries (input : BHPair) (n : ℕ) :
    ∀ (idx : ℕ) (pv : ℕ → BHPair), pv idx = input → idx < n →
      (entries n (bhInsertGo input idx pv)).Perm (entries n pv) := by
  intro idx
  induction idx using Nat.strong_induction_on with
  | _ idx ih =>
      intro pv hpv hlt
      cases idx with
      | zero =>
          simp only [bhInsertGo]
          exact List.Perm.refl _
      | succ i =>
          simp only [bhInsertGo]
          split
          next hkey =>
            have hupd : (Function.update (Function.update pv (i + 1) (pv (i / 2)))
                (i / 2) input) (i / 2) = input := Function.update_same _ _ _
            refine List.Perm.trans
              (ih (i / 2) (by omega) _ hupd (by omega)) ?_
            have hsw : Function.update (Function.update pv (i + 1) (pv (i / 2))) (i / 2) input
                = Function.update (Function.update pv (i + 1) (pv (i / 2))) (i / 2)
                    (pv (i + 1)) := by
              rw [hpv]
            rw [hsw]
            unfold entries
            exact map_range_swap n (i + 1) (i / 2) hlt (by omega) (by omega) pv
          next =>
            exact List.Perm.refl _

lemma bhInsert_entries (pv : ℕ → BHPair) (s : ℕ) (key : ℚ) :
    (entries (s + 1) (bhInsert pv s key)).Perm ((⟨key, s⟩ : BHPair) :: entries s pv) := by
  unfold bhInsert
  refine List.Perm.trans
    (bhInsertGo_entries ⟨key, s⟩ (s + 1) s _ (Function.update_same _ _ _) (by omega)) ?_
  have h1 : entries (s + 1) (Function.update pv s ⟨key, s⟩)
      = entries s pv ++ [⟨key, s⟩] := by
    unfold entries
    rw [List.range_succ, List.map_append]
    congr 1
    · refine List.map_congr_left ?_
      intro x hx
      rw [List.mem_range] at hx
      exact Function.update_noteq (by omega) _ pv
    · simp
  rw [h1]
  exact List.perm_append_singleton _ _

lemma heapRandom_entries (rv : ℕ → ℚ) :
    ∀ n : ℕ, (entries n (heapRandom n rv)).Perm
      ((List.range n).map (fun s => (⟨rv s, s⟩ : BHPair))) := by
  intro n
  induction n with
  | zero => simp [entries, heapRandom]
  | succ m ih =>
      have hstep : heapRandom (m + 1) rv = bhInsert (heapRandom m rv) m (rv m) := by
        unfold heapRandom
        rw [List.range_succ, List.foldl_append, List.foldl_cons, List.foldl_nil]
      rw [hstep]
      refine List.Perm.trans (bhInsert_entries (heapRandom m rv) m (rv m)) ?_
      rw [List.range_succ, List.map_append]
      refine List.Perm.trans (List.Perm.cons _ ih) ?_
      simp only [List.map_cons, List.map_nil]
      exact (List.perm_append_singleton _ _).symm

lemma bhSiftGo_entries_step (keyRefile : ℚ) (slotRefile : ℕ) (bot f idx ch : ℕ)
    (pv : ℕ → BHPair) (hidx : pv idx = ⟨keyRefile, slotRefile⟩)
    (hbot : pv bot = ⟨keyRefile, slotRefile⟩) (hch1 : idx < ch) (hch2 : ch ≤ bot)
    (IH : ∀ (j : ℕ) (q : ℕ → BHPair), q j = ⟨keyRefile, slotRefile⟩ →
      q bot = ⟨keyRefile, slotRefile⟩ → j ≤ bot →
      (entries bot (bhSiftGo keyRefile slotRefile bot f j q)).Perm (entries bot q)) :
    (entries bot (bhSiftGo keyRefile slotRefile bot f ch
      (Function.update (Function.update pv idx (pv ch)) ch ⟨keyRefile, slotRefile⟩))).Perm
      (entries bot pv) := by
  have hq1 : (Function.update (Function.update pv idx (pv ch)) ch
      (⟨keyRefile, slotRefile⟩ : BHPair)) ch = ⟨keyRefile, slotRefile⟩ :=
    Function.update_same _ _ _
  have hq2 : (Function.update (Function.update pv idx (pv ch)) ch
      (⟨keyRefile, slotRefile⟩ : BHPair)) bot = ⟨keyRefile, slotRefile⟩ := by
    rcases eq_or_ne ch bot with hcb | hcb
    · subst hcb
      exact Function.update_same _ _ _
    · rw [Function.update_noteq (Ne.symm hcb) _ _,
        Function.update_noteq (by omega) _ pv, hbot]
  refine List.Perm.trans (IH ch _ hq1 hq2 hch2) ?_
  rcases eq_or_ne ch bot with hcb | hcb
  · subst hcb
    have heq : entries ch (Function.update (Function.update pv idx (pv ch)) ch
        (⟨keyRefile, slotRefile⟩ : BHPair)) = entries ch pv := by
      unfold entries
      refine List.map_congr_left ?_
      intro x hx
      rw [List.mem_range] at hx
      rw [Function.update_noteq (by omega) _ _]
      rcases eq_or_ne x idx with hxi | hxi
      · subst hxi
        rw [Function.update_same, hbot, hidx]
      · rw [Function.update_noteq hxi _ pv]
    rw [heq]
  · have hchlt : ch < bot := by omega
    have hform : Function.update (Function.update pv idx (pv ch)) ch
        (⟨keyRefile, slotRefile⟩ : BHPair)
        = Function.update (Function.update pv idx (pv ch)) ch (pv idx) := by
      rw [hidx]
    rw [hform]
    unfold entries
    exact map_range_swap bot idx ch (by omega) hchlt (by omega) pv

lemma bhSiftGo_entries (keyRefile : ℚ) (slotRefile : ℕ) (bot : ℕ) :
    ∀ (fuel idx : ℕ) (pv : ℕ → BHPair),
      pv idx = ⟨keyRefile, slotRefile⟩ → pv bot = ⟨keyRefile, slotRefile⟩ → idx ≤ bot →
      (entries bot (bhSiftGo keyRefile slotRefile bot fuel idx pv)).Perm (entries bot pv) := by
  intro fuel
  induction fuel with
  | zero =>
      intro idx pv _ _ _
      exact List.Perm.refl _
  | succ f ih =>
      intro idx pv hidx hbot hle
      simp only [bhSiftGo]
      split
      next hcond =>
        have hdescL : 1 + 2 * idx ≤ bot := by
          rcases hcond with ⟨hr, _⟩ | ⟨hl, _⟩
          · omega
          · omega
        by_cases hch : 2 * (1 + idx) ≤ bot ∧ (pv (2 * (1 + idx))).key < (pv (1 + 2 * idx)).key
        · rw [if_pos hch]
          exact bhSiftGo_entries_step keyRefile slotRefile bot f idx (2 * (1 + idx)) pv
            hidx hbot (by omega) hch.1 ih
        · rw [if_neg hch]
          exact bhSiftGo_entries_step keyRefile slotRefile bot f idx (1 + 2 * idx) pv
            hidx hbot (by omega) hdescL ih
      next =>
        exact List.Perm.refl _

lemma slotsOf_eq (n : ℕ) (pv : ℕ → BHPair) :
    slotsOf n pv = (entries n pv).map BHPair.slot := by
  unfold slotsOf entries
  rw [List.map_map]
  rfl

lemma slotPop_slots (pv : ℕ → BHPair) (bot : ℕ) :
    ((slotPop pv bot).1 :: slotsOf bot (slotPop pv bot).2).Perm (slotsOf (bot + 1) pv) := by
  by_cases h0 : bot = 0
  · subst h0
    have hpop : slotPop pv 0 = ((pv 0).slot, pv) := by
      unfold slotPop
      dsimp only
      rw [if_pos rfl]
    rw [hpop]
    have h1 : List.range 1 = [0] := by decide
    simp [slotsOf, h1]
  · have hpop : slotPop pv bot
        = ((pv 0).slot, bhSiftGo (pv bot).key (pv bot).slot bot (bot + 1) 0
            (Function.update pv 0 (pv bot))) := by
      unfold slotPop
      dsimp only
      rw [if_neg h0]
    rw [hpop]
    dsimp only
    have hsift := bhSiftGo_entries (pv bot).key (pv bot).slot bot (bot + 1) 0
      (Function.update pv 0 (pv bot)) (by rw [Function.update_same])
      (by rw [Function.update_noteq h0 _ pv]) (by omega)
    have hslots : (slotsOf bot (bhSiftGo (pv bot).key (pv bot).slot bot (bot + 1) 0
        (Function.update pv 0 (pv bot)))).Perm
        (slotsOf bot (Function.update pv 0 (pv bot))) := by
      rw [slotsOf_eq, slotsOf_eq]
      exact List.Perm.map BHPair.slot hsift
    have hupd : slotsOf bot (Function.update pv 0 (pv bot))
        = (pv bot).slot :: (List.range' 1 (bot - 1)).map (fun i => (pv i).slot) := by
      unfold slotsOf
      obtain ⟨b, rfl⟩ : ∃ b, bot = b + 1 := ⟨bot - 1, by omega⟩
      have hr : List.range (b + 1) = 0 :: List.range' 1 (b + 1 - 1) := by
        rw [List.range_eq_range', List.range'_succ]
        simp
      rw [hr, List.map_cons, Function.update_same]
      congr 1
      refine List.map_congr_left ?_
      intro x hx
      rw [List.mem_range'_1] at hx
      rw [Function.update_noteq (by omega) _ pv]
    have hfull : slotsOf (bot + 1) pv
        = ((pv 0).slot :: (List.range' 1 (bot - 1)).map (fun i => (pv i).slot))
            ++ [(pv bot).slot] := by
      unfold slotsOf
      rw [List.range_succ, List.map_append]
      congr 1
      obtain ⟨b, rfl⟩ : ∃ b, bot = b + 1 := ⟨bot - 1, by omega⟩
      have hr : List.range (b + 1) = 0 :: List.range' 1 (b + 1 - 1) := by
        rw [List.range_eq_range', List.range'_succ]
        simp
      rw [hr, List.map_cons]
    have hslots2 : (slotsOf bot (bhSiftGo (pv bot).key (pv bot).slot bot (bot + 1) 0
        (Function.update pv 0 (pv bot)))).Perm
        ((pv bot).slot :: (List.range' 1 (bot - 1)).map (fun i => (pv i).slot)) := by
      rw [← hupd]
      exact hslots
    rw [hfull, List.cons_append]
    exact List.Perm.cons _ (List.Perm.trans hslots2 (List.perm_append_singleton _ _).symm)

lemma depopulate_slots (n : ℕ) :
    ∀ pv : ℕ → BHPair, ((depopulate pv n).1).Perm (slotsOf n pv) := by
  induction n with
  | zero =>
      intro pv
      simp [depopulate, slotsOf]
  | succ m ih =>
      intro pv
      show ((slotPop pv m).1 :: (depopulate (slotPop pv m).2 m).1).Perm (slotsOf (m + 1) pv)
      refine List.Perm.trans (List.Perm.cons _ (ih (slotPop pv m).2)) ?_
      exact slotPop_slots pv m

lemma dePopOut_spec (runCount : ℕ) (rv : ℕ → ℚ) (m : ℕ) (hm : m ≤ runCount) :
    (dePopOut runCount rv m).length = m ∧
    (dePopOut runCount rv m).Nodup ∧
    (∀ s ∈ dePopOut runCount rv m, s < runCount) := by
  have hperm : (dePopOut runCount rv m).Perm (slotsOf m (heapRandom runCount rv)) :=
    depopulate_slots m (heapRandom runCount rv)
  have hfull : (slotsOf runCount (heapRandom runCount rv)).Perm (List.range runCount) := by
    rw [slotsOf_eq]
    refine List.Perm.trans (List.Perm.map BHPair.slot (heapRandom_entries rv runCount)) ?_
    rw [List.map_map]
    have hid : (BHPair.slot ∘ fun s => (⟨rv s, s⟩ : BHPair)) = id := rfl
    rw [hid, List.map_id]
  have htake : slotsOf m (heapRandom runCount rv)
      = (slotsOf runCount (heapRandom runCount rv)).take m := by
    unfold slotsOf
    rw [← List.map_take, List.take_range, Nat.min_eq_left hm]
  have hnodupFull : (slotsOf runCount (heapRandom runCount rv)).Nodup :=
    (hfull.nodup_iff).mpr (List.nodup_range runCount)
  have hnodupTake : (slotsOf m (heapRandom runCount rv)).Nodup := by
    rw [htake]
    exact List.Nodup.sublist (List.take_sublist m _) hnodupFull
  refine ⟨?_, ?_, ?_⟩
  · rw [hperm.length_eq]
    unfold slotsOf
    rw [List.length_map, List.length_range]
  · exact (hperm.nodup_iff).mpr hnodupTake
  · intro s hs
    have hmem : s ∈ slotsOf m (heapRandom runCount rv) := (hperm.mem_iff).mp hs
    rw [htake] at hmem
    have hmem2 : s ∈ slotsOf runCount (heapRandom runCount rv) :=
      List.take_subset m _ hmem
    have := (hfull.mem_iff).mp hmem2
    rw [List.mem_range] at this
    exact this

/-- Category sum over the slots of a subset (inner slot loop of
    SplitCoord::SplitRuns, splitpred.cc lines 1279 to 1283): bit number
    slot of the subset selects the slot's cell sum. -/
def subsetCtgSum (runSumCtg : ℕ → ℕ → ℚ) (slotSup subset yCtg : ℕ) : ℚ :=
  ∑ slot ∈ Finset.range slotSup,
    if subset.testBit slot then runSumCtg slot yCtg else 0

/-- Left response sum of a subset (accumulation over categories). -/
def subsetSumL (ctgWidth : ℕ) (runSumCtg : ℕ → ℕ → ℚ) (slotSup subset : ℕ) : ℚ :=
  ∑ yCtg ∈ Finset.range ctgWidth, subsetCtgSum runSumCtg slotSup subset yCtg

/-- Left Gini numerator of a subset. -/
def subsetSSL (ctgWidth : ℕ) (runSumCtg : ℕ → ℕ → ℚ) (slotSup subset : ℕ) : ℚ :=
  ∑ yCtg ∈ Finset.range ctgWidth,
    subsetCtgSum runSumCtg slotSup subset yCtg * subsetCtgSum runSumCtg slotSup subset yCtg

/-- Right Gini numerator of a subset: per category, the node total
    minus the subset's sum, squared. -/
def subsetSSR (ctgWidth : ℕ) (ctgSumNode : ℕ → ℚ) (runSumCtg : ℕ → ℕ → ℚ)
    (slotSup subset : ℕ) : ℚ :=
  ∑ yCtg ∈ Finset.range ctgWidth,
    (ctgSumNode yCtg - subsetCtgSum runSumCtg slotSup subset yCtg)
      * (ctgSumNode yCtg - subsetCtgSum runSumCtg slotSup subset yCtg)

/-- The subset score ssR / sumR + ssL / sumL of SplitCoord::SplitRuns
    (splitpred.cc line 1292). -/
def subsetGini (ctgWidth : ℕ) (ctgSumNode : ℕ → ℚ) (runSumCtg : ℕ → ℕ → ℚ)
    (sum : ℚ) (slotSup subset : ℕ) : ℚ :=
  subsetSSR ctgWidth ctgSumNode runSumCtg slotSup subset
      / (sum - subsetSumL ctgWidth runSumCtg slotSup subset)
    + subsetSSL ctgWidth runSumCtg slotSup subset
      / subsetSumL ctgWidth runSumCtg slotSup subset

/-- The subset loop of SplitCoord::SplitRuns (splitpred.cc lines 1273
    to 1298): each enumerated subset is scored and, when the sums pass
    the stability guard and the score improves the maximum, recorded as
    the candidate left-hand bit pattern. -/
def splitRunsGo (stable : ℚ → ℚ → Bool) (ctgWidth : ℕ) (ctgSumNode : ℕ → ℚ)
    (runSumCtg : ℕ → ℕ → ℚ) (sum : ℚ) (slotSup : ℕ) :
    List ℕ → ℕ × ℚ → ℕ × ℚ
  | [], st => st
  | subset :: rest, st =>
      let sumL := subsetSumL ctgWidth runSumCtg slotSup subset
      let sumR := sum - sumL
      let st1 :=
        if stable sumL sumR
            ∧ st.2 < subsetGini ctgWidth ctgSumNode runSumCtg sum slotSup subset
        then (subset, subsetGini ctgWidth ctgSumNode runSumCtg sum slotSup subset)
        else st
      splitRunsGo stable ctgWidth ctgSumNode runSumCtg sum slotSup rest st1

/-- SplitCoord::SplitRuns (splitpred.cc lines 1263 to 1309): after
    de-widening, the nonempty proper left-hand subsets are enumerated
    as the bit patterns 1 .. 2 ^ (countEff - 1) - 1 and the argmax of
    the subset score against the prebias is retained. -/
def SplitRuns (stable : ℚ → ℚ → Bool) (ctgWidth : ℕ) (ctgSumNode : ℕ → ℚ)
    (runSumCtg : ℕ → ℕ → ℚ) (sum preBias : ℚ) (countEff : ℕ) : ℕ × ℚ :=
  let slotSup := countEff - 1
  let leftFull := 2 ^ slotSup - 1
  splitRunsGo stable ctgWidth ctgSumNode runSumCtg sum slotSup
    (List.range' 1 leftFull) (0, preBias)

lemma splitRunsGo_max (stable : ℚ → ℚ → Bool) (ctgWidth : ℕ) (ctgSumNode : ℕ → ℚ)
    (runSumCtg : ℕ → ℕ → ℚ) (sum : ℚ) (slotSup : ℕ) :
    ∀ (l : List ℕ) (st : ℕ × ℚ),
      (∀ s ∈ l, stable (subsetSumL ctgWidth runSumCtg slotSup s)
          (sum - subsetSumL ctgWidth runSumCtg slotSup s) = true) →
      st.2 ≤ (splitRunsGo stable ctgWidth ctgSumNode runSumCtg sum slotSup l st).2 ∧
      (∀ s ∈ l, subsetGini ctgWidth ctgSumNode runSumCtg sum slotSup s
        ≤ (splitRunsGo stable ctgWidth ctgSumNode runSumCtg sum slotSup l st).2) ∧
      (((splitRunsGo stable ctgWidth ctgSumNode runSumCtg sum slotSup l st).1 = st.1 ∧
        (splitRunsGo stable ctgWidth ctgSumNode runSumCtg sum slotSup l st).2 = st.2) ∨
       ((splitRunsGo stable ctgWidth ctgSumNode runSumCtg sum slotSup l st).1 ∈ l ∧
        subsetGini ctgWidth ctgSumNode runSumCtg sum slotSup
            (splitRunsGo stable ctgWidth ctgSumNode runSumCtg sum slotSup l st).1
          = (splitRunsGo stable ctgWidth ctgSumNode runSumCtg sum slotSup l st).2 ∧
        st.2 < (splitRunsGo stable ctgWidth ctgSumNode runSumCtg sum slotSup l st).2)) := by
  intro l
  induction l with
  | nil =>
      intro st _
      exact ⟨le_refl _, by simp, Or.inl ⟨rfl, rfl⟩⟩
  | cons s rest ih =>
      intro st hstable
      have hs := hstable s (List.mem_cons_self _ _)
      have hrest : ∀ x ∈ rest, stable (subsetSumL ctgWidth runSumCtg slotSup x)
          (sum - subsetSumL ctgWidth runSumCtg slotSup x) = true :=
        fun x hx => hstable x (List.mem_cons_of_mem _ hx)
      have hstep : splitRunsGo stable ctgWidth ctgSumNode runSumCtg sum slotSup (s :: rest) st
          = splitRunsGo stable ctgWidth ctgSumNode runSumCtg sum slotSup rest
              (if stable (subsetSumL ctgWidth runSumCtg slotSup s)
                    (sum - subsetSumL ctgWidth runSumCtg slotSup s)
                  ∧ st.2 < subsetGini ctgWidth ctgSumNode runSumCtg sum slotSup s
                then (s, subsetGini ctgWidth ctgSumNode runSumCtg sum slotSup s)
                else st) := rfl
      rw [hstep]
      by_cases hc : stable (subsetSumL ctgWidth runSumCtg slotSup s)
          (sum - subsetSumL ctgWidth runSumCtg slotSup s)
          ∧ st.2 < subsetGini ctgWidth ctgSumNode runSumCtg sum slotSup s
      · rw [if_pos hc]
        obtain ⟨ih1, ih2, ih3⟩ :=
          ih (s, subsetGini ctgWidth ctgSumNode runSumCtg sum slotSup s) hrest
        refine ⟨le_trans (le_of_lt hc.2) ih1, ?_, ?_⟩
        · intro x hx
          rw [List.mem_cons] at hx
          rcases hx with hx | hx
          · subst hx
            exact ih1
          · exact ih2 x hx
        · rcases ih3 with ⟨he1, he2⟩ | ⟨hm, hg, hlt⟩
          · exact Or.inr ⟨by rw [he1]; exact List.mem_cons_self _ _,
              by rw [he1, he2], by rw [he2]; exact hc.2⟩
          · exact Or.inr ⟨List.mem_cons_of_mem _ hm, hg, lt_trans hc.2 hlt⟩
      · rw [if_neg hc]
        obtain ⟨ih1, ih2, ih3⟩ := ih st hrest
        refine ⟨ih1, ?_, ?_⟩
        · intro x hx
          rw [List.mem_cons] at hx
          rcases hx with hx | hx
          · subst hx
            have hng : ¬ st.2 < subsetGini ctgWidth ctgSumNode runSumCtg sum slotSup x :=
              fun hlt => hc ⟨hs, hlt⟩
            exact le_trans (not_lt.mp hng) ih1
          · exact ih2 x hx
        · rcases ih3 with he | ⟨hm, hg, hlt⟩
          · exact Or.inl he
          · exact Or.inr ⟨List.mem_cons_of_mem _ hm, hg, hlt⟩

/-- C6: for a wide multiclass factor candidate (run count above
    maxWidth = 10), deWide shrinks to exactly maxWidth slots.  The
    selected source slots are the leading maxWidth outputs of the
    binary-heap depopulation keyed by the pre-drawn uniform variates;
    they are pairwise distinct slots of the original run set, and the
    runs and per-category cell sums are both taken from those same
    slots (the cell sums are permuted to match).  The subset
    enumeration then visits exactly the bit patterns
    1 .. 2 ^ (effCount - 1) - 1, which number 2 ^ 9 - 1 = 511 when the
    effective count is 10, scoring each subset as ssL / sumL + ssR / sumR
    and retaining the argmax among the stable subsets. -/
theorem SplitRuns_wide_spec (runCount : ℕ) (runZero : ℕ → FRNode)
    (ctgZero : ℕ → ℕ → ℚ) (rv : ℕ → ℚ) (stable : ℚ → ℚ → Bool)
    (ctgWidth : ℕ) (ctgSumNode : ℕ → ℚ) (sum preBias : ℚ)
    (hw : runCount > maxWidth)
    (hstable : ∀ s ∈ List.range' 1 (2 ^ ((deWide runCount runZero ctgZero rv).1 - 1) - 1),
      stable (subsetSumL ctgWidth (deWide runCount runZero ctgZero rv).2.2
          ((deWide runCount runZero ctgZero rv).1 - 1) s)
        (sum - subsetSumL ctgWidth (deWide runCount runZero ctgZero rv).2.2
          ((deWide runCount runZero ctgZero rv).1 - 1) s) = true) :
    (deWide runCount runZero ctgZero rv).1 = 10 ∧
    ((dePopOut runCount rv maxWidth).length = 10 ∧
     (dePopOut runCount rv maxWidth).Nodup ∧
     (∀ s ∈ dePopOut runCount rv maxWidth, s < runCount) ∧
     ∀ i, i < 10 →
       (deWide runCount runZero ctgZero rv).2.1 i
           = runZero ((dePopOut runCount rv maxWidth).getD i 0) ∧
       ∀ c, (deWide runCount runZero ctgZero rv).2.2 i c
           = ctgZero ((dePopOut runCount rv maxWidth).getD i 0) c) ∧
    (2 ^ (10 - 1) - 1 = 511 ∧ (List.range' 1 (2 ^ (10 - 1) - 1)).length = 511) ∧
    (∀ S, S ∈ List.range' 1 (2 ^ ((deWide runCount runZero ctgZero rv).1 - 1) - 1)
      ↔ 1 ≤ S ∧ S ≤ 2 ^ ((deWide runCount runZero ctgZero rv).1 - 1) - 1) ∧
    (((SplitRuns stable ctgWidth ctgSumNode (deWide runCount runZero ctgZero rv).2.2
          sum preBias (deWide runCount runZero ctgZero rv).1).1 = 0 →
      ∀ S, 1 ≤ S → S ≤ 2 ^ ((deWide runCount runZero ctgZero rv).1 - 1) - 1 →
        subsetGini ctgWidth ctgSumNode (deWide runCount runZero ctgZero rv).2.2 sum
            ((deWide runCount runZero ctgZero rv).1 - 1) S ≤ preBias) ∧
     ((SplitRuns stable ctgWidth ctgSumNode (deWide runCount runZero ctgZero rv).2.2
          sum preBias (deWide runCount runZero ctgZero rv).1).1 ≠ 0 →
      1 ≤ (SplitRuns stable ctgWidth ctgSumNode (deWide runCount runZero ctgZero rv).2.2
          sum preBias (deWide runCount runZero ctgZero rv).1).1 ∧
      (SplitRuns stable ctgWidth ctgSumNode (deWide runCount runZero ctgZero rv).2.2
          sum preBias (deWide runCount runZero ctgZero rv).1).1
        ≤ 2 ^ ((deWide runCount runZero ctgZero rv).1 - 1) - 1 ∧
      subsetGini ctgWidth ctgSumNode (deWide runCount runZero ctgZero rv).2.2 sum
          ((deWide runCount runZero ctgZero rv).1 - 1)
          (SplitRuns stable ctgWidth ctgSumNode (deWide runCount runZero ctgZero rv).2.2
            sum preBias (deWide runCount runZero ctgZero rv).1).1
        = (SplitRuns stable ctgWidth ctgSumNode (deWide runCount runZero ctgZero rv).2.2
            sum preBias (deWide runCount runZero ctgZero rv).1).2 ∧
      preBias < (SplitRuns stable ctgWidth ctgSumNode
          (deWide runCount runZero ctgZero rv).2.2 sum preBias
          (deWide runCount runZero ctgZero rv).1).2 ∧
      ∀ S, 1 ≤ S → S ≤ 2 ^ ((deWide runCount runZero ctgZero rv).1 - 1) - 1 →
        subsetGini ctgWidth ctgSumNode (deWide runCount runZero ctgZero rv).2.2 sum
            ((deWide runCount runZero ctgZero rv).1 - 1) S
          ≤ (SplitRuns stable ctgWidth ctgSumNode
              (deWide runCount runZero ctgZero rv).2.2 sum preBias
              (deWide runCount runZero ctgZero rv).1).2)) := by
  have hdw : deWide runCount runZero ctgZero rv
      = (maxWidth,
         writeBack (fun i => runZero ((dePopOut runCount rv maxWidth).getD i 0))
           maxWidth runZero,
         writeBack (fun i => ctgZero ((dePopOut runCount rv maxWidth).getD i 0))
           maxWidth ctgZero) := by
    unfold deWide
    rw [if_neg (by omega)]
  have hone : (deWide runCount runZero ctgZero rv).1 = 10 := by
    rw [hdw]
    rfl
  have h511 : 2 ^ (10 - 1) - 1 = 511 := by decide
  obtain ⟨hlen, hnodup, hbound⟩ :=
    dePopOut_spec runCount rv maxWidth (Nat.le_of_lt hw)
  refine ⟨hone, ⟨?_, hnodup, hbound, ?_⟩, ⟨h511, by rw [List.length_range', h511]⟩, ?_, ?_⟩
  · rw [hlen]
    rfl
  · intro i hi
    constructor
    · rw [hdw]
      show writeBack (fun i => runZero ((dePopOut runCount rv maxWidth).getD i 0))
        maxWidth runZero i = _
      rw [writeBack_apply]
      rw [if_pos (by unfold maxWidth; omega)]
    · intro c
      rw [hdw]
      show writeBack (fun i => ctgZero ((dePopOut runCount rv maxWidth).getD i 0))
        maxWidth ctgZero i c = _
      rw [writeBack_apply]
      rw [if_pos (by unfold maxWidth; omega)]
  · intro S
    rw [List.mem_range'_1]
    omega
  · have hSR : SplitRuns stable ctgWidth ctgSumNode
        (deWide runCount runZero ctgZero rv).2.2 sum preBias
        (deWide runCount runZero ctgZero rv).1
        = splitRunsGo stable ctgWidth ctgSumNode
            (deWide runCount runZero ctgZero rv).2.2 sum
            ((deWide runCount runZero ctgZero rv).1 - 1)
            (List.range' 1 (2 ^ ((deWide runCount runZero ctgZero rv).1 - 1) - 1))
            (0, preBias) := rfl
    rw [hSR]
    obtain ⟨h1, h2, h3⟩ := splitRunsGo_max stable ctgWidth ctgSumNode
      (deWide runCount runZero ctgZero rv).2.2 sum
      ((deWide runCount runZero ctgZero rv).1 - 1)
      (List.range' 1 (2 ^ ((deWide runCount runZero ctgZero rv).1 - 1) - 1))
      (0, preBias) hstable
    constructor
    · intro hzero S hS1 hS2
      rcases h3 with ⟨_, he2⟩ | ⟨hm, _, _⟩
      · have hb := h2 S (by rw [List.mem_range'_1]; omega)
        rw [he2] at hb
        exact hb
      · rw [List.mem_range'_1] at hm
        exact absurd hzero (by omega)
    · intro hnz
      rcases h3 with ⟨he1, _⟩ | ⟨hm, hg, hlt⟩
      · exact absurd he1 hnz
      · rw [List.mem_range'_1] at hm
        refine ⟨by omega, by omega, hg, hlt, ?_⟩
        intro S hS1 hS2
        exact h2 S (by rw [List.mem_range'_1]; omega)

/-- Witness for C6 at a concrete wide candidate (11 runs, ascending
    uniform variates, everywhere-stable guard). -/
theorem SplitRuns_wide_spec_witness :
    11 > maxWidth ∧
    ((deWide 11 (fun _ => default) (fun _ _ => 1) (fun i => (i : ℚ))).1 = 10 ∧
     ((dePopOut 11 (fun i => (i : ℚ)) maxWidth).length = 10 ∧
      (dePopOut 11 (fun i => (i : ℚ)) maxWidth).Nodup ∧
      (∀ s ∈ dePopOut 11 (fun i => (i : ℚ)) maxWidth, s < 11) ∧
      ∀ i, i < 10 →
        (deWide 11 (fun _ => default) (fun _ _ => 1) (fun i => (i : ℚ))).2.1 i
            = (fun _ => (default : FRNode))
                ((dePopOut 11 (fun i => (i : ℚ)) maxWidth).getD i 0) ∧
        ∀ c, (deWide 11 (fun _ => default) (fun _ _ => 1) (fun i => (i : ℚ))).2.2 i c
            = (fun _ _ => (1 : ℚ))
                ((dePopOut 11 (fun i => (i : ℚ)) maxWidth).getD i 0) c)) :=
  ⟨by decide,
    ⟨(SplitRuns_wide_spec 11 (fun _ => default) (fun _ _ => 1) (fun i => (i : ℚ))
        (fun _ _ => true) 2 (fun _ => 1) 1 0 (by decide) (fun s _ => rfl)).1,
     (SplitRuns_wide_spec 11 (fun _ => default) (fun _ _ => 1) (fun i => (i : ℚ))
        (fun _ _ => true) 2 (fun _ => 1) 1 0 (by decide) (fun s _ => rfl)).2.1⟩⟩

/-- Modelled from the spec: the sampler's bin-index function is defined
    in the sampler header, which is absent from the source tree; the
    spec describes binning as bucketing indices into cache-sized bins,
    so the bin index is the value divided by the bin width. -/
def binIdx (binSize v : ℕ) : ℕ := v / binSize

/-- A fixed-size vector modelled as a total map with an explicit bound:
    a write outside the bound is an out-of-bounds C++ access and is
    modelled as dropped. -/
def vSet {α : Type} (size : ℕ) (f : ℕ → α) (i : ℕ) (a : α) : ℕ → α :=
  if i < size then Function.update f i a else f

/-- First loop of Sampler::binIndices (sampler.cc lines 134 to 137):
    tallies the population of each bin over a vector binPop allocated
    with 1 + binIdx(idx.size()) slots. -/
def binPopRaw (binSize m : ℕ) (idx : List ℕ) : ℕ → ℕ :=
  idx.foldl
    (fun pop v => vSet m pop (binIdx binSize v) (pop (binIdx binSize v) + 1))
    (fun _ => 0)

/-- Second loop of Sampler::binIndices (sampler.cc lines 138 to 140):
    accumulates the bin populations left to right. -/
def binPopAccum (m : ℕ) (pop : ℕ → ℕ) : ℕ → ℕ :=
  (List.range' 1 (m - 1)).foldl (fun p i => vSet m p i (p i + p (i - 1))) pop

/-- Third loop of Sampler::binIndices (sampler.cc lines 146 to 149):
    the available index of each bin starts one below its accumulated
    population. -/
def idxAvailInit (m : ℕ) (pop : ℕ → ℕ) : ℕ → ℤ :=
  fun i => if i < m then (pop i : ℤ) - 1 else 0

/-- Scatter step of Sampler::binIndices (sampler.cc lines 155 to 159):
    the element is written at its bin's available index, which is then
    decremented. -/
def scatterStep (binSize m n : ℕ) (st : (ℕ → ℤ) × (ℕ → ℕ)) (v : ℕ) :
    (ℕ → ℤ) × (ℕ → ℕ) :=
  let b := binIdx binSize v
  let d := st.1 b
  (vSet m st.1 b (d - 1),
   if 0 ≤ d ∧ d.toNat < n then Function.update st.2 d.toNat v else st.2)

/-- Sampler::binIndices (sampler.cc lines 129 to 162). -/
def binIndices (binSize : ℕ) (idx : List ℕ) : List ℕ :=
  let n := idx.length
  let m := 1 + binIdx binSize n
  let pop := binPopAccum m (binPopRaw binSize m idx)
  let avail := idxAvailInit m pop
  let out := (idx.foldl (scatterStep binSize m n) (avail, fun _ => 0)).2
  (List.range n).map out

/-- Sampler::countSamples (sampler.cc lines 111 to 126): per-row counts
    of the drawn indices, binned first when the row count spans more
    than one bin. -/
def countSamples (nRow binSize : ℕ) (draws : List ℕ) : ℕ → ℕ :=
  scCounts (if 0 < binIdx binSize nRow then binIndices binSize draws else draws)

/-- The list of bin indices of a vector. -/
def binOf (binSize : ℕ) (idx : List ℕ) : List ℕ := idx.map (binIdx binSize)

/-- Population of one bin. -/
def binCnt (binSize : ℕ) (idx : List ℕ) (b : ℕ) : ℕ := (binOf binSize idx).count b

/-- Accumulated population of the bins up to and including b. -/
def binCum (binSize : ℕ) (idx : List ℕ) (b : ℕ) : ℕ :=
  ∑ j ∈ Finset.range (b + 1), binCnt binSize idx j

lemma binPopRaw_eq (binSize m : ℕ) :
    ∀ (idx : List ℕ) (f : ℕ → ℕ), (∀ v ∈ idx, binIdx binSize v < m) →
      ∀ b, idx.foldl
          (fun pop v => vSet m pop (binIdx binSize v) (pop (binIdx binSize v) + 1)) f b
        = f b + (binOf binSize idx).count b := by
  intro idx
  induction idx with
  | nil =>
      intro f _ b
      simp [binOf]
  | cons v rest ih =>
      intro f hlt b
      have hv : binIdx binSize v < m := hlt v (List.mem_cons_self _ _)
      have hrest : ∀ w ∈ rest, binIdx binSize w < m :=
        fun w hw => hlt w (List.mem_cons_of_mem _ hw)
      rw [List.foldl_cons]
      have hset : vSet m f (binIdx binSize v) (f (binIdx binSize v) + 1)
          = Function.update f (binIdx binSize v) (f (binIdx binSize v) + 1) := by
        unfold vSet
        rw [if_pos hv]
      rw [hset, ih _ hrest b]
      have hcnt : (binOf binSize (v :: rest)).count b
          = (binOf binSize rest).count b + if b = binIdx binSize v then 1 else 0 := by
        unfold binOf
        rw [List.map_cons, List.count_cons]
        rcases eq_or_ne b (binIdx binSize v) with h | h
        · simp [h]
        · simp [h, Ne.symm h]
      rw [hcnt]
      by_cases hb : b = binIdx binSize v
      · subst hb
        rw [Function.update_same, if_pos rfl]
        omega
      · rw [Function.update_noteq hb _ f, if_neg hb]
        omega

lemma binPopAccum_go (m : ℕ) (cnt : ℕ → ℕ) :
    ∀ (r s : ℕ) (p : ℕ → ℕ), 1 ≤ s → s + r ≤ m →
      (∀ b, b < s → p b = ∑ j ∈ Finset.range (b + 1), cnt j) →
      (∀ b, s ≤ b → p b = cnt b) →
      (∀ b, b < s + r →
        (List.range' s r).foldl (fun p i => vSet m p i (p i + p (i - 1))) p b
          = ∑ j ∈ Finset.range (b + 1), cnt j) ∧
      (∀ b, s + r ≤ b →
        (List.range' s r).foldl (fun p i => vSet m p i (p i + p (i - 1))) p b = cnt b) := by
  intro r
  induction r with
  | zero =>
      intro s p hs hsm hl hr
      exact ⟨fun b hb => hl b (by omega), fun b hb => hr b (by omega)⟩
  | succ t ih =>
      intro s p hs hsm hl hr
      rw [List.range'_succ, List.foldl_cons]
      have hsm2 : s < m := by omega
      have hstep : vSet m p s (p s + p (s - 1)) = Function.update p s (p s + p (s - 1)) := by
        unfold vSet
        rw [if_pos hsm2]
      rw [hstep]
      have hps : Function.update p s (p s + p (s - 1)) s
          = cnt s + ∑ j ∈ Finset.range s, cnt j := by
        rw [Function.update_same, hr s (le_refl s), hl (s - 1) (by omega)]
        have hss : s - 1 + 1 = s := by omega
        rw [hss]
      have hl2 : ∀ b, b < s + 1 → Function.update p s (p s + p (s - 1)) b
          = ∑ j ∈ Finset.range (b + 1), cnt j := by
        intro b hb
        rcases eq_or_ne b s with h | h
        · subst h
          rw [hps, Finset.sum_range_succ]
          omega
        · rw [Function.update_noteq h _ p]
          exact hl b (by omega)
      have hr2 : ∀ b, s + 1 ≤ b → Function.update p s (p s + p (s - 1)) b = cnt b := by
        intro b hb
        rw [Function.update_noteq (by omega) _ p]
        exact hr b (by omega)
      obtain ⟨g1, g2⟩ := ih (s + 1) (Function.update p s (p s + p (s - 1)))
        (by omega) (by omega) hl2 hr2
      exact ⟨fun b hb => g1 b (by omega), fun b hb => g2 b (by omega)⟩

lemma binPop_final (binSize : ℕ) (idx : List ℕ)
    (H : ∀ v ∈ idx, binIdx binSize v < 1 + binIdx binSize idx.length) :
    ∀ b, b < 1 + binIdx binSize idx.length →
      binPopAccum (1 + binIdx binSize idx.length)
          (binPopRaw binSize (1 + binIdx binSize idx.length) idx) b
        = binCum binSize idx b := by
  intro b hb
  have hraw : ∀ c, binPopRaw binSize (1 + binIdx binSize idx.length) idx c
      = binCnt binSize idx c := by
    intro c
    unfold binPopRaw
    rw [binPopRaw_eq binSize (1 + binIdx binSize idx.length) idx (fun _ => 0) H c]
    unfold binCnt
    omega
  unfold binPopAccum
  obtain ⟨g1, _⟩ := binPopAccum_go (1 + binIdx binSize idx.length) (binCnt binSize idx)
    (1 + binIdx binSize idx.length - 1) 1
    (binPopRaw binSize (1 + binIdx binSize idx.length) idx)
    (le_refl 1) (by omega)
    (by
      intro c hc
      have hc0 : c = 0 := by omega
      subst hc0
      rw [hraw 0, Finset.sum_range_one])
    (fun c _ => hraw c)
  exact g1 b (by omega)

/-- Total population of the bins strictly below b. -/
def binLo (binSize : ℕ) (idx : List ℕ) (b : ℕ) : ℕ :=
  ∑ j ∈ Finset.range b, binCnt binSize idx j

lemma binCum_eq_lo_add (binSize : ℕ) (idx : List ℕ) (b : ℕ) :
    binCum binSize idx b = binLo binSize idx b + binCnt binSize idx b := by
  unfold binCum binLo
  rw [Finset.sum_range_succ]

lemma binOf_append_count (binSize : ℕ) (pre : List ℕ) (v b : ℕ) :
    (binOf binSize (pre ++ [v])).count b
      = (binOf binSize pre).count b + if binIdx binSize v = b then 1 else 0 := by
  unfold binOf
  rw [List.map_append, List.count_append]
  rcases eq_or_ne (binIdx binSize v) b with h | h
  · simp [h]
  · simp [h, List.count_singleton, Ne.symm h]

lemma count_suffix_lt (binSize : ℕ) (pre : List ℕ) (v : ℕ) (rest : List ℕ) :
    (binOf binSize pre).count (binIdx binSize v)
      < (binOf binSize (pre ++ v :: rest)).count (binIdx binSize v) := by
  unfold binOf
  rw [List.map_append, List.count_append, List.map_cons, List.count_cons]
  simp

lemma count_prefix_le (binSize : ℕ) (pre suf : List ℕ) (b : ℕ) :
    (binOf binSize pre).count b ≤ (binOf binSize (pre ++ suf)).count b := by
  unfold binOf
  rw [List.map_append, List.count_append]
  omega

lemma binCnt_count_le (binSize : ℕ) (idx pre suf : List ℕ) (b : ℕ)
    (h : idx = pre ++ suf) :
    (binOf binSize pre).count b ≤ binCnt binSize idx b := by
  rw [h]
  unfold binCnt
  exact count_prefix_le binSize pre suf b

lemma sum_count_le (s : Finset ℕ) (l : List ℕ) :
    ∑ j ∈ s, l.count j ≤ l.length := by
  induction l with
  | nil => simp
  | cons x t ih =>
      have h1 : ∀ j ∈ s, (x :: t).count j = t.count j + if j = x then 1 else 0 := by
        intro j _
        rw [List.count_cons]
        rcases eq_or_ne j x with h | h
        · simp [h]
        · simp [h, Ne.symm h]
      rw [Finset.sum_congr rfl h1, Finset.sum_add_distrib]
      have h2 : (∑ j ∈ s, if j = x then 1 else 0) ≤ 1 := by
        rw [Finset.sum_ite_eq' s x (fun _ => 1)]
        split <;> omega
      simp only [List.length_cons]
      omega

lemma binCum_le_length (binSize : ℕ) (idx : List ℕ) (b : ℕ) :
    binCum binSize idx b ≤ idx.length := by
  have hlen : (binOf binSize idx).length = idx.length := by
    unfold binOf
    exact List.length_map idx (binIdx binSize)
  unfold binCum binCnt
  calc ∑ j ∈ Finset.range (b + 1), (binOf binSize idx).count j
      ≤ (binOf binSize idx).length := sum_count_le _ _
    _ = idx.length := hlen

lemma binCum_le_lo (binSize : ℕ) (idx : List ℕ) (b b' : ℕ) (h : b < b') :
    binCum binSize idx b ≤ binLo binSize idx b' := by
  unfold binCum binLo
  refine Finset.sum_le_sum_of_subset ?_
  refine Finset.range_subset.mpr ?_
  omega

lemma scatter_inv (binSize m n : ℕ) (idx : List ℕ)
    (Hm : ∀ v ∈ idx, binIdx binSize v < m)
    (Hn : ∀ b, b < m → binCum binSize idx b ≤ n) :
    ∀ (suf pre : List ℕ) (st : (ℕ → ℤ) × (ℕ → ℕ)),
      idx = pre ++ suf →
      (∀ b, b < m →
        st.1 b = (binCum binSize idx b : ℤ) - 1 - (binOf binSize pre).count b) →
      (∀ b, b < m →
        ((List.range' (binCum binSize idx b - (binOf binSize pre).count b)
            ((binOf binSize pre).count b)).map st.2).Perm
          (pre.filter (fun w => binIdx binSize w == b))) →
      (∀ b, b < m →
        ((List.range' (binCum binSize idx b - binCnt binSize idx b)
            (binCnt binSize idx b)).map
              (suf.foldl (scatterStep binSize m n) st).2).Perm
          (idx.filter (fun w => binIdx binSize w == b))) := by
  intro suf
  induction suf with
  | nil =>
      intro pre st heq hA hB b hb
      rw [List.append_nil] at heq
      subst heq
      rw [List.foldl_nil]
      exact hB b hb
  | cons v rest ih =>
      intro pre st heq hA hB
      have heq' : idx = (pre ++ [v]) ++ rest := by
        rw [heq, List.append_assoc, List.singleton_append]
      have hvmem : v ∈ idx := by
        rw [heq]
        exact List.mem_append_right _ (List.mem_cons_self _ _)
      have hb0 : binIdx binSize v < m := Hm v hvmem
      have hdclt : (binOf binSize pre).count (binIdx binSize v)
          < binCnt binSize idx (binIdx binSize v) := by
        unfold binCnt
        rw [heq]
        exact count_suffix_lt binSize pre v rest
      have hcntle : binCnt binSize idx (binIdx binSize v)
          ≤ binCum binSize idx (binIdx binSize v) := by
        rw [binCum_eq_lo_add]
        omega
      have hd := hA (binIdx binSize v) hb0
      have h0le : 0 ≤ st.1 (binIdx binSize v) := by
        rw [hd]
        omega
      have hdt : (st.1 (binIdx binSize v)).toNat
          = binCum binSize idx (binIdx binSize v) - 1
            - (binOf binSize pre).count (binIdx binSize v) := by
        rw [hd]
        omega
      have hlt_n : (st.1 (binIdx binSize v)).toNat < n := by
        have := Hn (binIdx binSize v) hb0
        omega
      have h1 : (scatterStep binSize m n st v).1
          = Function.update st.1 (binIdx binSize v) (st.1 (binIdx binSize v) - 1) := by
        unfold scatterStep
        dsimp only
        unfold vSet
        rw [if_pos hb0]
      have h2 : (scatterStep binSize m n st v).2
          = Function.update st.2 (st.1 (binIdx binSize v)).toNat v := by
        unfold scatterStep
        dsimp only
        rw [if_pos ⟨h0le, hlt_n⟩]
      have hA' : ∀ b, b < m →
          (scatterStep binSize m n st v).1 b
            = (binCum binSize idx b : ℤ) - 1 - (binOf binSize (pre ++ [v])).count b := by
        intro b hbm
        rw [h1, binOf_append_count]
        rcases eq_or_ne (binIdx binSize v) b with h | h
        · subst h
          rw [Function.update_same, hd, if_pos rfl]
          push_cast
          ring
        · rw [Function.update_noteq (Ne.symm h) _ st.1, if_neg h, hA b hbm]
          omega
      have hB' : ∀ b, b < m →
          ((List.range' (binCum binSize idx b - (binOf binSize (pre ++ [v])).count b)
              ((binOf binSize (pre ++ [v])).count b)).map
            (scatterStep binSize m n st v).2).Perm
            ((pre ++ [v]).filter (fun w => binIdx binSize w == b)) := by
        intro b hbm
        rw [h2, binOf_append_count, List.filter_append]
        have hdcb : (binOf binSize pre).count b ≤ binCnt binSize idx b :=
          binCnt_count_le binSize idx pre (v :: rest) b heq
        have hcumb : binCnt binSize idx b ≤ binCum binSize idx b := by
          rw [binCum_eq_lo_add]
          omega
        rcases eq_or_ne (binIdx binSize v) b with h | h
        · subst h
          rw [if_pos rfl]
          have hfv : [v].filter (fun w => binIdx binSize w == binIdx binSize v) = [v] := by
            simp
          rw [hfv]
          have hsucc : List.range'
              (binCum binSize idx (binIdx binSize v)
                - ((binOf binSize pre).count (binIdx binSize v) + 1))
              ((binOf binSize pre).count (binIdx binSize v) + 1)
              = (st.1 (binIdx binSize v)).toNat
                :: List.range'
                  (binCum binSize idx (binIdx binSize v)
                    - (binOf binSize pre).count (binIdx binSize v))
                  ((binOf binSize pre).count (binIdx binSize v)) := by
            rw [List.range'_succ, hdt]
            have he1 : binCum binSize idx (binIdx binSize v)
                - ((binOf binSize pre).count (binIdx binSize v) + 1)
                = binCum binSize idx (binIdx binSize v) - 1
                  - (binOf binSize pre).count (binIdx binSize v) := by
              omega
            have he2 : binCum binSize idx (binIdx binSize v) - 1
                - (binOf binSize pre).count (binIdx binSize v) + 1
                = binCum binSize idx (binIdx binSize v)
                  - (binOf binSize pre).count (binIdx binSize v) := by
              omega
            rw [he1, he2]
          rw [hsucc, List.map_cons, Function.update_same]
          have htail : (List.range'
              (binCum binSize idx (binIdx binSize v)
                - (binOf binSize pre).count (binIdx binSize v))
              ((binOf binSize pre).count (binIdx binSize v))).map
                (Function.update st.2 (st.1 (binIdx binSize v)).toNat v)
              = (List.range'
              (binCum binSize idx (binIdx binSize v)
                - (binOf binSize pre).count (binIdx binSize v))
              ((binOf binSize pre).count (binIdx binSize v))).map st.2 := by
            refine List.map_congr_left ?_
            intro p hp
            rw [List.mem_range'_1] at hp
            refine Function.update_noteq ?_ _ st.2
            rw [hdt]
            omega
          rw [htail]
          refine List.Perm.trans (List.Perm.cons v (hB (binIdx binSize v) hb0)) ?_
          exact (List.perm_append_singleton v _).symm
        · rw [if_neg h]
          have hfv : [v].filter (fun w => binIdx binSize w == b) = [] := by
            simp [h]
          rw [hfv, List.append_nil]
          have hmap : (List.range'
              (binCum binSize idx b - ((binOf binSize pre).count b + 0))
              ((binOf binSize pre).count b + 0)).map
                (Function.update st.2 (st.1 (binIdx binSize v)).toNat v)
              = (List.range'
              (binCum binSize idx b - (binOf binSize pre).count b)
              ((binOf binSize pre).count b)).map st.2 := by
            rw [Nat.add_zero]
            refine List.map_congr_left ?_
            intro p hp
            rw [List.mem_range'_1] at hp
            refine Function.update_noteq ?_ _ st.2
            rw [hdt]
            rcases Nat.lt_or_ge (binIdx binSize v) b with hlt | hge
            · have hle := binCum_le_lo binSize idx (binIdx binSize v) b hlt
              have hlo := binCum_eq_lo_add binSize idx b
              omega
            · have hlt2 : b < binIdx binSize v := by
                omega
              have hle := binCum_le_lo binSize idx b (binIdx binSize v) hlt2
              have hlo := binCum_eq_lo_add binSize idx (binIdx binSize v)
              omega
          rw [hmap]
          exact hB b hbm
      rw [List.foldl_cons]
      exact ih (pre ++ [v]) (scatterStep binSize m n st v) heq' hA' hB'

lemma range_block_decomp (binSize : ℕ) (idx : List ℕ) :
    ∀ mB : ℕ, List.range' 0 (binLo binSize idx mB)
      = ((List.range mB).map
          (fun b => List.range' (binLo binSize idx b) (binCnt binSize idx b))).flatten := by
  intro mB
  induction mB with
  | zero => simp [binLo]
  | succ t ih =>
      have hlo : binLo binSize idx (t + 1) = binLo binSize idx t + binCnt binSize idx t := by
        unfold binLo
        rw [Finset.sum_range_succ]
      rw [hlo, range'_split 0 (binLo binSize idx t) (binCnt binSize idx t)]
      rw [List.range_succ, List.map_append, List.flatten_append, ← ih]
      simp

lemma join_perm_of_forall {α : Type} (F G : ℕ → List α) :
    ∀ mB : ℕ, (∀ b, b < mB → (F b).Perm (G b)) →
      (((List.range mB).map F).flatten).Perm (((List.range mB).map G).flatten) := by
  intro mB
  induction mB with
  | zero =>
      intro _
      simp
  | succ t ih =>
      intro h
      rw [List.range_succ, List.map_append, List.map_append,
        List.flatten_append, List.flatten_append]
      refine List.Perm.append (ih (fun b hb => h b (by omega))) ?_
      simp only [List.map_cons, List.map_nil, List.flatten_cons, List.flatten_nil,
        List.append_nil]
      exact h t (by omega)

lemma sum_if_range (c : ℕ) :
    ∀ (mB a : ℕ), (((List.range mB).map (fun b => if a = b then c else 0)).sum)
      = if a < mB then c else 0 := by
  intro mB
  induction mB with
  | zero =>
      intro a
      simp
  | succ t ih =>
      intro a
      rw [List.range_succ, List.map_append, List.sum_append]
      simp only [List.map_cons, List.map_nil, List.sum_cons, List.sum_nil]
      rw [ih a]
      rcases eq_or_ne a t with h | h
      · subst h
        rw [if_neg (lt_irrefl a), if_pos rfl, if_pos (by omega)]
        omega
      · rw [if_neg h]
        rcases Nat.lt_or_ge a t with hlt | hge
        · rw [if_pos hlt, if_pos (by omega)]
          omega
        · rw [if_neg (by omega), if_neg (by omega)]
          omega

lemma count_flatten_list {α : Type} [DecidableEq α] (a : α) :
    ∀ (L : List (List α)), (L.flatten).count a = (L.map (fun l => l.count a)).sum := by
  intro L
  induction L with
  | nil => simp
  | cons l rest ih =>
      rw [List.flatten_cons, List.count_append, List.map_cons, List.sum_cons, ih]

lemma count_filter_bin (binSize : ℕ) (idx : List ℕ) (a b : ℕ) :
    (idx.filter (fun w => binIdx binSize w == b)).count a
      = if binIdx binSize a = b then idx.count a else 0 := by
  rcases eq_or_ne (binIdx binSize a) b with h | h
  · rw [if_pos h]
    exact List.count_filter (by simp [h])
  · rw [if_neg h]
    refine List.count_eq_zero_of_not_mem ?_
    intro hmem
    rw [List.mem_filter] at hmem
    exact h (by simpa using hmem.2)

lemma join_filter_perm (binSize : ℕ) (idx : List ℕ) (mB : ℕ)
    (H : ∀ v ∈ idx, binIdx binSize v < mB) :
    (((List.range mB).map
      (fun b => idx.filter (fun w => binIdx binSize w == b))).flatten).Perm idx := by
  rw [List.perm_iff_count]
  intro a
  rw [count_flatten_list, List.map_map]
  have hcomp : ((fun l => List.count a l) ∘ fun b =>
      idx.filter (fun w => binIdx binSize w == b))
      = fun b => if binIdx binSize a = b then idx.count a else 0 := by
    funext b
    exact count_filter_bin binSize idx a b
  rw [hcomp, sum_if_range (idx.count a) mB (binIdx binSize a)]
  by_cases hmem : a ∈ idx
  · rw [if_pos (H a hmem)]
  · have hz : idx.count a = 0 := List.count_eq_zero_of_not_mem hmem
    rw [hz]
    split
    · rfl
    · rfl

lemma binIndices_perm (binSize : ℕ) (idx : List ℕ)
    (H : ∀ v ∈ idx, binIdx binSize v < 1 + binIdx binSize idx.length) :
    (binIndices binSize idx).Perm idx := by
  unfold binIndices
  dsimp only
  have hbinOf : ∀ w ∈ binOf binSize idx, w < 1 + binIdx binSize idx.length := by
    intro w hw
    unfold binOf at hw
    rw [List.mem_map] at hw
    obtain ⟨v, hv, hvw⟩ := hw
    rw [← hvw]
    exact H v hv
  have hlen : binLo binSize idx (1 + binIdx binSize idx.length) = idx.length := by
    unfold binLo binCnt
    rw [sum_count_range (1 + binIdx binSize idx.length) (binOf binSize idx) hbinOf]
    unfold binOf
    exact List.length_map idx (binIdx binSize)
  have hA0 : ∀ b, b < 1 + binIdx binSize idx.length →
      (idxAvailInit (1 + binIdx binSize idx.length)
        (binPopAccum (1 + binIdx binSize idx.length)
          (binPopRaw binSize (1 + binIdx binSize idx.length) idx))) b
        = (binCum binSize idx b : ℤ) - 1 - (binOf binSize ([] : List ℕ)).count b := by
    intro b hb
    unfold idxAvailInit
    rw [if_pos hb, binPop_final binSize idx H b hb]
    simp [binOf]
  have hB0 : ∀ b, b < 1 + binIdx binSize idx.length →
      ((List.range' (binCum binSize idx b - (binOf binSize ([] : List ℕ)).count b)
          ((binOf binSize ([] : List ℕ)).count b)).map
        ((idxAvailInit (1 + binIdx binSize idx.length)
          (binPopAccum (1 + binIdx binSize idx.length)
            (binPopRaw binSize (1 + binIdx binSize idx.length) idx)),
          fun _ => 0) : (ℕ → ℤ) × (ℕ → ℕ)).2).Perm
        (([] : List ℕ).filter (fun w => binIdx binSize w == b)) := by
    intro b _
    simp [binOf]
  have hreg := scatter_inv binSize (1 + binIdx binSize idx.length) idx.length idx H
    (fun b _ => binCum_le_length binSize idx b)
    idx []
    ((idxAvailInit (1 + binIdx binSize idx.length)
      (binPopAccum (1 + binIdx binSize idx.length)
        (binPopRaw binSize (1 + binIdx binSize idx.length) idx)),
      fun _ => 0) : (ℕ → ℤ) × (ℕ → ℕ))
    (by rw [List.nil_append]) hA0 hB0
  have hlob : ∀ b, binCum binSize idx b - binCnt binSize idx b = binLo binSize idx b := by
    intro b
    rw [binCum_eq_lo_add]
    omega
  have hdecomp : List.range' 0 idx.length
      = ((List.range (1 + binIdx binSize idx.length)).map
          (fun b => List.range' (binLo binSize idx b) (binCnt binSize idx b))).flatten := by
    conv_lhs => rw [← hlen]
    exact range_block_decomp binSize idx (1 + binIdx binSize idx.length)
  rw [List.range_eq_range', hdecomp, List.map_flatten, List.map_map]
  refine List.Perm.trans
    (join_perm_of_forall _ (fun b => idx.filter (fun w => binIdx binSize w == b))
      (1 + binIdx binSize idx.length) ?_)
    (join_filter_perm binSize idx (1 + binIdx binSize idx.length) H)
  intro b hb
  have hthis := hreg b hb
  rw [hlob b] at hthis
  dsimp only [Function.comp]
  exact hthis

/-- C8 (amended): for every input index vector all of whose elements fall in
    bins within the allocated binPop array (the array holds `1 + binIdx(size)`
    slots, so every element's bin index must be at most `binIdx(size)`),
    Sampler::binIndices returns a permutation of its input, and the per-row
    sample-count vector produced by Sampler::countSamples is then identical
    whether or not the binning pass is applied.  The original universal claim
    is refuted by `binIndices_not_perm_claim_false`: an element whose bin
    index exceeds `binIdx(size)` is written through an out-of-bounds binPop
    slot and the output is no longer a permutation. -/
theorem binIndices_refines_identity (binSize nRow : ℕ) (idx : List ℕ)
    (H : ∀ v ∈ idx, binIdx binSize v < 1 + binIdx binSize idx.length) :
    (binIndices binSize idx).Perm idx ∧
    ∀ r, countSamples nRow binSize idx r = scCounts idx r := by
  have hperm := binIndices_perm binSize idx H
  refine ⟨hperm, ?_⟩
  intro r
  unfold countSamples
  split
  · unfold scCounts
    rw [update_count_fold r, update_count_fold r, List.Perm.count_eq hperm]
  · rfl

/-- C8 counterexample: with bin width 2 and input [4, 4] (two draws of row 4,
    a row whose bin index 2 exceeds binIdx(size) = 1), binPop has 2 slots but
    bin 2 is accessed out of bounds; the scatter writes both elements to
    position 0 and the result [4, 0] is not a permutation of the input, and
    the per-row counts change when the binning pass is applied. -/
theorem binIndices_not_perm_claim_false :
    ¬ (binIndices 2 [4, 4]).Perm [4, 4] ∧
    ¬ (∀ r, countSamples 5 2 [4, 4] r = scCounts [4, 4] r) := by
  constructor
  · decide
  · intro h
    exact absurd (h 4) (by decide)

/-- C8 witness: bin width 2 and input [0, 1, 2, 3] (all bins within bounds). -/
theorem binIndices_refines_identity_witness :
    (∀ v ∈ ([0, 1, 2, 3] : List ℕ), binIdx 2 v < 1 + binIdx 2 ([0, 1, 2, 3] : List ℕ).length) ∧
    ((binIndices 2 [0, 1, 2, 3]).Perm [0, 1, 2, 3] ∧
      ∀ r, countSamples 5 2 [0, 1, 2, 3] r = scCounts [0, 1, 2, 3] r) :=
  ⟨by decide, binIndices_refines_identity 2 5 [0, 1, 2, 3] (by decide)⟩
